import Mathlib

/-!
Verification of the `bplustree` repository (an on-disk B+tree for Python 3).

This file shallowly embeds the data model and the operations of the
repository:

* entry types `RecordE` / `RefE` mirror `bplustree/entry.py` (`Record`,
  `Reference`);
* the node taxonomy `BNode` mirrors `bplustree/node.py`
  (`LonelyRootNode`, `RootNode`, `InternalNode`, `LeafNode`), keeping a
  `nextPage` field only on leaves exactly as the constructors do;
* byte-level serialization mirrors `Node.load` / `Node.dump` /
  `Node.from_page_data` and `Record.load/dump`, `Reference.load/dump`,
  with bytes as `List Nat` (each < 256) and little-endian integers;
* the write-ahead log and `FileMemory` transaction discipline mirror
  `bplustree/memory.py`;
* the tree operations (`get`, `insert`, splits, range scan) mirror
  `bplustree/tree.py`, with the page file modelled as a total function
  from page numbers to nodes and the in-memory parent chain modelled as
  the explicit list of reference nodes traversed during the descent.

Keys are Python ints, embedded as `Int`; values are byte strings,
embedded as `List Nat`.
-/

/-- A `Record` entry (entry.py): the key, an optional inline value and an
optional overflow page.  Exactly one of value / overflow page is expected
to be present; the tree code in `tree.py` only ever builds inline
values. -/
structure RecordE where
  key : Int
  value : Option (List Nat)
  overflowPage : Option Nat
deriving Repr, DecidableEq

/-- A `Reference` entry (entry.py): a separator key together with the
pages holding keys smaller (`before`) and greater or equal (`after`). -/
structure RefE where
  key : Int
  before : Nat
  after : Nat
deriving Repr, DecidableEq

/-- The node taxonomy of `node.py`.  `LonelyRootNode` (type 1) and
`LeafNode` (type 4) hold records, `RootNode` (type 2) and `InternalNode`
(type 3) hold references.  Only the `LeafNode` constructor accepts a
`next_page`, so only `leaf` carries one here. -/
inductive BNode where
  | lonelyRoot (entries : List RecordE)
  | root (entries : List RefE)
  | internal (entries : List RefE)
  | leaf (entries : List RecordE) (nextPage : Option Nat)
deriving Repr, DecidableEq

/-! ### Pure list helpers shared by the node operations -/

/-- Insert at position `n` (Python `list.insert` via `bisect.insort`). -/
def insertAt (n : Nat) (e : α) (l : List α) : List α :=
  match n, l with
  | 0, l => e :: l
  | _ + 1, [] => [e]
  | n + 1, x :: xs => x :: insertAt n e xs

/-- Apply `f` to the element at position `n`, leaving the list unchanged
when `n` is out of range (mirrors the `try ... except IndexError: pass`
in `ReferenceNode.insert_entry`). -/
def modifyAt (f : α → α) (n : Nat) (l : List α) : List α :=
  match n, l with
  | _, [] => []
  | 0, x :: xs => f x :: xs
  | n + 1, x :: xs => x :: modifyAt f n xs

/-! ### Node-level operations (node.py) -/

/-- `bisect.insort(self.entries, entry)` for records: on a key-sorted
list this inserts the entry after all entries with a smaller-or-equal
key, which is exactly what the recursion below computes. -/
def insortRec (e : RecordE) : List RecordE → List RecordE
  | [] => [e]
  | x :: xs => if x.key ≤ e.key then x :: insortRec e xs else e :: x :: xs

/-- `bisect.bisect_right` insertion point of `e` by key: on a key-sorted
list this is the number of entries whose key is ≤ `e.key`. -/
def bisectRightRef (e : RefE) (l : List RefE) : Nat :=
  l.countP (fun x => decide (x.key ≤ e.key))

/-- `ReferenceNode.insert_entry` (node.py lines 234-249): sorted insert
via `bisect.insort`, then locate the inserted entry with `list.index`
(first entry with an equal key, since entry equality compares keys only)
and repair the fences: the previous entry's `after` becomes `e.before`,
the next entry's `before` becomes `e.after`. -/
def refInsertEntry (e : RefE) (l : List RefE) : List RefE :=
  let l1 := insertAt (bisectRightRef e l) e l
  let i := l1.findIdx (fun x => decide (x.key = e.key))
  let l2 :=
    if i = 0 then l1 else modifyAt (fun p => { p with after := e.before }) (i - 1) l1
  modifyAt (fun n => { n with before := e.after }) (i + 1) l2

/-- `Node.split_entries`: keep the lower half, return the upper half. -/
def splitLower (l : List α) : List α := l.take (l.length / 2)

/-- The upper half returned by `Node.split_entries`. -/
def splitUpper (l : List α) : List α := l.drop (l.length / 2)

/-- The inner loop of the fence rule: `for ref_a, ref_b in
pairwise(node._entries): if ref_a.key <= key < ref_b.key: page =
ref_a.after` (src/bplustree.py lines 123-126). -/
def pairwiseFindPage : List RefE → Int → Option Nat
  | a :: b :: rest, k =>
      if a.key ≤ k ∧ k < b.key then some a.after else pairwiseFindPage (b :: rest) k
  | _, _ => none

/-- The fence rule selecting the child page for a key in a reference
node.  `bplustree/tree.py` calls `node.find_next_node_page(key)`, a
method absent from `bplustree/node.py`; the rule is embedded from the
in-line implementation in `src/bplustree.py` `_search_in_tree`
(lines 110-132), which is also the rule stated by the spec.  `none`
models the `IndexError`/failed `assert page is not None` paths (empty
node, or no matching pair). -/
def findNextNodePage (l : List RefE) (k : Int) : Option Nat :=
  match l.head?, l.getLast? with
  | some s, some b =>
      if k < s.key then some s.before
      else if b.key ≤ k then some b.after
      else pairwiseFindPage l k
  | _, _ => none

/-- Keys of a list of reference entries. -/
def refKeys (l : List RefE) : List Int := l.map RefE.key

/-- Keys of a list of record entries. -/
def recKeys (l : List RecordE) : List Int := l.map RecordE.key

/-- Strictly ascending keys (the in-node sorting invariant). -/
def SortedRefs (l : List RefE) : Prop := l.Pairwise (fun a b => a.key < b.key)

/-- Strictly ascending keys for records. -/
def SortedRecs (l : List RecordE) : Prop := l.Pairwise (fun a b => a.key < b.key)

/-- The fence invariant of a reference node: adjacent entries share a
child page (`E_i.after == E_{i+1}.before`). -/
def ChainedRefs (l : List RefE) : Prop :=
  l.Chain' (fun a b => a.after = b.before)

/-- Apply `f` to the last element of a list. -/
def mapLast (f : α → α) : List α → List α
  | [] => []
  | [x] => [f x]
  | x :: y :: xs => x :: mapLast f (y :: xs)

theorem sortedRefs_iff_keys (l : List RefE) :
    SortedRefs l ↔ (refKeys l).Pairwise (· < ·) := by
  unfold SortedRefs refKeys
  rw [List.pairwise_map]

theorem sortedRecs_iff_keys (l : List RecordE) :
    SortedRecs l ↔ (recKeys l).Pairwise (· < ·) := by
  unfold SortedRecs recKeys
  rw [List.pairwise_map]

theorem refKeys_append (a b : List RefE) :
    refKeys (a ++ b) = refKeys a ++ refKeys b := by
  simp [refKeys]

theorem refKeys_mapLast (f : RefE → RefE) (hf : ∀ x, (f x).key = x.key)
    (l : List RefE) : refKeys (mapLast f l) = refKeys l := by
  induction l with
  | nil => rfl
  | cons x xs ih =>
      cases xs with
      | nil => simp [mapLast, refKeys, hf]
      | cons y ys =>
          simp only [mapLast, refKeys, List.map_cons] at ih ⊢
          exact congrArg _ ih

theorem refKeys_modifyAt (f : RefE → RefE) (hf : ∀ x, (f x).key = x.key)
    (n : Nat) (l : List RefE) : refKeys (modifyAt f n l) = refKeys l := by
  induction l generalizing n with
  | nil => cases n <;> rfl
  | cons x xs ih =>
      cases n with
      | zero => simp [modifyAt, refKeys, hf]
      | succ m =>
          simp only [modifyAt, refKeys, List.map_cons] at ih ⊢
          exact congrArg _ (ih m)

/-! #### Characterizing `refInsertEntry` on sorted input -/

theorem insertAt_length_append (L R : List α) (e : α) :
    insertAt L.length e (L ++ R) = L ++ e :: R := by
  induction L with
  | nil => rfl
  | cons x xs ih => simpa [insertAt] using ih

theorem countP_lt_key (e : RefE) (L : List RefE)
    (hL : ∀ x ∈ L, x.key < e.key) :
    L.countP (fun x => decide (x.key ≤ e.key)) = L.length := by
  induction L with
  | nil => rfl
  | cons x xs ih =>
      have hx : x.key ≤ e.key := le_of_lt (hL x (by simp))
      have ihx := ih (fun y hy => hL y (by simp [hy]))
      simp [List.countP_cons, hx, ihx]

theorem countP_gt_key (e : RefE) (R : List RefE)
    (hR : ∀ x ∈ R, e.key < x.key) :
    R.countP (fun x => decide (x.key ≤ e.key)) = 0 := by
  induction R with
  | nil => rfl
  | cons x xs ih =>
      have hx : ¬ x.key ≤ e.key := not_le.mpr (hR x (by simp))
      have ihx := ih (fun y hy => hR y (by simp [hy]))
      simp [List.countP_cons, hx, ihx]

theorem bisectRightRef_sorted (e : RefE) (L R : List RefE)
    (hL : ∀ x ∈ L, x.key < e.key) (hR : ∀ x ∈ R, e.key < x.key) :
    bisectRightRef e (L ++ R) = L.length := by
  unfold bisectRightRef
  rw [List.countP_append, countP_lt_key e L hL, countP_gt_key e R hR]
  omega

theorem findIdx_key_append (e : RefE) (L R : List RefE)
    (hL : ∀ x ∈ L, x.key < e.key) :
    (L ++ e :: R).findIdx (fun x => decide (x.key = e.key)) = L.length := by
  induction L with
  | nil => simp [List.findIdx_cons]
  | cons x xs ih =>
      have hx : x.key ≠ e.key := ne_of_lt (hL x (by simp))
      have ihx := ih (fun y hy => hL y (by simp [hy]))
      simp [List.cons_append, List.findIdx_cons, hx, ihx]

theorem modifyAt_append (f : α → α) (L l : List α) (n : Nat) :
    modifyAt f (L.length + n) (L ++ l) = L ++ modifyAt f n l := by
  induction L with
  | nil => simp
  | cons x xs ih => simpa [modifyAt, Nat.succ_add] using ih

theorem modifyAt_last_append (f : α → α) (L : List α) (x : α) (r : List α) :
    modifyAt f L.length (L ++ x :: r) = L ++ f x :: r := by
  have := modifyAt_append f L (x :: r) 0
  simpa [modifyAt] using this

theorem modifyAt_head_append (f : α → α) (L r : List α) :
    modifyAt f L.length (L ++ r) = L ++ modifyAt f 0 r := by
  exact modifyAt_append f L r 0

theorem mapLast_concat (f : α → α) (L : List α) (p : α) :
    mapLast f (L ++ [p]) = L ++ [f p] := by
  induction L with
  | nil => rfl
  | cons x xs ih =>
      cases xs with
      | nil => rfl
      | cons y ys => simp [mapLast] at ih ⊢; exact ih

/-- The behaviour of `ReferenceNode.insert_entry` on a key-sorted list in
which the new key does not yet occur: the new entry lands between the
entries with smaller keys and those with greater keys, the last smaller
entry gets `after := e.before` and the first greater entry gets
`before := e.after`. -/
theorem refInsertEntry_sorted (e : RefE) (L R : List RefE)
    (hL : ∀ x ∈ L, x.key < e.key) (hR : ∀ x ∈ R, e.key < x.key) :
    refInsertEntry e (L ++ R) =
      mapLast (fun p => { p with after := e.before }) L ++
        e :: modifyAt (fun n => { n with before := e.after }) 0 R := by
  simp only [refInsertEntry]
  rw [bisectRightRef_sorted e L R hL hR, insertAt_length_append,
    findIdx_key_append e L R hL]
  cases hLnil : L with
  | nil =>
      simp only [List.length_nil, if_pos rfl, List.nil_append]
      have h4 := modifyAt_append (fun n => { n with before := e.after })
        [e] R 0
      simp only [List.length_cons, List.length_nil, List.singleton_append,
        Nat.zero_add] at h4
      simp only [mapLast, List.nil_append]
      exact h4
  | cons x xs =>
      have hne : (x :: xs).length ≠ 0 := by simp
      rw [if_neg hne]
      obtain ⟨L0, p, hLp⟩ : ∃ L0 p, x :: xs = L0 ++ [p] := by
        rcases List.eq_nil_or_concat (x :: xs) with h | ⟨L0, p, h⟩
        · simp at h
        · exact ⟨L0, p, by simpa using h⟩
      rw [hLp]
      have hlen : (L0 ++ [p]).length - 1 = L0.length := by simp
      rw [hlen]
      have h1 : L0 ++ [p] ++ e :: R = L0 ++ p :: e :: R := by simp
      rw [h1, modifyAt_last_append, mapLast_concat]
      have h2 : (L0 ++ [p]).length + 1 = (L0 ++ [{ p with after := e.before }] ++ [e]).length := by
        simp
      have h3 : L0 ++ { p with after := e.before } :: e :: R =
          (L0 ++ [{ p with after := e.before }] ++ [e]) ++ R := by simp
      rw [h3, h2, modifyAt_head_append]
      simp

theorem getLast?_mapLast (f : α → α) (l : List α) :
    (mapLast f l).getLast? = l.getLast?.map f := by
  rcases List.eq_nil_or_concat l with rfl | ⟨L0, p, h⟩
  · rfl
  · rw [List.concat_eq_append] at h
    subst h
    rw [mapLast_concat, List.getLast?_concat, List.getLast?_concat]
    rfl

theorem head?_modifyAt_zero (f : α → α) (l : List α) :
    (modifyAt f 0 l).head? = l.head?.map f := by
  cases l <;> rfl

/-- A sorted list with a key not occurring in it splits into the entries
with smaller keys followed by the entries with greater keys. -/
theorem sorted_split_at_key {α : Type} (key : α → Int) (k : Int) (l : List α)
    (hs : l.Pairwise (fun a b => key a < key b)) (hf : k ∉ l.map key) :
    ∃ L R, l = L ++ R ∧ (∀ x ∈ L, key x < k) ∧ (∀ x ∈ R, k < key x) := by
  induction l with
  | nil => exact ⟨[], [], rfl, by simp, by simp⟩
  | cons x xs ih =>
      rw [List.pairwise_cons] at hs
      simp only [List.map_cons, List.mem_cons, not_or] at hf
      rcases lt_trichotomy (key x) k with h | h | h
      · obtain ⟨L, R, hlr, hL, hR⟩ := ih hs.2 hf.2
        refine ⟨x :: L, R, by simp [hlr], ?_, hR⟩
        intro y hy
        rcases List.mem_cons.mp hy with rfl | hy
        · exact h
        · exact hL y hy
      · exact absurd h.symm hf.1
      · refine ⟨[], x :: xs, rfl, by simp, ?_⟩
        intro y hy
        rcases List.mem_cons.mp hy with rfl | hy
        · exact h
        · exact lt_trans h (hs.1 y hy)

theorem sorted_insert_middle (e : RefE) (L R : List RefE)
    (hs : SortedRefs (L ++ R))
    (hL : ∀ x ∈ L, x.key < e.key) (hR : ∀ x ∈ R, e.key < x.key) :
    SortedRefs (L ++ e :: R) := by
  unfold SortedRefs at hs ⊢
  rw [List.pairwise_append] at hs
  rw [List.pairwise_append]
  refine ⟨hs.1, ?_, ?_⟩
  · rw [List.pairwise_cons]
    exact ⟨fun b hb => hR b hb, hs.2.1⟩
  · intro a ha b hb
    rcases List.mem_cons.mp hb with rfl | hb
    · exact hL a ha
    · exact hs.2.2 a ha b hb

/-- C9: `ReferenceNode.insert_entry` on a Reference node with strictly
sorted entries satisfying the fence invariant, given an entry `e` with a
fresh key, keeps the entries strictly sorted, sets the `after` of the
entry immediately preceding `e` to `e.before` and the `before` of the
entry immediately following `e` to `e.after`. -/
theorem referenceNode_insertEntry_fence (e : RefE) (l : List RefE)
    (hsorted : SortedRefs l) (hchain : ChainedRefs l)
    (hfresh : e.key ∉ refKeys l) :
    ∃ L R, l = L ++ R ∧ (∀ x ∈ L, x.key < e.key) ∧ (∀ x ∈ R, e.key < x.key) ∧
      refInsertEntry e l =
        mapLast (fun a => { a with after := e.before }) L ++
          e :: modifyAt (fun a => { a with before := e.after }) 0 R ∧
      SortedRefs (refInsertEntry e l) ∧
      (∀ p, (mapLast (fun a => { a with after := e.before }) L).getLast? = some p →
        p.after = e.before) ∧
      (∀ q, (modifyAt (fun a => { a with before := e.after }) 0 R).head? = some q →
        q.before = e.after) := by
  obtain ⟨L, R, hlr, hL, hR⟩ :=
    sorted_split_at_key RefE.key e.key l hsorted hfresh
  subst hlr
  have heq := refInsertEntry_sorted e L R hL hR
  refine ⟨L, R, rfl, hL, hR, heq, ?_, ?_, ?_⟩
  · rw [heq]
    rw [sortedRefs_iff_keys]
    have h1 : refKeys (mapLast (fun a => { a with after := e.before }) L ++
        e :: modifyAt (fun a => { a with before := e.after }) 0 R) =
        refKeys (L ++ e :: R) := by
      rw [refKeys_append, refKeys_append,
        refKeys_mapLast (fun a => { a with after := e.before }) (fun x => rfl)]
      have := refKeys_modifyAt (fun a => { a with before := e.after })
        (fun x => rfl) 0 R
      simp [refKeys] at this ⊢
      exact this
    rw [h1, ← sortedRefs_iff_keys]
    exact sorted_insert_middle e L R hsorted hL hR
  · intro p hp
    rw [getLast?_mapLast] at hp
    cases h : L.getLast? with
    | none => rw [h] at hp; simp at hp
    | some q => rw [h] at hp; simp at hp; rw [← hp]
  · intro q hq
    rw [head?_modifyAt_zero] at hq
    cases h : R.head? with
    | none => rw [h] at hq; simp at hq
    | some r => rw [h] at hq; simp at hq; rw [← hq]

/-! #### The fence rule (C6) -/

theorem sortedRefs_get_lt (l : List RefE) (hs : SortedRefs l)
    (i j : Fin l.length) (hij : (i : Nat) < j) :
    (l.get i).key < (l.get j).key := by
  exact List.pairwise_iff_get.mp hs i j hij

theorem sortedRefs_get_le (l : List RefE) (hs : SortedRefs l)
    (i j : Fin l.length) (hij : (i : Nat) ≤ j) :
    (l.get i).key ≤ (l.get j).key := by
  rcases lt_or_eq_of_le hij with h | h
  · exact le_of_lt (sortedRefs_get_lt l hs i j h)
  · have : i = j := Fin.ext h
    rw [this]

theorem head?_some_get (l : List α) (s : α) (h : l.head? = some s) :
    ∃ hl : 0 < l.length, l.get ⟨0, hl⟩ = s := by
  cases l with
  | nil => simp at h
  | cons x xs =>
      simp only [List.head?_cons, Option.some.injEq] at h
      exact ⟨by simp, by simp [h]⟩

theorem getLast?_some_get (l : List α) (b : α) (h : l.getLast? = some b) :
    ∃ hl : l.length - 1 < l.length, l.get ⟨l.length - 1, hl⟩ = b := by
  have hne : l ≠ [] := by
    intro hnil
    rw [hnil] at h
    simp at h
  rw [List.getLast?_eq_getLast l hne] at h
  have hb : l.getLast hne = b := Option.some.inj h
  have h3 : l.getLast hne = l.get ⟨l.length - 1, by
      cases l with
      | nil => exact absurd rfl hne
      | cons x xs => simp⟩ := by
    rw [List.getLast_eq_getElem]
    rfl
  have hl : l.length - 1 < l.length := by
    cases l with
    | nil => exact absurd rfl hne
    | cons x xs => simp
  exact ⟨hl, by rw [← hb, h3]⟩

theorem pairwiseFindPage_middle (l : List RefE) (k : Int) (hs : SortedRefs l)
    (i : Nat) (hi : i + 1 < l.length) (hi0 : i < l.length)
    (h1 : (l.get ⟨i, hi0⟩).key ≤ k) (h2 : k < (l.get ⟨i + 1, hi⟩).key) :
    pairwiseFindPage l k = some (l.get ⟨i, hi0⟩).after := by
  induction l generalizing i with
  | nil => simp at hi
  | cons a xs ih =>
      cases xs with
      | nil => simp at hi
      | cons b rest =>
          cases i with
          | zero =>
              have ha : (a :: b :: rest).get ⟨0, hi0⟩ = a := rfl
              have hb : (a :: b :: rest).get ⟨1, hi⟩ = b := rfl
              rw [ha] at h1
              rw [hb] at h2
              simp only [pairwiseFindPage, ha]
              rw [if_pos ⟨h1, h2⟩]
          | succ j =>
              have hs2 : SortedRefs (b :: rest) := (List.pairwise_cons.mp hs).2
              have hj1 : j + 1 < (b :: rest).length := by
                simpa using hi
              have hj0 : j < (b :: rest).length := by omega
              have hcast1 : (a :: b :: rest).get ⟨j + 1, hi0⟩ =
                  (b :: rest).get ⟨j, hj0⟩ := rfl
              have hcast2 : (a :: b :: rest).get ⟨j + 2, hi⟩ =
                  (b :: rest).get ⟨j + 1, hj1⟩ := rfl
              rw [hcast1] at h1
              rw [hcast2] at h2
              have hbk : b.key ≤ k := by
                have h0 : (b :: rest).get ⟨0, by simp⟩ = b := rfl
                have := sortedRefs_get_le (b :: rest) hs2 ⟨0, by simp⟩
                  ⟨j, hj0⟩ (by simp)
                rw [h0] at this
                exact le_trans this h1
              simp only [pairwiseFindPage]
              rw [if_neg (by
                intro hc
                exact absurd hc.2 (not_lt.mpr hbk))]
              rw [hcast1]
              exact ih hs2 j hj1 hj0 h1 h2

/-- C6: for a Reference node with strictly sorted entries and any key
`k`, the fence rule selects `e_0.before` when `k < e_0.key`, selects
`e_last.after` when `e_last.key ≤ k`, and otherwise selects `e_i.after`
for the `i` with `e_i.key ≤ k < e_{i+1}.key`. -/
theorem findNextNodePage_fence_rule (l : List RefE) (k : Int)
    (hs : SortedRefs l) (s b : RefE)
    (hhead : l.head? = some s) (hlast : l.getLast? = some b) :
    (k < s.key → findNextNodePage l k = some s.before) ∧
    (b.key ≤ k → findNextNodePage l k = some b.after) ∧
    (∀ (i : Nat) (hi : i + 1 < l.length) (hi0 : i < l.length),
      (l.get ⟨i, hi0⟩).key ≤ k → k < (l.get ⟨i + 1, hi⟩).key →
      findNextNodePage l k = some (l.get ⟨i, hi0⟩).after) := by
  obtain ⟨h0, hs0⟩ := head?_some_get l s hhead
  obtain ⟨hn, hbn⟩ := getLast?_some_get l b hlast
  have hsb : s.key ≤ b.key := by
    rw [← hs0, ← hbn]
    exact sortedRefs_get_le l hs ⟨0, h0⟩ ⟨l.length - 1, hn⟩ (by simp)
  refine ⟨?_, ?_, ?_⟩
  · intro h
    simp only [findNextNodePage, hhead, hlast]
    rw [if_pos h]
  · intro h
    simp only [findNextNodePage, hhead, hlast]
    rw [if_neg (not_lt.mpr (le_trans hsb h)), if_pos h]
  · intro i hi hi0 h1 h2
    have hks : ¬ k < s.key := by
      rw [not_lt, ← hs0]
      exact le_trans (sortedRefs_get_le l hs ⟨0, h0⟩ ⟨i, hi0⟩ (by simp)) h1
    have hkb : ¬ b.key ≤ k := by
      rw [not_le, ← hbn]
      exact lt_of_lt_of_le h2
        (sortedRefs_get_le l hs ⟨i + 1, hi⟩ ⟨l.length - 1, hn⟩
          (by simp; omega))
    simp only [findNextNodePage, hhead, hlast]
    rw [if_neg hks, if_neg hkb]
    exact pairwiseFindPage_middle l k hs i hi hi0 h1 h2

/-! ### Byte-level serialization (const.py, serializer.py, entry.py, node.py)

Bytes are modelled as `List Nat` (each element < 256); multi-byte
integers are little-endian as in `const.py` (`ENDIAN = 'little'`).
Sizes: page references 4 bytes, node type 1 byte, used page length
3 bytes, used key/value lengths 2 bytes. -/

/-- `int.to_bytes(len, 'little')`. -/
def leBytes (n : Nat) : Nat → List Nat
  | 0 => []
  | len + 1 => (n % 256) :: leBytes (n / 256) len

/-- `int.from_bytes(bs, 'little')`. -/
def leVal : List Nat → Nat
  | [] => 0
  | b :: bs => b + 256 * leVal bs

theorem leBytes_length (n len : Nat) : (leBytes n len).length = len := by
  induction len generalizing n with
  | zero => rfl
  | succ m ih => simp [leBytes, ih]

theorem leVal_leBytes (n len : Nat) (h : n < 256 ^ len) :
    leVal (leBytes n len) = n := by
  induction len generalizing n with
  | zero =>
      simp [leBytes, leVal]
      omega
  | succ m ih =>
      have hdiv : n / 256 < 256 ^ m := by
        rw [Nat.div_lt_iff_lt_mul (by norm_num)]
        calc n < 256 ^ (m + 1) := h
          _ = 256 ^ m * 256 := by ring
      simp only [leBytes, leVal, ih (n / 256) hdiv]
      omega

/-- The tree configuration (const.py `TreeConf`); the serializer is fixed
to `IntSerializer`. -/
structure TreeConf where
  pageSize : Nat
  order : Nat
  keySize : Nat
  valueSize : Nat
deriving Repr, DecidableEq

/-- `IntSerializer.serialize`: `obj.to_bytes(key_size, ENDIAN)`. -/
def intSerialize (k : Int) (keySize : Nat) : List Nat :=
  leBytes k.toNat keySize

/-- `IntSerializer.deserialize`: `int.from_bytes(data, ENDIAN)`. -/
def intDeserialize (bs : List Nat) : Int :=
  (leVal bs : Nat)

/-- Byte length of a serialized `Record`
(= 2 + key_size + 2 + value_size + 4, entry.py lines 56-60). -/
def recordLength (c : TreeConf) : Nat :=
  2 + c.keySize + 2 + c.valueSize + 4

/-- Byte length of a serialized `Reference`
(= 4 + 2 + key_size + 4, entry.py lines 189-193). -/
def refLength (c : TreeConf) : Nat :=
  2 * 4 + 2 + c.keySize

/-- `Record.dump` (entry.py lines 143-169).  `overflow_page or 0` maps
`none` to `0`; a non-zero overflow page forces an empty value; the
value defaults to `[]` only to make the function total (Python would
raise on a `None` value there). -/
def recordDump (c : TreeConf) (r : RecordE) : List Nat :=
  let keyBytes := intSerialize r.key c.keySize
  let usedKeyLength := keyBytes.length
  let overflowPage := r.overflowPage.getD 0
  let value := if overflowPage ≠ 0 then [] else r.value.getD []
  let usedValueLength := value.length
  leBytes usedKeyLength 2 ++ keyBytes ++
    List.replicate (c.keySize - usedKeyLength) 0 ++
    leBytes usedValueLength 2 ++ value ++
    List.replicate (c.valueSize - usedValueLength) 0 ++
    leBytes overflowPage 4

/-- `Record.load` (entry.py lines 105-141). -/
def recordLoad (c : TreeConf) (data : List Nat) : RecordE :=
  let usedKeyLength := leVal (data.take 2)
  let key := intDeserialize ((data.drop 2).take usedKeyLength)
  let startUsedValueLength := 2 + c.keySize
  let usedValueLength := leVal ((data.drop startUsedValueLength).take 2)
  let endUsedValueLength := startUsedValueLength + 2
  let startOverflow := endUsedValueLength + c.valueSize
  let overflowPage := leVal ((data.drop startOverflow).take 4)
  if overflowPage ≠ 0 then
    ⟨key, none, some overflowPage⟩
  else
    ⟨key, some ((data.drop endUsedValueLength).take usedValueLength), none⟩

/-- `Reference.dump` (entry.py lines 258-278). -/
def refDump (c : TreeConf) (e : RefE) : List Nat :=
  let keyBytes := intSerialize e.key c.keySize
  let usedKeyLength := keyBytes.length
  leBytes e.before 4 ++ leBytes usedKeyLength 2 ++ keyBytes ++
    List.replicate (c.keySize - usedKeyLength) 0 ++ leBytes e.after 4

/-- `Reference.load` (entry.py lines 238-256). -/
def refLoad (c : TreeConf) (data : List Nat) : RefE :=
  let before := leVal (data.take 4)
  let usedKeyLength := leVal ((data.drop 4).take 2)
  let key := intDeserialize ((data.drop 6).take usedKeyLength)
  let startAfter := 4 + 2 + c.keySize
  let after := leVal ((data.drop startAfter).take 4)
  ⟨key, before, after⟩

/-- The 1-byte node type tag (`_node_type_int`). -/
def nodeTypeInt : BNode → Nat
  | .lonelyRoot _ => 1
  | .root _ => 2
  | .internal _ => 3
  | .leaf _ _ => 4

/-- The `next_page` a node would dump (only leaves carry one). -/
def nodeNextPage : BNode → Option Nat
  | .leaf _ np => np
  | _ => none

/-- The concatenated bytes of the node's entries. -/
def nodeEntriesBytes (c : TreeConf) : BNode → List Nat
  | .lonelyRoot es => (es.map (recordDump c)).flatten
  | .leaf es _ => (es.map (recordDump c)).flatten
  | .root es => (es.map (refDump c)).flatten
  | .internal es => (es.map (refDump c)).flatten

/-- The `used_length` a node dump records: entry bytes plus the 4-byte
type + used-length prefix (node.py line 55). -/
def nodeUsedLength (c : TreeConf) (n : BNode) : Nat :=
  (nodeEntriesBytes c n).length + 4

/-- `Node.dump` (node.py lines 50-71): header
`[type:1][used_length:3][next_page:4]`, entries, zero padding to
`page_size`. -/
def nodeDump (c : TreeConf) (n : BNode) : List Nat :=
  let data := nodeEntriesBytes c n
  let nextPage := (nodeNextPage n).getD 0
  let header := leBytes (nodeTypeInt n) 1 ++
    leBytes (nodeUsedLength c n) 3 ++ leBytes nextPage 4
  let d2 := header ++ data
  d2 ++ List.replicate (c.pageSize - d2.length) 0

/-- Number of iterations of `range(start, stop, step)` for positive
`step`. -/
def rangeCount (start stop step : Nat) : Nat :=
  (stop - start + step - 1) / step

/-- The record entries decoded by `Node.load` (node.py lines 44-48):
one fixed-size slice per index of `range(8, used_page_length, length)`. -/
def loadRecEntries (c : TreeConf) (data : List Nat) (upl : Nat) :
    List RecordE :=
  (List.range (rangeCount 8 upl (recordLength c))).map
    (fun i => recordLoad c ((data.drop (8 + i * recordLength c)).take
      (recordLength c)))

/-- The reference entries decoded by `Node.load`. -/
def loadRefEntries (c : TreeConf) (data : List Nat) (upl : Nat) :
    List RefE :=
  (List.range (rangeCount 8 upl (refLength c))).map
    (fun i => refLoad c ((data.drop (8 + i * refLength c)).take
      (refLength c)))

/-- `Node.from_page_data` (node.py lines 144-158) combined with
`Node.load` (lines 31-48): dispatch on the type byte, decode the header
and the fixed-size entries; `none` models the `assert False` on an
unknown type tag. -/
def nodeFromPageData (c : TreeConf) (data : List Nat) : Option BNode :=
  let t := leVal (data.take 1)
  let upl := leVal ((data.drop 1).take 3)
  let np := leVal ((data.drop 4).take 4)
  let nextPage := if np = 0 then none else some np
  if t = 1 then some (.lonelyRoot (loadRecEntries c data upl))
  else if t = 2 then some (.root (loadRefEntries c data upl))
  else if t = 3 then some (.internal (loadRefEntries c data upl))
  else if t = 4 then some (.leaf (loadRecEntries c data upl) nextPage)
  else none

/-! #### Entry round-trips -/

theorem take_of_append (a b : List α) (t : Nat) (ht : t = a.length) :
    (a ++ b).take t = a := by
  subst ht
  exact List.take_left a b

theorem drop_of_append (a b : List α) (n : Nat) (hn : n = a.length) :
    (a ++ b).drop n = b := by
  subst hn
  exact List.drop_left a b

theorem take_of_self (a : List α) (t : Nat) (ht : t = a.length) :
    a.take t = a := by
  subst ht
  exact List.take_length a

/-- Well-formed tree configuration: sizes fit the width of the header
fields they are written into. -/
def ConfWF (c : TreeConf) : Prop :=
  1 ≤ c.keySize ∧ c.keySize < 65536 ∧ c.valueSize < 65536 ∧
    c.pageSize < 16777216

/-- A record entry whose fields fit their byte slots: a non-negative key
below `256 ^ key_size`, and exactly one of an inline value (of length at
most `value_size`) or a non-zero overflow page below `256 ^ 4`. -/
def RecordWF (c : TreeConf) (r : RecordE) : Prop :=
  0 ≤ r.key ∧ r.key.toNat < 256 ^ c.keySize ∧
  ((∃ v, r.value = some v ∧ v.length ≤ c.valueSize ∧ r.overflowPage = none) ∨
   (r.value = none ∧ ∃ p, r.overflowPage = some p ∧ 0 < p ∧ p < 256 ^ 4))

/-- A reference entry whose fields fit their byte slots. -/
def RefWF (c : TreeConf) (e : RefE) : Prop :=
  0 ≤ e.key ∧ e.key.toNat < 256 ^ c.keySize ∧
    e.before < 256 ^ 4 ∧ e.after < 256 ^ 4

theorem recordDump_length (c : TreeConf) (r : RecordE)
    (hr : RecordWF c r) : (recordDump c r).length = recordLength c := by
  obtain ⟨-, -, hval⟩ := hr
  rcases hval with ⟨v, hv, hvlen, ho⟩ | ⟨hv, p, ho, hp, -⟩
  · simp [recordDump, recordLength, hv, ho, intSerialize, leBytes_length]
    omega
  · simp [recordDump, recordLength, hv, ho, intSerialize, leBytes_length,
      Nat.pos_iff_ne_zero.mp hp]
    omega

theorem refDump_length (c : TreeConf) (e : RefE) :
    (refDump c e).length = refLength c := by
  simp [refDump, refLength, intSerialize, leBytes_length]
  omega

theorem recordLoad_recordDump (c : TreeConf) (r : RecordE)
    (hc : ConfWF c) (hr : RecordWF c r) :
    recordLoad c (recordDump c r) = r := by
  obtain ⟨hks, hks2, hvs, -⟩ := hc
  obtain ⟨hkey0, hkeyb, hval⟩ := hr
  have hkbl : (leBytes r.key.toNat c.keySize).length = c.keySize :=
    leBytes_length _ _
  have hksv : leVal (leBytes c.keySize 2) = c.keySize :=
    leVal_leBytes _ 2 (by norm_num; omega)
  rcases hval with ⟨v, hv, hvlen, ho⟩ | ⟨hv, p, ho, hp, hpb⟩
  · have hd : recordDump c r =
        leBytes c.keySize 2 ++ (leBytes r.key.toNat c.keySize ++
          (leBytes v.length 2 ++ (v ++
            (List.replicate (c.valueSize - v.length) 0 ++ leBytes 0 4)))) := by
      simp [recordDump, hv, ho, intSerialize, hkbl, List.append_assoc]
    simp only [recordLoad, hd]
    rw [take_of_append _ _ 2 (leBytes_length _ 2).symm, hksv]
    rw [drop_of_append (leBytes c.keySize 2) _ 2 (leBytes_length _ 2).symm]
    rw [take_of_append _ _ c.keySize hkbl.symm]
    have hd2 : leBytes c.keySize 2 ++ (leBytes r.key.toNat c.keySize ++
        (leBytes v.length 2 ++ (v ++
          (List.replicate (c.valueSize - v.length) 0 ++ leBytes 0 4)))) =
        (leBytes c.keySize 2 ++ leBytes r.key.toNat c.keySize) ++
          (leBytes v.length 2 ++ (v ++
            (List.replicate (c.valueSize - v.length) 0 ++ leBytes 0 4))) := by
      simp [List.append_assoc]
    rw [hd2, drop_of_append _ _ (2 + c.keySize)
      (by simp [leBytes_length, hkbl]; try omega)]
    rw [take_of_append _ _ 2 (leBytes_length _ 2).symm]
    rw [leVal_leBytes _ 2 (by norm_num; omega)]
    have hd3 : (leBytes c.keySize 2 ++ leBytes r.key.toNat c.keySize) ++
        (leBytes v.length 2 ++ (v ++
          (List.replicate (c.valueSize - v.length) 0 ++ leBytes 0 4))) =
        (leBytes c.keySize 2 ++ leBytes r.key.toNat c.keySize ++
          leBytes v.length 2) ++ (v ++
            (List.replicate (c.valueSize - v.length) 0 ++ leBytes 0 4)) := by
      simp [List.append_assoc]
    rw [hd3, drop_of_append _ _ (2 + c.keySize + 2)
      (by simp [leBytes_length, hkbl]; try omega)]
    have hd4 : (leBytes c.keySize 2 ++ leBytes r.key.toNat c.keySize ++
        leBytes v.length 2) ++ (v ++
          (List.replicate (c.valueSize - v.length) 0 ++ leBytes 0 4)) =
        (leBytes c.keySize 2 ++ leBytes r.key.toNat c.keySize ++
          leBytes v.length 2 ++ v ++
          List.replicate (c.valueSize - v.length) 0) ++ leBytes 0 4 := by
      simp [List.append_assoc]
    rw [hd4, drop_of_append _ _ (2 + c.keySize + 2 + c.valueSize)
      (by simp [leBytes_length, hkbl]; omega)]
    rw [take_of_self _ 4 (leBytes_length _ 4).symm,
      leVal_leBytes 0 4 (by norm_num)]
    simp only [ne_eq, not_true_eq_false, if_false, ite_false]
    rw [take_of_append _ _ v.length rfl]
    have hkeyeq : intDeserialize (leBytes r.key.toNat c.keySize) = r.key := by
      unfold intDeserialize
      rw [leVal_leBytes _ _ hkeyb]
      omega
    rw [hkeyeq, ← hv, ← ho]
  · have hpz : ¬ (p = 0) := Nat.pos_iff_ne_zero.mp hp
    have hd : recordDump c r =
        leBytes c.keySize 2 ++ (leBytes r.key.toNat c.keySize ++
          (leBytes 0 2 ++ (List.replicate c.valueSize 0 ++ leBytes p 4))) := by
      simp [recordDump, hv, ho, intSerialize, hkbl, hpz, List.append_assoc]
    simp only [recordLoad, hd]
    rw [take_of_append _ _ 2 (leBytes_length _ 2).symm, hksv]
    rw [drop_of_append (leBytes c.keySize 2) _ 2 (leBytes_length _ 2).symm]
    rw [take_of_append _ _ c.keySize hkbl.symm]
    have hd2 : leBytes c.keySize 2 ++ (leBytes r.key.toNat c.keySize ++
        (leBytes 0 2 ++ (List.replicate c.valueSize 0 ++ leBytes p 4))) =
        (leBytes c.keySize 2 ++ leBytes r.key.toNat c.keySize) ++
          (leBytes 0 2 ++ (List.replicate c.valueSize 0 ++ leBytes p 4)) := by
      simp [List.append_assoc]
    rw [hd2, drop_of_append _ _ (2 + c.keySize)
      (by simp [leBytes_length, hkbl]; try omega)]
    rw [take_of_append _ _ 2 (leBytes_length _ 2).symm,
      leVal_leBytes 0 2 (by norm_num)]
    have hd4 : (leBytes c.keySize 2 ++ leBytes r.key.toNat c.keySize) ++
        (leBytes 0 2 ++ (List.replicate c.valueSize 0 ++ leBytes p 4)) =
        (leBytes c.keySize 2 ++ leBytes r.key.toNat c.keySize ++
          leBytes 0 2 ++ List.replicate c.valueSize 0) ++ leBytes p 4 := by
      simp [List.append_assoc]
    rw [hd4, drop_of_append _ _ (2 + c.keySize + 2 + c.valueSize)
      (by simp [leBytes_length, hkbl]; omega)]
    rw [take_of_self _ 4 (leBytes_length _ 4).symm,
      leVal_leBytes p 4 hpb]
    simp only [hpz, ne_eq, not_false_eq_true, if_true, ite_true]
    have hkeyeq : intDeserialize (leBytes r.key.toNat c.keySize) = r.key := by
      unfold intDeserialize
      rw [leVal_leBytes _ _ hkeyb]
      omega
    rw [hkeyeq, ← hv, ← ho]

theorem refLoad_refDump (c : TreeConf) (e : RefE)
    (hc : ConfWF c) (he : RefWF c e) :
    refLoad c (refDump c e) = e := by
  obtain ⟨hks, hks2, -, -⟩ := hc
  obtain ⟨hkey0, hkeyb, hbef, haft⟩ := he
  have hkbl : (leBytes e.key.toNat c.keySize).length = c.keySize :=
    leBytes_length _ _
  have hd : refDump c e =
      leBytes e.before 4 ++ (leBytes c.keySize 2 ++
        (leBytes e.key.toNat c.keySize ++ leBytes e.after 4)) := by
    simp [refDump, intSerialize, hkbl, List.append_assoc]
  simp only [refLoad, hd]
  rw [take_of_append _ _ 4 (leBytes_length _ 4).symm,
    leVal_leBytes _ 4 hbef]
  rw [drop_of_append (leBytes e.before 4) _ 4 (leBytes_length _ 4).symm]
  rw [take_of_append _ _ 2 (leBytes_length _ 2).symm,
    leVal_leBytes _ 2 (by norm_num; omega)]
  have hd2 : leBytes e.before 4 ++ (leBytes c.keySize 2 ++
      (leBytes e.key.toNat c.keySize ++ leBytes e.after 4)) =
      (leBytes e.before 4 ++ leBytes c.keySize 2) ++
        (leBytes e.key.toNat c.keySize ++ leBytes e.after 4) := by
    simp [List.append_assoc]
  rw [hd2, drop_of_append _ _ 6 (by simp [leBytes_length])]
  rw [take_of_append _ _ c.keySize hkbl.symm]
  have hd3 : (leBytes e.before 4 ++ leBytes c.keySize 2) ++
      (leBytes e.key.toNat c.keySize ++ leBytes e.after 4) =
      (leBytes e.before 4 ++ leBytes c.keySize 2 ++
        leBytes e.key.toNat c.keySize) ++ leBytes e.after 4 := by
    simp [List.append_assoc]
  rw [hd3, drop_of_append _ _ (4 + 2 + c.keySize)
    (by simp [leBytes_length, hkbl]; try omega)]
  rw [take_of_self _ 4 (leBytes_length _ 4).symm,
    leVal_leBytes _ 4 haft]
  have hkeyeq : intDeserialize (leBytes e.key.toNat c.keySize) = e.key := by
    unfold intDeserialize
    rw [leVal_leBytes _ _ hkeyb]
    omega
  rw [hkeyeq]

/-! #### Node round-trip (C2) -/

theorem drop_append_add (pre rest : List α) (m : Nat) :
    (pre ++ rest).drop (pre.length + m) = rest.drop m := by
  induction pre with
  | nil => simp
  | cons x xs ih =>
      simp only [List.length_cons, List.cons_append, Nat.succ_add,
        List.drop_succ_cons]
      exact ih

theorem drop_block (a rest : List α) (L m : Nat) (ha : a.length = L) :
    (a ++ rest).drop (L + m) = rest.drop m := by
  subst ha
  exact drop_append_add a rest m

theorem flatten_length_const {E : Type} (dumpE : E → List Nat) (L : Nat)
    (es : List E) (hlen : ∀ e ∈ es, (dumpE e).length = L) :
    ((es.map dumpE).flatten).length = es.length * L := by
  induction es with
  | nil => simp
  | cons e es ih =>
      simp only [List.map_cons, List.flatten_cons, List.length_append,
        List.length_cons]
      rw [hlen e (by simp), ih (fun x hx => hlen x (by simp [hx]))]
      ring

theorem flatten_slice {E : Type} (dumpE : E → List Nat) (L : Nat)
    (es : List E) (hlen : ∀ e ∈ es, (dumpE e).length = L) :
    ∀ (i : Nat) (hi : i < es.length) (tail : List Nat),
      (((es.map dumpE).flatten ++ tail).drop (i * L)).take L =
        dumpE (es.get ⟨i, hi⟩) := by
  induction es with
  | nil =>
      intro i hi tail
      simp at hi
  | cons e es ih =>
      intro i hi tail
      cases i with
      | zero =>
          simp only [List.map_cons, List.flatten_cons, Nat.zero_mul,
            List.drop_zero]
          rw [List.append_assoc]
          rw [take_of_append _ _ L (hlen e (by simp)).symm]
          rfl
      | succ j =>
          have hjl : j < es.length := by simpa using hi
          simp only [List.map_cons, List.flatten_cons]
          rw [List.append_assoc]
          have hsucc : (j + 1) * L = L + j * L := by ring
          rw [hsucc, drop_block (dumpE e) _ L (j * L) (hlen e (by simp))]
          exact ih (fun x hx => hlen x (by simp [hx])) j hjl tail

theorem map_range_eq {β : Type} (n : Nat) (f : Nat → β) (es : List β)
    (hn : es.length = n)
    (h : ∀ (i : Nat) (hi : i < es.length), f i = es.get ⟨i, hi⟩) :
    (List.range n).map f = es := by
  subst hn
  apply List.ext_get (by simp)
  intro i h1 h2
  simp only [List.get_eq_getElem, List.getElem_map, List.getElem_range]
  exact h i h2

theorem rangeCount_entries (n L : Nat) (hL : 5 ≤ L) :
    rangeCount 8 (4 + n * L) L = n := by
  unfold rangeCount
  cases n with
  | zero =>
      simp only [Nat.zero_mul, Nat.add_zero]
      rw [Nat.div_eq_of_lt (by omega)]
  | succ m =>
      have hP : L ≤ (m + 1) * L := Nat.le_mul_of_pos_left L (Nat.succ_pos m)
      have h1 : 4 + (m + 1) * L - 8 + L - 1 = (L - 5) + (m + 1) * L := by
        omega
      rw [h1, Nat.add_mul_div_right _ _ (by omega : 0 < L),
        Nat.div_eq_of_lt (by omega)]
      omega

theorem parse_rec_entries (c : TreeConf) (es : List RecordE)
    (header tail : List Nat) (hh : header.length = 8)
    (hc : ConfWF c) (hwf : ∀ r ∈ es, RecordWF c r) :
    (List.range es.length).map (fun i => recordLoad c
      (((header ++ ((es.map (recordDump c)).flatten ++ tail)).drop
        (8 + i * recordLength c)).take (recordLength c))) = es := by
  apply map_range_eq _ _ _ rfl
  intro i hi
  have h1 : (header ++ ((es.map (recordDump c)).flatten ++ tail)).drop
      (8 + i * recordLength c) =
      ((es.map (recordDump c)).flatten ++ tail).drop (i * recordLength c) := by
    rw [← hh]
    exact drop_append_add header _ _
  rw [h1, flatten_slice (recordDump c) (recordLength c) es
    (fun e he => recordDump_length c e (hwf e he)) i hi tail]
  exact recordLoad_recordDump c _ hc (hwf _ (List.get_mem es _ _))

theorem parse_ref_entries (c : TreeConf) (es : List RefE)
    (header tail : List Nat) (hh : header.length = 8)
    (hc : ConfWF c) (hwf : ∀ e ∈ es, RefWF c e) :
    (List.range es.length).map (fun i => refLoad c
      (((header ++ ((es.map (refDump c)).flatten ++ tail)).drop
        (8 + i * refLength c)).take (refLength c))) = es := by
  apply map_range_eq _ _ _ rfl
  intro i hi
  have h1 : (header ++ ((es.map (refDump c)).flatten ++ tail)).drop
      (8 + i * refLength c) =
      ((es.map (refDump c)).flatten ++ tail).drop (i * refLength c) := by
    rw [← hh]
    exact drop_append_add header _ _
  rw [h1, flatten_slice (refDump c) (refLength c) es
    (fun e _ => refDump_length c e) i hi tail]
  exact refLoad_refDump c _ hc (hwf _ (List.get_mem es _ _))

/-- Well-formed node: every entry fits its byte slots, and a leaf's
`next_page` is absent or a non-zero page number that fits 4 bytes
(`0` encodes "no next page", node.py lines 41-42 and 57). -/
def NodeWF (c : TreeConf) : BNode → Prop
  | .lonelyRoot es => ∀ r ∈ es, RecordWF c r
  | .root es => ∀ e ∈ es, RefWF c e
  | .internal es => ∀ e ∈ es, RefWF c e
  | .leaf es np => (∀ r ∈ es, RecordWF c r) ∧
      (np = none ∨ ∃ p, np = some p ∧ 0 < p ∧ p < 256 ^ 4)

theorem nodeTypeInt_lt (n : BNode) : nodeTypeInt n < 256 := by
  cases n <;> simp [nodeTypeInt]

/-- C2: dumping a well-formed node whose entries fit within a page
yields exactly `page_size` bytes, records a `used_length` of at most
`page_size`, and `from_page_data` recovers the very same node: same
variant, same entries in the same order, same `next_page`. -/
theorem node_dump_from_page_data_roundtrip (c : TreeConf) (n : BNode)
    (hc : ConfWF c) (hn : NodeWF c n)
    (hfit : 8 + (nodeEntriesBytes c n).length ≤ c.pageSize) :
    (nodeDump c n).length = c.pageSize ∧
    nodeUsedLength c n ≤ c.pageSize ∧
    nodeFromPageData c (nodeDump c n) = some n := by
  obtain ⟨hks, hks2, hvs, hps⟩ := hc
  have hnp0 : (nodeNextPage n).getD 0 < 256 ^ 4 := by
    cases n with
    | leaf es np =>
        rcases hn.2 with h | ⟨p, hp, -, hpb⟩
        · simp [nodeNextPage, h]
        · simpa [nodeNextPage, hp] using hpb
    | lonelyRoot es => simp [nodeNextPage]
    | root es => simp [nodeNextPage]
    | internal es => simp [nodeNextPage]
  have hd : nodeDump c n =
      leBytes (nodeTypeInt n) 1 ++ (leBytes (nodeUsedLength c n) 3 ++
        (leBytes ((nodeNextPage n).getD 0) 4 ++ (nodeEntriesBytes c n ++
          List.replicate (c.pageSize - (8 + (nodeEntriesBytes c n).length))
            0))) := by
    simp only [nodeDump, nodeUsedLength]
    have hlen8 : ((leBytes (nodeTypeInt n) 1 ++
        leBytes ((nodeEntriesBytes c n).length + 4) 3 ++
        leBytes ((nodeNextPage n).getD 0) 4) ++
          nodeEntriesBytes c n).length =
        8 + (nodeEntriesBytes c n).length := by
      simp [leBytes_length]
      omega
    rw [hlen8]
    simp [List.append_assoc]
  have hUb : nodeUsedLength c n < 256 ^ 3 := by
    unfold nodeUsedLength
    norm_num
    omega
  have hlen1 : (nodeDump c n).length = c.pageSize := by
    rw [hd]
    simp [leBytes_length]
    omega
  refine ⟨hlen1, by unfold nodeUsedLength; omega, ?_⟩
  have ht1 : leVal ((nodeDump c n).take 1) = nodeTypeInt n := by
    rw [hd, take_of_append _ _ 1 (leBytes_length _ 1).symm,
      leVal_leBytes _ 1 (by simpa using nodeTypeInt_lt n)]
  have ht2 : leVal (((nodeDump c n).drop 1).take 3) = nodeUsedLength c n := by
    rw [hd, drop_of_append _ _ 1 (leBytes_length _ 1).symm,
      take_of_append _ _ 3 (leBytes_length _ 3).symm,
      leVal_leBytes _ 3 hUb]
  have ht3 : leVal (((nodeDump c n).drop 4).take 4) =
      (nodeNextPage n).getD 0 := by
    have hd2 : nodeDump c n =
        (leBytes (nodeTypeInt n) 1 ++ leBytes (nodeUsedLength c n) 3) ++
          (leBytes ((nodeNextPage n).getD 0) 4 ++ (nodeEntriesBytes c n ++
            List.replicate (c.pageSize -
              (8 + (nodeEntriesBytes c n).length)) 0)) := by
      rw [hd]
      simp [List.append_assoc]
    rw [hd2, drop_of_append _ _ 4 (by simp [leBytes_length]),
      take_of_append _ _ 4 (leBytes_length _ 4).symm,
      leVal_leBytes _ 4 hnp0]
  have hd8 : nodeDump c n =
      (leBytes (nodeTypeInt n) 1 ++ leBytes (nodeUsedLength c n) 3 ++
        leBytes ((nodeNextPage n).getD 0) 4) ++ (nodeEntriesBytes c n ++
          List.replicate (c.pageSize - (8 + (nodeEntriesBytes c n).length))
            0) := by
    rw [hd]
    simp [List.append_assoc]
  have hh8 : (leBytes (nodeTypeInt n) 1 ++ leBytes (nodeUsedLength c n) 3 ++
      leBytes ((nodeNextPage n).getD 0) 4).length = 8 := by
    simp [leBytes_length]
  have hrecL : 5 ≤ recordLength c := by
    unfold recordLength
    omega
  have hrefL : 5 ≤ refLength c := by
    unfold refLength
    omega
  cases n with
  | lonelyRoot es =>
      simp only [nodeFromPageData, ht1, ht2, ht3, nodeTypeInt]
      norm_num
      unfold loadRecEntries
      have hflen : (nodeEntriesBytes c (.lonelyRoot es)).length =
          es.length * recordLength c :=
        flatten_length_const (recordDump c) (recordLength c) es
          (fun e he => recordDump_length c e (hn e he))
      have hU : nodeUsedLength c (.lonelyRoot es) =
          4 + es.length * recordLength c := by
        unfold nodeUsedLength
        omega
      rw [hU, rangeCount_entries _ _ hrecL]
      rw [show (nodeDump c (BNode.lonelyRoot es)) =
        (leBytes (nodeTypeInt (BNode.lonelyRoot es)) 1 ++
          leBytes (nodeUsedLength c (BNode.lonelyRoot es)) 3 ++
          leBytes ((nodeNextPage (BNode.lonelyRoot es)).getD 0) 4) ++
          (nodeEntriesBytes c (BNode.lonelyRoot es) ++
            List.replicate (c.pageSize -
              (8 + (nodeEntriesBytes c (BNode.lonelyRoot es)).length)) 0)
        from hd8]
      rw [show nodeEntriesBytes c (BNode.lonelyRoot es) =
        (es.map (recordDump c)).flatten from rfl]
      rw [parse_rec_entries c es _ _ hh8 ⟨hks, hks2, hvs, hps⟩ hn]
  | root es =>
      simp only [nodeFromPageData, ht1, ht2, ht3, nodeTypeInt]
      norm_num
      unfold loadRefEntries
      have hflen : (nodeEntriesBytes c (.root es)).length =
          es.length * refLength c :=
        flatten_length_const (refDump c) (refLength c) es
          (fun e _ => refDump_length c e)
      have hU : nodeUsedLength c (.root es) =
          4 + es.length * refLength c := by
        unfold nodeUsedLength
        omega
      rw [hU, rangeCount_entries _ _ hrefL]
      rw [show (nodeDump c (BNode.root es)) =
        (leBytes (nodeTypeInt (BNode.root es)) 1 ++
          leBytes (nodeUsedLength c (BNode.root es)) 3 ++
          leBytes ((nodeNextPage (BNode.root es)).getD 0) 4) ++
          (nodeEntriesBytes c (BNode.root es) ++
            List.replicate (c.pageSize -
              (8 + (nodeEntriesBytes c (BNode.root es)).length)) 0)
        from hd8]
      rw [show nodeEntriesBytes c (BNode.root es) =
        (es.map (refDump c)).flatten from rfl]
      rw [parse_ref_entries c es _ _ hh8 ⟨hks, hks2, hvs, hps⟩ hn]
  | internal es =>
      simp only [nodeFromPageData, ht1, ht2, ht3, nodeTypeInt]
      norm_num
      unfold loadRefEntries
      have hflen : (nodeEntriesBytes c (.internal es)).length =
          es.length * refLength c :=
        flatten_length_const (refDump c) (refLength c) es
          (fun e _ => refDump_length c e)
      have hU : nodeUsedLength c (.internal es) =
          4 + es.length * refLength c := by
        unfold nodeUsedLength
        omega
      rw [hU, rangeCount_entries _ _ hrefL]
      rw [show (nodeDump c (BNode.internal es)) =
        (leBytes (nodeTypeInt (BNode.internal es)) 1 ++
          leBytes (nodeUsedLength c (BNode.internal es)) 3 ++
          leBytes ((nodeNextPage (BNode.internal es)).getD 0) 4) ++
          (nodeEntriesBytes c (BNode.internal es) ++
            List.replicate (c.pageSize -
              (8 + (nodeEntriesBytes c (BNode.internal es)).length)) 0)
        from hd8]
      rw [show nodeEntriesBytes c (BNode.internal es) =
        (es.map (refDump c)).flatten from rfl]
      rw [parse_ref_entries c es _ _ hh8 ⟨hks, hks2, hvs, hps⟩ hn]
  | leaf es np =>
      simp only [nodeFromPageData, ht1, ht2, ht3, nodeTypeInt]
      norm_num
      unfold loadRecEntries
      have hflen : (nodeEntriesBytes c (.leaf es np)).length =
          es.length * recordLength c :=
        flatten_length_const (recordDump c) (recordLength c) es
          (fun e he => recordDump_length c e (hn.1 e he))
      have hU : nodeUsedLength c (.leaf es np) =
          4 + es.length * recordLength c := by
        unfold nodeUsedLength
        omega
      rw [hU, rangeCount_entries _ _ hrecL]
      rw [show (nodeDump c (BNode.leaf es np)) =
        (leBytes (nodeTypeInt (BNode.leaf es np)) 1 ++
          leBytes (nodeUsedLength c (BNode.leaf es np)) 3 ++
          leBytes ((nodeNextPage (BNode.leaf es np)).getD 0) 4) ++
          (nodeEntriesBytes c (BNode.leaf es np) ++
            List.replicate (c.pageSize -
              (8 + (nodeEntriesBytes c (BNode.leaf es np)).length)) 0)
        from hd8]
      rw [show nodeEntriesBytes c (BNode.leaf es np) =
        (es.map (recordDump c)).flatten from rfl]
      rw [parse_rec_entries c es _ _ hh8 ⟨hks, hks2, hvs, hps⟩ hn.1]
      rcases hn.2 with h | ⟨p, hp, hppos, -⟩
      · simp [h, nodeNextPage]
      · simp [hp, nodeNextPage, Nat.pos_iff_ne_zero.mp hppos]

/-! ### The write-ahead log (memory.py `WAL`)

Python dicts keyed by page number are modelled as association lists with
in-place update (`amInsert`), preserving insertion order exactly as a
Python dict does; `amLookup` is `dict.get`. -/

/-- `d[k] = v` on a Python dict. -/
def amInsert {β : Type} (k : Nat) (v : β) :
    List (Nat × β) → List (Nat × β)
  | [] => [(k, v)]
  | (k2, v2) :: rest =>
      if k2 = k then (k, v) :: rest else (k2, v2) :: amInsert k v rest

/-- `d.get(k)` on a Python dict. -/
def amLookup {β : Type} (k : Nat) : List (Nat × β) → Option β
  | [] => none
  | (k2, v2) :: rest => if k2 = k then some v2 else amLookup k rest

/-- `d.update(other)`: assign every binding of `other`, in order. -/
def amUpdate {β : Type} (m other : List (Nat × β)) : List (Nat × β) :=
  other.foldl (fun acc kv => amInsert kv.1 kv.2 acc) m

/-- Frame types of the WAL (memory.py `FrameType`); a PAGE frame carries
its page number. -/
inductive WFrame where
  | page (p : Nat)
  | commit
  | rollback
deriving Repr, DecidableEq

/-- Bytes a frame occupies in the WAL file: a 5-byte header
(`frame_type:1 + page:4`) plus `page_size` of payload for PAGE frames. -/
def frameBytes (pageSize : Nat) : WFrame → Nat
  | .page _ => 5 + pageSize
  | _ => 5

/-- Total bytes of a list of frames. -/
def framesBytes (pageSize : Nat) : List WFrame → Nat
  | [] => 0
  | f :: fs => frameBytes pageSize f + framesBytes pageSize fs

/-- The in-memory state of a live `WAL`: length of the WAL file in
bytes (4-byte header plus frames), the frames it contains, and the two
page → payload-offset dicts. -/
structure WalState where
  fileLen : Nat
  frames : List WFrame
  committedPages : List (Nat × Nat)
  notCommittedPages : List (Nat × Nat)
deriving Repr, DecidableEq

/-- `WAL._index_frame` (memory.py lines 436-445): a PAGE frame records
the payload offset in `not_committed_pages`; COMMIT moves
`not_committed_pages` into `committed_pages` (last write per page wins);
ROLLBACK drops `not_committed_pages`. -/
def walIndexFrame (f : WFrame) (pageStart : Nat)
    (committed notCommitted : List (Nat × Nat)) :
    List (Nat × Nat) × List (Nat × Nat) :=
  match f with
  | .page p => (committed, amInsert p pageStart notCommitted)
  | .commit => (amUpdate committed notCommitted, [])
  | .rollback => (committed, [])

/-- `WAL._add_frame` (memory.py lines 447-465): append the frame to the
file and index it with `page_start = tell() - page_size`, which for a
PAGE frame is the start of its payload. -/
def walAddFrame (pageSize : Nat) (s : WalState) (f : WFrame) : WalState :=
  let payload := match f with | .page _ => pageSize | _ => 0
  let pos := s.fileLen + 5 + payload - pageSize
  let maps := walIndexFrame f pos s.committedPages s.notCommittedPages
  { fileLen := s.fileLen + 5 + payload
    frames := s.frames ++ [f]
    committedPages := maps.1
    notCommittedPages := maps.2 }

/-- A fresh WAL just after `_create_header`: the file holds the 4-byte
page-size header and no frames. -/
def walInit : WalState := ⟨4, [], [], []⟩

/-- The operations a writer performs against a live WAL. -/
inductive WalOp where
  | setPage (p : Nat)
  | commit
  | rollback
deriving Repr, DecidableEq

/-- `WAL.set_page` / `WAL.commit` / `WAL.rollback` (memory.py lines
480-491).  `set_page` refuses page 0 (`_add_frame` raises “PAGE frame
without page data”); commit and rollback are no-ops when there are no
uncommitted pages. -/
def walApplyOp (pageSize : Nat) (s : WalState) : WalOp → Option WalState
  | .setPage p =>
      if p = 0 then none else some (walAddFrame pageSize s (.page p))
  | .commit =>
      some (if s.notCommittedPages = [] then s
        else walAddFrame pageSize s .commit)
  | .rollback =>
      some (if s.notCommittedPages = [] then s
        else walAddFrame pageSize s .rollback)

/-- Run a sequence of WAL operations against a live WAL. -/
def walRunOps (pageSize : Nat) (s : WalState) : List WalOp → Option WalState
  | [] => some s
  | op :: ops => match walApplyOp pageSize s op with
    | none => none
    | some s2 => walRunOps pageSize s2 ops

/-- `WAL._load_wal` / `_load_next_frame` (memory.py lines 405-434):
iterate the frames from the start of the file (position 4, after the
header); each frame header is 5 bytes, a PAGE frame is indexed at the
payload start (`stop`) and its payload skipped. -/
def walReplay (pageSize : Nat) :
    List WFrame → Nat → List (Nat × Nat) × List (Nat × Nat) →
      List (Nat × Nat) × List (Nat × Nat)
  | [], _, maps => maps
  | f :: fs, pos, maps =>
      let stop := pos + 5
      walReplay pageSize fs (pos + frameBytes pageSize f)
        (walIndexFrame f stop maps.1 maps.2)

/-- Opening a WAL file (memory.py `WAL.__init__` lines 362-377 and
`_load_wal`): an empty (or absent) file gets a fresh header and no
recovery; a non-empty file sets `needs_recovery` and replays its frames,
discarding trailing uncommitted pages.  Returns
`(needs_recovery, committed_pages, not_committed_pages)`. -/
def walOpen (pageSize : Nat) (file : Option (List WFrame)) :
    Bool × List (Nat × Nat) × List (Nat × Nat) :=
  match file with
  | none => (false, [], [])
  | some frames =>
      let maps := walReplay pageSize frames 4 ([], [])
      (true, maps.1, [])

theorem walReplay_append (pageSize : Nat) (fs gs : List WFrame)
    (pos : Nat) (maps : List (Nat × Nat) × List (Nat × Nat)) :
    walReplay pageSize (fs ++ gs) pos maps =
      walReplay pageSize gs (pos + framesBytes pageSize fs)
        (walReplay pageSize fs pos maps) := by
  induction fs generalizing pos maps with
  | nil => simp [walReplay, framesBytes]
  | cons f fs ih =>
      simp only [List.cons_append, walReplay, framesBytes]
      rw [show List.append fs gs = fs ++ gs from rfl, ih, Nat.add_assoc]

/-- The replay invariant of a live WAL: replaying the file rebuilds
exactly the in-memory maps, and the file length is the header plus the
frames. -/
def WalInv (pageSize : Nat) (s : WalState) : Prop :=
  s.fileLen = 4 + framesBytes pageSize s.frames ∧
  walReplay pageSize s.frames 4 ([], []) =
    (s.committedPages, s.notCommittedPages)

theorem walInv_init (pageSize : Nat) : WalInv pageSize walInit := by
  constructor <;> rfl

theorem framesBytes_append (pageSize : Nat) (a b : List WFrame) :
    framesBytes pageSize (a ++ b) =
      framesBytes pageSize a + framesBytes pageSize b := by
  induction a with
  | nil => simp [framesBytes]
  | cons f fs ih =>
      simp [framesBytes, ih]
      ring

theorem walInv_addFrame (pageSize : Nat) (s : WalState) (f : WFrame)
    (h : WalInv pageSize s) :
    WalInv pageSize (walAddFrame pageSize s f) := by
  obtain ⟨hlen, hmaps⟩ := h
  constructor
  · cases f <;>
      simp [walAddFrame, frameBytes, framesBytes_append, framesBytes,
        hlen] <;>
      omega
  · rw [show (walAddFrame pageSize s f).frames = s.frames ++ [f] from rfl]
    rw [walReplay_append, hmaps]
    cases f with
    | page p =>
        have hpos : s.fileLen + 5 + pageSize - pageSize =
            4 + framesBytes pageSize s.frames + 5 := by
          omega
        simp [walReplay, walIndexFrame, walAddFrame, hpos]
    | commit => simp [walReplay, walIndexFrame, walAddFrame]
    | rollback => simp [walReplay, walIndexFrame, walAddFrame]

theorem walInv_applyOp (pageSize : Nat) (s s2 : WalState) (op : WalOp)
    (hinv : WalInv pageSize s) (h : walApplyOp pageSize s op = some s2) :
    WalInv pageSize s2 := by
  cases op with
  | setPage p =>
      by_cases hp : p = 0
      · simp [walApplyOp, hp] at h
      · simp only [walApplyOp, hp, if_false, Option.some.injEq] at h
        rw [← h]
        exact walInv_addFrame pageSize s _ hinv
  | commit =>
      simp only [walApplyOp, Option.some.injEq] at h
      rw [← h]
      by_cases hnc : s.notCommittedPages = []
      · simpa [hnc] using hinv
      · rw [if_neg hnc]
        exact walInv_addFrame pageSize s _ hinv
  | rollback =>
      simp only [walApplyOp, Option.some.injEq] at h
      rw [← h]
      by_cases hnc : s.notCommittedPages = []
      · simpa [hnc] using hinv
      · rw [if_neg hnc]
        exact walInv_addFrame pageSize s _ hinv

theorem walInv_runOps (pageSize : Nat) (ops : List WalOp) (s s2 : WalState)
    (hinv : WalInv pageSize s) (h : walRunOps pageSize s ops = some s2) :
    WalInv pageSize s2 := by
  induction ops generalizing s with
  | nil =>
      simp only [walRunOps, Option.some.injEq] at h
      rw [← h]
      exact hinv
  | cons op ops ih =>
      simp only [walRunOps] at h
      cases hstep : walApplyOp pageSize s op with
      | none => rw [hstep] at h; simp at h
      | some s3 =>
          rw [hstep] at h
          exact ih s3 (walInv_applyOp pageSize s s3 op hinv hstep) h

/-! ### FileMemory and the write-transaction discipline (C3)

For the rollback claim the relevant state is which page payload each
layer holds, so the WAL maps here carry the payload bytes directly (in
the file they sit at the recorded offsets), and the page cache carries
the data of the cached node (a deserialized `Node` object determines,
and is determined by, its page bytes — see the round-trip theorems). -/

/-- The state of a `FileMemory`: the tree file, the WAL page maps and
the LRU page cache. -/
structure FMem where
  file : Nat → Option (List Nat)
  walCommitted : List (Nat × List Nat)
  walNotCommitted : List (Nat × List Nat)
  cache : List (Nat × List Nat)

/-- `WAL.get_page` (memory.py lines 467-478): uncommitted first, then
committed. -/
def walGetPage (m : FMem) (p : Nat) : Option (List Nat) :=
  match amLookup p m.walNotCommitted with
  | some d => some d
  | none => amLookup p m.walCommitted

/-- `FileMemory.get_node` (memory.py lines 130-152), as the page data it
deserializes: cache hit, else WAL, else the tree file. -/
def getNodeFM (m : FMem) (p : Nat) : Option (List Nat) :=
  match amLookup p m.cache with
  | some d => some d
  | none => match walGetPage m p with
    | some d => some d
    | none => m.file p

/-- `FileMemory.get_node` including its cache fill. -/
def getNodeCachingFM (m : FMem) (p : Nat) : Option (List Nat) × FMem :=
  match amLookup p m.cache with
  | some d => (some d, m)
  | none => match walGetPage m p with
    | some d => (some d, { m with cache := amInsert p d m.cache })
    | none => match m.file p with
      | some d => (some d, { m with cache := amInsert p d m.cache })
      | none => (none, m)

/-- `FileMemory.set_node` (memory.py lines 154-156): append a PAGE frame
for the node's dump to the WAL and update the cache. -/
def setNodeFM (m : FMem) (p : Nat) (d : List Nat) : FMem :=
  { m with walNotCommitted := amInsert p d m.walNotCommitted
           cache := amInsert p d m.cache }

/-- The committed state: what a page reads as, ignoring cache and
uncommitted WAL frames (committed WAL page if present, else the tree
file). -/
def committedViewFM (m : FMem) (p : Nat) : Option (List Nat) :=
  match amLookup p m.walCommitted with
  | some d => some d
  | none => m.file p

/-- A write transaction that performs `set_node` for each `(page, data)`
in `ops` and then exits with an exception:
`FileMemory.write_transaction.__exit__` (memory.py lines 185-194) calls
`WAL.rollback()` — dropping the uncommitted pages — and clears the page
cache. -/
def writeTxnFail (m : FMem) (ops : List (Nat × List Nat)) : FMem :=
  let m2 := ops.foldl (fun acc pd => setNodeFM acc pd.1 pd.2) m
  { m2 with walNotCommitted := [], cache := [] }

theorem writeTxnFail_file_committed (m : FMem)
    (ops : List (Nat × List Nat)) :
    (writeTxnFail m ops).file = m.file ∧
    (writeTxnFail m ops).walCommitted = m.walCommitted := by
  have h : ∀ (l : List (Nat × List Nat)) (m0 : FMem),
      (l.foldl (fun acc pd => setNodeFM acc pd.1 pd.2) m0).file = m0.file ∧
      (l.foldl (fun acc pd => setNodeFM acc pd.1 pd.2) m0).walCommitted =
        m0.walCommitted := by
    intro l
    induction l with
    | nil => intro m0; exact ⟨rfl, rfl⟩
    | cons pd l ih =>
        intro m0
        simpa [setNodeFM] using ih (setNodeFM m0 pd.1 pd.2)
  exact h ops m

/-- The observation property: every `get_node` sees exactly the
committed state of `m0`. -/
def ObservesCommitted (m0 m : FMem) : Prop :=
  ∀ p, getNodeFM m p = committedViewFM m0 p

theorem writeTxnFail_observes (m0 : FMem) (ops : List (Nat × List Nat)) :
    ObservesCommitted m0 (writeTxnFail m0 ops) := by
  intro p
  obtain ⟨hfile, hcomm⟩ := writeTxnFail_file_committed m0 ops
  show getNodeFM (writeTxnFail m0 ops) p = committedViewFM m0 p
  unfold getNodeFM walGetPage committedViewFM
  rw [show (writeTxnFail m0 ops).cache = [] from rfl,
    show (writeTxnFail m0 ops).walNotCommitted = [] from rfl,
    hfile, hcomm]
  rfl

theorem amLookup_amInsert_self {β : Type} (k : Nat) (v : β)
    (m : List (Nat × β)) : amLookup k (amInsert k v m) = some v := by
  induction m with
  | nil => simp [amInsert, amLookup]
  | cons kv rest ih =>
      by_cases hk : kv.1 = k
      · simp [amInsert, amLookup, hk]
      · simp [amInsert, amLookup, hk, ih]

theorem amLookup_amInsert_ne {β : Type} (k q : Nat) (v : β)
    (m : List (Nat × β)) (h : q ≠ k) :
    amLookup q (amInsert k v m) = amLookup q m := by
  have hne : ¬ k = q := fun he => h he.symm
  induction m with
  | nil => simp [amInsert, amLookup, hne]
  | cons kv rest ih =>
      obtain ⟨k1, v1⟩ := kv
      by_cases hk : k1 = k
      · subst hk
        simp [amInsert, amLookup, hne]
      · simp [amInsert, amLookup, hk, ih]

theorem getNodeCaching_preserves (m0 m : FMem) (p : Nat)
    (h : ObservesCommitted m0 m) :
    (getNodeCachingFM m p).1 = committedViewFM m0 p ∧
    ObservesCommitted m0 (getNodeCachingFM m p).2 := by
  have hobs := h p
  unfold getNodeFM at hobs
  unfold getNodeCachingFM
  cases hc : amLookup p m.cache with
  | some d =>
      rw [hc] at hobs
      exact ⟨hobs, h⟩
  | none =>
      rw [hc] at hobs
      cases hw : walGetPage m p with
      | some d =>
          rw [hw] at hobs
          refine ⟨hobs, ?_⟩
          intro q
          have hq2 := h q
          unfold getNodeFM at hq2 ⊢
          by_cases hq : q = p
          · subst hq
            rw [show ({ m with cache := amInsert q d m.cache } : FMem).cache
              = amInsert q d m.cache from rfl,
              amLookup_amInsert_self]
            exact hobs
          · rw [show ({ m with cache := amInsert p d m.cache } : FMem).cache
              = amInsert p d m.cache from rfl,
              amLookup_amInsert_ne p q d m.cache hq]
            exact hq2
      | none =>
          rw [hw] at hobs
          cases hf : m.file p with
          | some d =>
              rw [hf] at hobs
              refine ⟨hobs, ?_⟩
              intro q
              have hq2 := h q
              unfold getNodeFM at hq2 ⊢
              by_cases hq : q = p
              · subst hq
                rw [show ({ m with cache := amInsert q d m.cache } : FMem).cache
                  = amInsert q d m.cache from rfl,
                  amLookup_amInsert_self]
                exact hobs
              · rw [show ({ m with cache := amInsert p d m.cache } : FMem).cache
                  = amInsert p d m.cache from rfl,
                  amLookup_amInsert_ne p q d m.cache hq]
                exact hq2
          | none =>
              rw [hf] at hobs
              exact ⟨hobs, h⟩

/-! ### The tree (tree.py)

The page file is a total function from page numbers to nodes (reads go
through the WAL/cache but, inside one writer, `set_node` followed by
`get_node` observes the written node, so a single map is the faithful
view).  The transient in-memory `parent` chain built during
`_search_in_tree` is the explicit path of reference nodes below, listed
innermost parent first (exactly the order the `parent` pointers are
followed by `_split_leaf` / `_split_parent`). -/

/-- The state of an open tree inside a write transaction. -/
structure TState where
  pages : Nat → BNode
  rootPage : Nat
  lastPage : Nat

/-- `FileMemory.set_node` as seen by the tree. -/
def setNodeT (s : TState) (p : Nat) (n : BNode) : TState :=
  { s with pages := fun q => if q = p then n else s.pages q }

/-- `bisect.bisect_left` position of key `k`: on a key-sorted list, the
number of entries with a strictly smaller key. -/
def bisectLeftRec (k : Int) (l : List RecordE) : Nat :=
  l.countP (fun e => decide (e.key < k))

/-- `Node.get_entry` / `_find_entry_index` (node.py lines 120-131):
`bisect_left`, then succeed only if the entry there has the wanted
key. -/
def getEntryRec (l : List RecordE) (k : Int) : Option RecordE :=
  match l.get? (bisectLeftRec k l) with
  | some e => if e.key = k then some e else none
  | none => none

/-- `existing_entry.value = value` on the entry found by `get_entry`
(tree.py lines 80-88): update the record at the `bisect_left` index. -/
def setEntryValueRec (l : List RecordE) (k : Int) (v : List Nat) :
    List RecordE :=
  modifyAt (fun e => { e with value := some v }) (bisectLeftRec k l) l

/-- Rebuild the record node written back by `set_node`: the node object
keeps its class, so a `LonelyRootNode` stays lonely and a `LeafNode`
keeps its `next_page`. -/
def mkRecNode (isLonely : Bool) (es : List RecordE) (next : Option Nat) :
    BNode :=
  if isLonely then .lonelyRoot es else .leaf es next

/-- Rebuild a reference node: the node at the top of the parent chain is
the `RootNode`, every other one an `InternalNode`. -/
def mkRefNode (isRoot : Bool) (es : List RefE) : BNode :=
  if isRoot then .root es else .internal es

/-- `Node.num_children` of a reference node (node.py lines 230-232). -/
def refNumChildren (es : List RefE) : Nat :=
  if es.isEmpty then 0 else es.length + 1

/-- `BPlusTree._create_new_root` (tree.py lines 485-490): allocate a
page, build a `RootNode` holding the single reference, point the
metadata at it and write it. -/
def createNewRoot (s : TState) (ref : RefE) : TState :=
  let p := s.lastPage + 1
  setNodeT { s with lastPage := p, rootPage := p } p (.root [ref])

/-- Pushing a promoted reference into the parent chain: the common part
of `_split_leaf` (tree.py lines 445-454) and `_split_parent`
(lines 461-483).  If the parent has room the reference is inserted and
the parent written; otherwise the reference is inserted, the overfull
parent is split in half, the smallest entry of the upper half is popped
and promoted recursively, the old page keeps the lower half (a `RootNode`
is converted to an `InternalNode` in place) and the upper half goes to a
freshly allocated internal node.  An empty parent chain means the split
node was the root, so a new root is created. -/
def promoteRef (order : Nat) (s : TState) :
    List (Nat × List RefE) → RefE → TState
  | [], ref => createNewRoot s ref
  | (pp, pes) :: rest, ref =>
      let pes2 := refInsertEntry ref pes
      if refNumChildren pes < order then
        setNodeT s pp (mkRefNode rest.isEmpty pes2)
      else
        let np := s.lastPage + 1
        let s1 := { s with lastPage := np }
        let lower := pes2.take (pes2.length / 2)
        match pes2.drop (pes2.length / 2) with
        | [] => s1
        | r :: upper =>
            let s2 := promoteRef order s1 rest ⟨r.key, pp, np⟩
            setNodeT (setNodeT s2 pp (.internal lower)) np (.internal upper)

/-- `BPlusTree._split_leaf` (tree.py lines 436-459): allocate a new
leaf, move the upper half of the entries there (keeping the old
`next_page` on the new leaf), promote a reference keyed by the new
leaf's smallest key with `before` = old page and `after` = new page,
then link old → new. -/
def splitLeafM (order : Nat) (s : TState) (path : List (Nat × List RefE))
    (lp : Nat) (les : List RecordE) (lnext : Option Nat) : TState :=
  let np := s.lastPage + 1
  let s1 := { s with lastPage := np }
  let lower := les.take (les.length / 2)
  match les.drop (les.length / 2) with
  | [] => s1
  | r :: upper =>
      let s2 := promoteRef order s1 path ⟨r.key, lp, np⟩
      setNodeT (setNodeT s2 lp (.leaf lower (some np))) np
        (.leaf (r :: upper) lnext)

/-- `BPlusTree._search_in_tree` (tree.py lines 426-434), with explicit
fuel and the traversed reference nodes accumulated innermost-first:
stop at a record node, else descend through the page chosen by the
fence rule.  `none` models a failed descent (`IndexError` on an empty
reference node or exhausted fuel). -/
def searchPathGo (s : TState) (k : Int) :
    Nat → Nat → List (Nat × List RefE) →
      Option (List (Nat × List RefE) × Nat × List RecordE ×
        Option Nat × Bool)
  | 0, _, _ => none
  | fuel + 1, page, acc =>
      match s.pages page with
      | .lonelyRoot es => some (acc, page, es, none, true)
      | .leaf es np => some (acc, page, es, np, false)
      | .root es =>
          match findNextNodePage es k with
          | none => none
          | some p2 => searchPathGo s k fuel p2 ((page, es) :: acc)
      | .internal es =>
          match findNextNodePage es k with
          | none => none
          | some p2 => searchPathGo s k fuel p2 ((page, es) :: acc)

/-- Tree-level failures: `DuplicateKey` (a `ValueError` in tree.py line
85), a crashed descent, and the *constructed but never raised*
`ValueError('Values must be bytes objects')` of tree.py lines 72-73. -/
inductive TErr where
  | dupKey
  | crash
  | valuesMustBeBytes
deriving Repr, DecidableEq

/-- `BPlusTree.insert` (tree.py lines 63-96).  Lines 72-73 build a
`ValueError` for non-bytes values without raising it, so the
`valueIsBytes` flag only feeds a discarded expression.  Search to the
leaf; an existing key fails with DuplicateKey unless `replace`, in which
case the entry's value is overwritten; otherwise the record is inserted
and, if the leaf was full, the leaf is split. -/
def insertM (order : Nat) (s : TState) (k : Int) (v : List Nat)
    (valueIsBytes : Bool) (replace : Bool) : Except TErr TState :=
  let _discardedCheck : Option TErr :=
    if valueIsBytes then none else some .valuesMustBeBytes
  match searchPathGo s k (s.lastPage + 1) s.rootPage [] with
  | none => .error .crash
  | some (path, lp, les, lnext, isLonely) =>
      match getEntryRec les k with
      | some _ =>
          if ¬ replace then .error .dupKey
          else .ok (setNodeT s lp
            (mkRecNode isLonely (setEntryValueRec les k v) lnext))
      | none =>
          if les.length < order - 1 then
            .ok (setNodeT s lp
              (mkRecNode isLonely (insortRec ⟨k, some v, none⟩ les) lnext))
          else
            .ok (splitLeafM order s path lp
              (insortRec ⟨k, some v, none⟩ les) lnext)

/-- `BPlusTree.get` (tree.py lines 98-107): search to the leaf; a
missing key returns the caller default, else the record's value. -/
def getM (s : TState) (k : Int) (default : Option (List Nat)) :
    Except TErr (Option (List Nat)) :=
  match searchPathGo s k (s.lastPage + 1) s.rootPage [] with
  | none => .error .crash
  | some (_, _, les, _, _) =>
      match getEntryRec les k with
      | none => .ok default
      | some r => .ok r.value

/-- The tree created by `_initialize_empty_tree` (tree.py lines
371-375): an empty `LonelyRootNode` on page 1. -/
def initTState : TState :=
  { pages := fun _ => .lonelyRoot []
    rootPage := 1
    lastPage := 1 }

/-- Insert a list of pairs one by one (each its own write transaction,
`replace=False`). -/
def runInserts (order : Nat) (s : TState) :
    List (Int × List Nat) → Except TErr TState
  | [] => .ok s
  | (k, v) :: ps =>
      match insertM order s k v true false with
      | .error e => .error e
      | .ok s2 => runInserts order s2 ps

/-- `BPlusTree._left_record_node` (tree.py lines 391-396): descend
through `smallest_entry.before` until a record node. -/
def leftRecordNodeGo (s : TState) :
    Nat → Nat → Option (Nat × List RecordE × Option Nat)
  | 0, _ => none
  | fuel + 1, page =>
      match s.pages page with
      | .lonelyRoot es => some (page, es, none)
      | .leaf es np => some (page, es, np)
      | .root es =>
          match es.head? with
          | none => none
          | some e => leftRecordNodeGo s fuel e.before
      | .internal es =>
          match es.head? with
          | none => none
          | some e => leftRecordNodeGo s fuel e.before

/-- A Python slice as handed to `_iter_slice`. -/
structure SliceQ where
  start : Option Int
  stop : Option Int
  step : Option Int
deriving Repr, DecidableEq

/-- `slice_.start is not None and entry.key < slice_.start`. -/
def belowStart (sq : SliceQ) (k : Int) : Bool :=
  match sq.start with
  | some st => decide (k < st)
  | none => false

/-- `slice_.stop is not None and entry.key >= slice_.stop`. -/
def atOrPastStop (sq : SliceQ) (k : Int) : Bool :=
  match sq.stop with
  | some sp => decide (sp ≤ k)
  | none => false

/-- `slice_.start is not None and slice_.stop is not None and
slice_.start >= slice_.stop`. -/
def backwardsSlice (sq : SliceQ) : Bool :=
  match sq.start, sq.stop with
  | some st, some sp => decide (sp ≤ st)
  | _, _ => false

/-- The per-node loop of `_iter_slice` (tree.py lines 411-419): skip
entries below `start`; stop the whole iteration at the first entry with
key ≥ `stop`; yield the rest.  Returns the yielded entries and whether
iteration stopped. -/
def iterEntriesSlice (sq : SliceQ) : List RecordE → List RecordE × Bool
  | [] => ([], false)
  | e :: es =>
      if belowStart sq e.key then
        iterEntriesSlice sq es
      else if atOrPastStop sq e.key then
        ([], true)
      else
        let r := iterEntriesSlice sq es
        (e :: r.1, r.2)

/-- The leaf-chain loop of `_iter_slice` (tree.py lines 411-424):
iterate the node, then follow `next_page` unless iteration stopped or
there is no next page. -/
def iterSliceGo (s : TState) (sq : SliceQ) :
    Nat → Nat → Option (List RecordE)
  | 0, _ => none
  | fuel + 1, page =>
      match s.pages page with
      | .lonelyRoot es => some (iterEntriesSlice sq es).1
      | .leaf es np =>
          let r := iterEntriesSlice sq es
          if r.2 then some r.1
          else
            match np with
            | none => some r.1
            | some p2 => (iterSliceGo s sq fuel p2).map
                (fun rest => r.1 ++ rest)
      | .root _ => none
      | .internal _ => none

/-- Errors of `_iter_slice` (tree.py lines 398-404): a custom step and
reversed bounds are `ValueError`s; `crash` models a failed descent. -/
inductive SliceErr where
  | customStep
  | backwards
  | crash
deriving Repr, DecidableEq

/-- `BPlusTree._iter_slice` (tree.py lines 398-424): reject a custom
step, reject `start >= stop` when both are given, position at the leaf
containing `start` (or the leftmost record node when `start` is
absent) and iterate the chain. -/
def iterSliceM (s : TState) (sq : SliceQ) : Except SliceErr (List RecordE) :=
  if sq.step.isSome then .error .customStep
  else if backwardsSlice sq then .error .backwards
  else
    let startPage := match sq.start with
      | none => (leftRecordNodeGo s (s.lastPage + 1) s.rootPage).map
          (fun r => r.1)
      | some st => (searchPathGo s st (s.lastPage + 1) s.rootPage []).map
          (fun r => r.2.1)
    match startPage with
    | none => .error .crash
    | some page =>
        match iterSliceGo s sq (s.lastPage + 1) page with
        | none => .error .crash
        | some l => .ok l

/-! ### The tree representation invariant

`SubH pages h page lo hi kvs used first exitP` states that page `page`
roots a B+subtree of height `h` storing exactly the key/value pairs
`kvs` (all keys in `[lo, hi)`, listed in key order), occupying the page
set `used`, whose leftmost leaf is page `first` and whose rightmost
leaf has `next_page = exitP`, with consecutive leaves linked through
`next_page`. -/

/-- A key/value pair held by the tree. -/
abbrev KV := Int × List Nat

/-- The record a leaf stores for a pair: inline value, no overflow. -/
def kvRec (kv : KV) : RecordE := ⟨kv.1, some kv.2, none⟩

/-- Inclusive lower bound (`none` = unbounded). -/
def withinLo : Option Int → Int → Prop
  | none, _ => True
  | some a, k => a ≤ k

/-- Exclusive upper bound (`none` = unbounded). -/
def withinHi : Int → Option Int → Prop
  | _, none => True
  | k, some b => k < b

/-- Strict lower bound, for separator keys. -/
def ltLo : Option Int → Int → Prop
  | none, _ => True
  | some a, k => a < k

/-- Key-sorted pair list. -/
def SortedKVs (kvs : List KV) : Prop :=
  kvs.Pairwise (fun a b => a.1 < b.1)

/-- One step of the children shape: given the predicate for subtrees of
the next lower height, constrain the child list of a reference node.
The chain indices thread the leaf links: each child's exit is the next
child's leftmost leaf. -/
def ChildrenF
    (sub : Nat → Option Int → Option Int → List KV → Finset Nat → Nat →
      Option Nat → Prop) :
    Option Int → Option Int → List RefE → List KV → Finset Nat → Nat →
      Option Nat → Prop
  | _, _, [], _, _, _, _ => False
  | lo, hi, [e], kvs, used, first, exitP =>
      ∃ kv1 kv2 u1 u2 g,
        ltLo lo e.key ∧ withinHi e.key hi ∧
        kvs = kv1 ++ kv2 ∧ used = u1 ∪ u2 ∧ Disjoint u1 u2 ∧
        sub e.before lo (some e.key) kv1 u1 first (some g) ∧
        sub e.after (some e.key) hi kv2 u2 g exitP
  | lo, hi, e :: e2 :: rest, kvs, used, first, exitP =>
      ∃ kv1 kv2 u1 u2 g,
        ltLo lo e.key ∧ e.after = e2.before ∧
        kvs = kv1 ++ kv2 ∧ used = u1 ∪ u2 ∧ Disjoint u1 u2 ∧
        sub e.before lo (some e.key) kv1 u1 first (some g) ∧
        ChildrenF sub (some e.key) hi (e2 :: rest) kv2 u2 g exitP

def SubH (pages : Nat → BNode) : Nat → Nat → Option Int → Option Int →
    List KV → Finset Nat → Nat → Option Nat → Prop
  | 0, page, lo, hi, kvs, used, first, exitP =>
      pages page = .leaf (kvs.map kvRec) exitP ∧
      SortedKVs kvs ∧
      (∀ kv ∈ kvs, withinLo lo kv.1 ∧ withinHi kv.1 hi) ∧
      used = {page} ∧ first = page
  | h + 1, page, lo, hi, kvs, used, first, exitP =>
      ∃ es used2,
        pages page = .internal es ∧
        page ∉ used2 ∧
        used = insert page used2 ∧
        ChildrenF (SubH pages h) lo hi es kvs used2 first exitP

/-- The children shape at height `h`. -/
def ChildrenH (pages : Nat → BNode) (h : Nat) :
    Option Int → Option Int → List RefE → List KV → Finset Nat → Nat →
      Option Nat → Prop :=
  ChildrenF (SubH pages h)

/-- The root of the tree: either a `LonelyRootNode` holding the records
directly, or a `RootNode` over at least one separator. -/
def RootRep (pages : Nat → BNode) (rootPage : Nat) (kvs : List KV)
    (used : Finset Nat) : Prop :=
  (pages rootPage = .lonelyRoot (kvs.map kvRec) ∧ SortedKVs kvs ∧
    used = {rootPage}) ∨
  (∃ es used2 h first,
    pages rootPage = .root es ∧
    rootPage ∉ used2 ∧
    used = insert rootPage used2 ∧
    ChildrenH pages h none none es kvs used2 first none)

/-- The whole-tree invariant: the root represents `kvs` and every used
page is a real page of the file (between 1 and `last_page`). -/
def TreeInv (s : TState) (kvs : List KV) : Prop :=
  ∃ used : Finset Nat,
    RootRep s.pages s.rootPage kvs used ∧
    ∀ p ∈ used, 1 ≤ p ∧ p ≤ s.lastPage

/-! #### Basic facts about the representation predicates -/

theorem ChildrenF_frame_aux
    (sub sub' : Nat → Option Int → Option Int → List KV → Finset Nat →
      Nat → Option Nat → Prop) (U : Finset Nat)
    (himp : ∀ page lo hi kvs u f x, sub page lo hi kvs u f x → u ⊆ U →
      sub' page lo hi kvs u f x) :
    ∀ (es : List RefE) (lo hi : Option Int) (kvs : List KV)
      (used : Finset Nat) (f : Nat) (x : Option Nat),
      ChildrenF sub lo hi es kvs used f x → used ⊆ U →
      ChildrenF sub' lo hi es kvs used f x := by
  intro es
  induction es with
  | nil =>
      intro lo hi kvs used f x hch
      simp [ChildrenF] at hch
  | cons e rest ih =>
      cases rest with
      | nil =>
          intro lo hi kvs used f x hch hU
          obtain ⟨kv1, kv2, u1, u2, g, hlo, hhi, hkvs, hused, hdisj, h1, h2⟩ :=
            hch
          have hu1 : u1 ⊆ U := by
            intro q hq
            exact hU (by rw [hused]; exact Finset.mem_union_left _ hq)
          have hu2 : u2 ⊆ U := by
            intro q hq
            exact hU (by rw [hused]; exact Finset.mem_union_right _ hq)
          exact ⟨kv1, kv2, u1, u2, g, hlo, hhi, hkvs, hused, hdisj,
            himp _ _ _ _ _ _ _ h1 hu1, himp _ _ _ _ _ _ _ h2 hu2⟩
      | cons e2 rest2 =>
          intro lo hi kvs used f x hch hU
          obtain ⟨kv1, kv2, u1, u2, g, hlo, hlink, hkvs, hused, hdisj,
            h1, h2⟩ := hch
          have hu1 : u1 ⊆ U := by
            intro q hq
            exact hU (by rw [hused]; exact Finset.mem_union_left _ hq)
          have hu2 : u2 ⊆ U := by
            intro q hq
            exact hU (by rw [hused]; exact Finset.mem_union_right _ hq)
          exact ⟨kv1, kv2, u1, u2, g, hlo, hlink, hkvs, hused, hdisj,
            himp _ _ _ _ _ _ _ h1 hu1, ih _ _ _ _ _ _ h2 hu2⟩

/-- Reading the tree through pages that agree on the subtree's pages
preserves the representation. -/
theorem SubH_frame (pages pages' : Nat → BNode) :
    ∀ (h page : Nat) (lo hi : Option Int) (kvs : List KV)
      (used : Finset Nat) (first : Nat) (x : Option Nat),
      SubH pages h page lo hi kvs used first x →
      (∀ q ∈ used, pages' q = pages q) →
      SubH pages' h page lo hi kvs used first x := by
  intro h
  induction h with
  | zero =>
      intro page lo hi kvs used first x hsub hag
      obtain ⟨hp, hs, hb, hu, hf⟩ := hsub
      refine ⟨?_, hs, hb, hu, hf⟩
      rw [hag page (by simp [hu])]
      exact hp
  | succ h ih =>
      intro page lo hi kvs used first x hsub hag
      obtain ⟨es, used2, hp, hnot, hu, hch⟩ := hsub
      refine ⟨es, used2, ?_, hnot, hu, ?_⟩
      · rw [hag page (by simp [hu])]
        exact hp
      · refine ChildrenF_frame_aux (SubH pages h) (SubH pages' h) used2
          ?_ es lo hi kvs used2 first x hch (by intro q hq; exact hq)
        intro page2 lo2 hi2 kvs2 u2 f2 x2 hs2 hu2
        refine ih page2 lo2 hi2 kvs2 u2 f2 x2 hs2 ?_
        intro q hq
        exact hag q (by rw [hu]; exact Finset.mem_insert_of_mem (hu2 hq))

theorem ChildrenH_frame (pages pages' : Nat → BNode) (h : Nat)
    (es : List RefE) (lo hi : Option Int) (kvs : List KV)
    (used : Finset Nat) (f : Nat) (x : Option Nat)
    (hch : ChildrenH pages h lo hi es kvs used f x)
    (hag : ∀ q ∈ used, pages' q = pages q) :
    ChildrenH pages' h lo hi es kvs used f x := by
  refine ChildrenF_frame_aux (SubH pages h) (SubH pages' h) used ?_
    es lo hi kvs used f x hch (fun q hq => hq)
  intro page2 lo2 hi2 kvs2 u2 f2 x2 hs2 hu2
  exact SubH_frame pages pages' h page2 lo2 hi2 kvs2 u2 f2 x2 hs2
    (fun q hq => hag q (hu2 hq))

theorem withinHi_of_lt (k b : Int) (hi : Option Int) (h1 : k < b)
    (h2 : withinHi b hi) : withinHi k hi := by
  cases hi with
  | none => trivial
  | some c => exact lt_trans h1 h2

theorem withinLo_of_le (lo : Option Int) (b k : Int) (h1 : ltLo lo b)
    (h2 : b ≤ k) : withinLo lo k := by
  cases lo with
  | none => trivial
  | some a => exact le_trans (le_of_lt h1) h2

theorem ltLo_of_le (lo : Option Int) (b k : Int) (h1 : ltLo lo b)
    (h2 : b ≤ k) : ltLo lo k := by
  cases lo with
  | none => trivial
  | some a => exact lt_of_lt_of_le h1 h2

theorem ChildrenF_entry_bounds
    (sub : Nat → Option Int → Option Int → List KV → Finset Nat → Nat →
      Option Nat → Prop) :
    ∀ (es : List RefE) (lo hi : Option Int) (kvs : List KV)
      (used : Finset Nat) (f : Nat) (x : Option Nat),
      ChildrenF sub lo hi es kvs used f x →
      ∀ e ∈ es, ltLo lo e.key ∧ withinHi e.key hi := by
  intro es
  induction es with
  | nil =>
      intro lo hi kvs used f x hch
      simp [ChildrenF] at hch
  | cons e rest ih =>
      cases rest with
      | nil =>
          intro lo hi kvs used f x hch e2 he2
          obtain ⟨-, -, -, -, -, hlo, hhi, -, -, -, -, -⟩ := hch
          rcases List.mem_cons.mp he2 with rfl | he2
          · exact ⟨hlo, hhi⟩
          · simp at he2
      | cons e2 rest2 =>
          intro lo hi kvs used f x hch e3 he3
          obtain ⟨kv1, kv2, u1, u2, g, hlo, hlink, hkvs, hused, hdisj,
            h1, h2⟩ := hch
          have htail := ih (some e.key) hi kv2 u2 g x h2
          have he2b := htail e2 (by simp)
          rcases List.mem_cons.mp he3 with rfl | he3
          · refine ⟨hlo, ?_⟩
            exact withinHi_of_lt _ _ _ he2b.1 he2b.2
          · obtain ⟨h3a, h3b⟩ := htail e3 he3
            exact ⟨ltLo_of_le lo e.key e3.key hlo (le_of_lt h3a), h3b⟩

theorem ChildrenF_kvs_facts
    (sub : Nat → Option Int → Option Int → List KV → Finset Nat → Nat →
      Option Nat → Prop)
    (hfact : ∀ page lo hi kvs u f x, sub page lo hi kvs u f x →
      (∀ kv ∈ kvs, withinLo lo kv.1 ∧ withinHi kv.1 hi) ∧ SortedKVs kvs) :
    ∀ (es : List RefE) (lo hi : Option Int) (kvs : List KV)
      (used : Finset Nat) (f : Nat) (x : Option Nat),
      ChildrenF sub lo hi es kvs used f x →
      (∀ kv ∈ kvs, withinLo lo kv.1 ∧ withinHi kv.1 hi) ∧ SortedKVs kvs := by
  intro es
  induction es with
  | nil =>
      intro lo hi kvs used f x hch
      simp [ChildrenF] at hch
  | cons e rest ih =>
      cases rest with
      | nil =>
          intro lo hi kvs used f x hch
          obtain ⟨kv1, kv2, u1, u2, g, hlo, hhi, hkvs, -, -, h1, h2⟩ := hch
          obtain ⟨hb1, hs1⟩ := hfact _ _ _ _ _ _ _ h1
          obtain ⟨hb2, hs2⟩ := hfact _ _ _ _ _ _ _ h2
          subst hkvs
          constructor
          · intro kv hkv
            rcases List.mem_append.mp hkv with hkv | hkv
            · exact ⟨(hb1 kv hkv).1,
                withinHi_of_lt _ _ _ (hb1 kv hkv).2 hhi⟩
            · exact ⟨withinLo_of_le lo e.key kv.1 hlo (hb2 kv hkv).1,
                (hb2 kv hkv).2⟩
          · unfold SortedKVs at hs1 hs2 ⊢
            rw [List.pairwise_append]
            refine ⟨hs1, hs2, ?_⟩
            intro a ha b hb
            exact lt_of_lt_of_le (hb1 a ha).2 (hb2 b hb).1
      | cons e2 rest2 =>
          intro lo hi kvs used f x hch
          have hhie : withinHi e.key hi := by
            have := ChildrenF_entry_bounds sub (e :: e2 :: rest2) lo hi
              kvs used f x hch e (by simp)
            exact this.2
          obtain ⟨kv1, kv2, u1, u2, g, hlo, hlink, hkvs, -, -, h1, h2⟩ := hch
          obtain ⟨hb1, hs1⟩ := hfact _ _ _ _ _ _ _ h1
          obtain ⟨hb2, hs2⟩ := ih _ _ _ _ _ _ h2
          subst hkvs
          constructor
          · intro kv hkv
            rcases List.mem_append.mp hkv with hkv | hkv
            · exact ⟨(hb1 kv hkv).1,
                withinHi_of_lt _ _ _ (hb1 kv hkv).2 hhie⟩
            · exact ⟨withinLo_of_le lo e.key kv.1 hlo (hb2 kv hkv).1,
                (hb2 kv hkv).2⟩
          · unfold SortedKVs at hs1 hs2 ⊢
            rw [List.pairwise_append]
            refine ⟨hs1, hs2, ?_⟩
            intro a ha b hb
            exact lt_of_lt_of_le (hb1 a ha).2 (hb2 b hb).1

theorem SubH_kvs_facts (pages : Nat → BNode) :
    ∀ (h page : Nat) (lo hi : Option Int) (kvs : List KV)
      (used : Finset Nat) (first : Nat) (x : Option Nat),
      SubH pages h page lo hi kvs used first x →
      (∀ kv ∈ kvs, withinLo lo kv.1 ∧ withinHi kv.1 hi) ∧ SortedKVs kvs := by
  intro h
  induction h with
  | zero =>
      intro page lo hi kvs used first x hsub
      obtain ⟨-, hs, hb, -, -⟩ := hsub
      exact ⟨hb, hs⟩
  | succ h ih =>
      intro page lo hi kvs used first x hsub
      obtain ⟨es, used2, -, -, -, hch⟩ := hsub
      exact ChildrenF_kvs_facts (SubH pages h)
        (fun p2 lo2 hi2 kvs2 u2 f2 x2 hs2 => ih p2 lo2 hi2 kvs2 u2 f2 x2 hs2)
        es lo hi kvs used2 first x hch

theorem ChildrenF_card
    (sub : Nat → Option Int → Option Int → List KV → Finset Nat → Nat →
      Option Nat → Prop) (h : Nat)
    (hfact : ∀ page lo hi kvs u f x, sub page lo hi kvs u f x →
      h < u.card) :
    ∀ (es : List RefE) (lo hi : Option Int) (kvs : List KV)
      (used : Finset Nat) (f : Nat) (x : Option Nat),
      ChildrenF sub lo hi es kvs used f x → h < used.card := by
  intro es
  cases es with
  | nil =>
      intro lo hi kvs used f x hch
      simp [ChildrenF] at hch
  | cons e rest =>
      cases rest with
      | nil =>
          intro lo hi kvs used f x hch
          obtain ⟨kv1, kv2, u1, u2, g, hlo, hhi, hkvs, hused, hdisj,
            h1, h2⟩ := hch
          have hcard := hfact _ _ _ _ _ _ _ h1
          have hsub : u1 ⊆ used := by
            rw [hused]
            exact Finset.subset_union_left
          exact lt_of_lt_of_le hcard (Finset.card_le_card hsub)
      | cons e2 rest2 =>
          intro lo hi kvs used f x hch
          obtain ⟨kv1, kv2, u1, u2, g, hlo, hlink, hkvs, hused, hdisj,
            h1, h2⟩ := hch
          have hcard := hfact _ _ _ _ _ _ _ h1
          have hsub : u1 ⊆ used := by
            rw [hused]
            exact Finset.subset_union_left
          exact lt_of_lt_of_le hcard (Finset.card_le_card hsub)

/-- A subtree of height `h` occupies more than `h` pages. -/
theorem SubH_card (pages : Nat → BNode) :
    ∀ (h page : Nat) (lo hi : Option Int) (kvs : List KV)
      (used : Finset Nat) (first : Nat) (x : Option Nat),
      SubH pages h page lo hi kvs used first x → h < used.card := by
  intro h
  induction h with
  | zero =>
      intro page lo hi kvs used first x hsub
      obtain ⟨-, -, -, hu, -⟩ := hsub
      simp [hu]
  | succ h ih =>
      intro page lo hi kvs used first x hsub
      obtain ⟨es, used2, -, hnot, hu, hch⟩ := hsub
      have h2 := ChildrenF_card (SubH pages h) h
        (fun p2 lo2 hi2 kvs2 u2 f2 x2 hs2 => ih p2 lo2 hi2 kvs2 u2 f2 x2 hs2)
        es lo hi kvs used2 first x hch
      rw [hu, Finset.card_insert_of_not_mem hnot]
      omega

/-! #### Leaf-level lookups -/

/-- The value stored for key `k` in an ordered pair list (first match,
as `dict`-like lookup over the leaf records). -/
def kvFind (k : Int) : List KV → Option (List Nat)
  | [] => none
  | kv :: rest => if kv.1 = k then some kv.2 else kvFind k rest

theorem kvFind_eq_none (k : Int) (l : List KV)
    (h : ∀ kv ∈ l, kv.1 ≠ k) : kvFind k l = none := by
  induction l with
  | nil => rfl
  | cons kv rest ih =>
      simp only [kvFind, h kv (by simp), if_false]
      exact ih (fun kv2 h2 => h kv2 (by simp [h2]))

theorem kvFind_append_right (k : Int) (l1 l2 : List KV)
    (h : ∀ kv ∈ l1, kv.1 ≠ k) :
    kvFind k (l1 ++ l2) = kvFind k l2 := by
  induction l1 with
  | nil => rfl
  | cons kv rest ih =>
      simp only [List.cons_append, kvFind, h kv (by simp), if_false]
      exact ih (fun kv2 h2 => h kv2 (by simp [h2]))

theorem kvFind_append_left (k : Int) (l1 l2 : List KV)
    (h : ∀ kv ∈ l2, kv.1 ≠ k) :
    kvFind k (l1 ++ l2) = kvFind k l1 := by
  induction l1 with
  | nil => exact kvFind_eq_none k l2 h
  | cons kv rest ih =>
      by_cases hk : kv.1 = k
      · simp [kvFind, hk]
      · simp only [List.cons_append, kvFind, hk, if_false]
        exact ih

/-- `Node.get_entry` on a leaf built from a sorted pair list finds
exactly the stored pair. -/
theorem getEntryRec_kvs (kvs : List KV) (hs : SortedKVs kvs) (k : Int) :
    getEntryRec (kvs.map kvRec) k =
      (kvFind k kvs).map (fun v => ⟨k, some v, none⟩) := by
  induction kvs with
  | nil => simp [getEntryRec, bisectLeftRec, kvFind]
  | cons kv rest ih =>
      have hs2 : SortedKVs rest := (List.pairwise_cons.mp hs).2
      have hgt : ∀ kv2 ∈ rest, kv.1 < kv2.1 := (List.pairwise_cons.mp hs).1
      simp only [List.map_cons]
      rcases lt_trichotomy kv.1 k with hlt | heq | hgt2
      · have hb : bisectLeftRec k (kvRec kv :: rest.map kvRec) =
            bisectLeftRec k (rest.map kvRec) + 1 := by
          simp [bisectLeftRec, List.countP_cons, kvRec, hlt]
        have hfind : kvFind k (kv :: rest) = kvFind k rest := by
          simp [kvFind, ne_of_lt hlt]
        rw [hfind, ← ih hs2]
        unfold getEntryRec
        rw [hb]
        rfl
      · have hzero : bisectLeftRec k (kvRec kv :: rest.map kvRec) = 0 := by
          rw [bisectLeftRec, List.countP_eq_zero]
          intro e he
          rcases List.mem_cons.mp he with rfl | he
          · simp [kvRec, heq]
          · rw [List.mem_map] at he
            obtain ⟨kv2, hkv2, rfl⟩ := he
            simp only [kvRec, decide_eq_true_eq, not_lt]
            exact le_of_lt (heq ▸ hgt kv2 hkv2)
        unfold getEntryRec
        rw [hzero]
        simp [kvFind, kvRec, heq]
      · have hzero : bisectLeftRec k (kvRec kv :: rest.map kvRec) = 0 := by
          rw [bisectLeftRec, List.countP_eq_zero]
          intro e he
          rcases List.mem_cons.mp he with rfl | he
          · simp only [kvRec, decide_eq_true_eq, not_lt]
            exact le_of_lt hgt2
          · rw [List.mem_map] at he
            obtain ⟨kv2, hkv2, rfl⟩ := he
            simp only [kvRec, decide_eq_true_eq, not_lt]
            exact le_of_lt (lt_trans hgt2 (hgt kv2 hkv2))
        have hfind : kvFind k (kv :: rest) = none := by
          apply kvFind_eq_none
          intro kv2 hkv2
          rcases List.mem_cons.mp hkv2 with rfl | hkv2
          · exact fun hc => absurd hc.symm (ne_of_lt hgt2)
          · exact fun hc =>
              absurd hc.symm (ne_of_lt (lt_trans hgt2 (hgt kv2 hkv2)))
        unfold getEntryRec
        rw [hzero, hfind]
        have hne : ¬ kv.1 = k := fun hc => absurd hc.symm (ne_of_lt hgt2)
        simp [kvRec, hne]

theorem ChildrenF_sortedRefs
    (sub : Nat → Option Int → Option Int → List KV → Finset Nat → Nat →
      Option Nat → Prop) :
    ∀ (es : List RefE) (lo hi : Option Int) (kvs : List KV)
      (used : Finset Nat) (f : Nat) (x : Option Nat),
      ChildrenF sub lo hi es kvs used f x → SortedRefs es := by
  intro es
  induction es with
  | nil =>
      intro lo hi kvs used f x hch
      simp [ChildrenF] at hch
  | cons e rest ih =>
      cases rest with
      | nil =>
          intro lo hi kvs used f x hch
          simp [SortedRefs]
      | cons e2 rest2 =>
          intro lo hi kvs used f x hch
          obtain ⟨kv1, kv2, u1, u2, g, hlo, hlink, hkvs, hused, hdisj,
            h1, h2⟩ := hch
          have htail := ih _ _ _ _ _ _ h2
          have hbounds := ChildrenF_entry_bounds sub (e2 :: rest2)
            (some e.key) hi kv2 u2 g x h2
          unfold SortedRefs at htail ⊢
          rw [List.pairwise_cons]
          exact ⟨fun e3 he3 => (hbounds e3 he3).1, htail⟩

theorem findNext_cons_ge (e e2 : RefE) (rest : List RefE) (k : Int)
    (hk : e.key ≤ k) (hlink : e.after = e2.before)
    (hs : SortedRefs (e2 :: rest)) :
    findNextNodePage (e :: e2 :: rest) k =
      findNextNodePage (e2 :: rest) k := by
  cases hbl : (e2 :: rest).getLast? with
  | none => simp at hbl
  | some b =>
      have he2b : e2.key ≤ b.key := by
        obtain ⟨hl, hg⟩ := getLast?_some_get _ b hbl
        have h0 := head?_some_get (e2 :: rest) e2 rfl
        obtain ⟨h0l, h0g⟩ := h0
        rw [← hg, ← h0g]
        exact sortedRefs_get_le _ hs ⟨0, h0l⟩ ⟨_, hl⟩ (by simp)
      simp only [findNextNodePage, List.head?_cons, List.getLast?_cons_cons,
        hbl]
      rw [if_neg (not_lt.mpr hk)]
      by_cases hbk : b.key ≤ k
      · rw [if_pos hbk, if_neg (not_lt.mpr (le_trans he2b hbk)), if_pos hbk]
      · rw [if_neg hbk, if_neg hbk]
        by_cases hke2 : k < e2.key
        · rw [if_pos hke2]
          show pairwiseFindPage (e :: e2 :: rest) k = some e2.before
          unfold pairwiseFindPage
          rw [if_pos ⟨hk, hke2⟩, hlink]
        · rw [if_neg hke2]
          show pairwiseFindPage (e :: e2 :: rest) k =
            pairwiseFindPage (e2 :: rest) k
          conv_lhs => unfold pairwiseFindPage
          rw [if_neg (fun hc => hke2 hc.2)]

theorem searchChildren (pages : Nat → BNode) (h : Nat) (k : Int) :
    ∀ (es : List RefE) (lo hi : Option Int) (kvs : List KV)
      (used : Finset Nat) (f : Nat) (x : Option Nat),
      ChildrenF (SubH pages h) lo hi es kvs used f x →
      withinLo lo k → withinHi k hi →
      ∃ cp clo chi ckvs cu cf cx,
        findNextNodePage es k = some cp ∧
        SubH pages h cp clo chi ckvs cu cf cx ∧
        withinLo clo k ∧ withinHi k chi ∧
        kvFind k kvs = kvFind k ckvs ∧
        cu ⊆ used := by
  intro es
  induction es with
  | nil =>
      intro lo hi kvs used f x hch
      simp [ChildrenF] at hch
  | cons e rest ih =>
      cases rest with
      | nil =>
          intro lo hi kvs used f x hch hklo hkhi
          obtain ⟨kv1, kv2, u1, u2, g, hlo, hhi, hkvs, hused, hdisj,
            h1, h2⟩ := hch
          subst hkvs
          by_cases hke : k < e.key
          · refine ⟨e.before, lo, some e.key, kv1, u1, f, some g, ?_, h1,
              hklo, hke, ?_, ?_⟩
            · simp [findNextNodePage, hke]
            · apply kvFind_append_left
              intro kv hkv
              have := ((SubH_kvs_facts pages h _ _ _ _ _ _ _ h2).1 kv hkv).1
              exact fun hc => absurd (hc ▸ this) (not_le.mpr hke)
            · rw [hused]
              exact Finset.subset_union_left
          · refine ⟨e.after, some e.key, hi, kv2, u2, g, x, ?_, h2,
              not_lt.mp hke, hkhi, ?_, ?_⟩
            · simp [findNextNodePage, hke, not_lt.mp hke]
            · apply kvFind_append_right
              intro kv hkv
              have := ((SubH_kvs_facts pages h _ _ _ _ _ _ _ h1).1 kv hkv).2
              exact fun hc => absurd (hc ▸ this)
                (not_lt.mpr (not_lt.mp hke))
            · rw [hused]
              exact Finset.subset_union_right
      | cons e2 rest2 =>
          intro lo hi kvs used f x hch hklo hkhi
          obtain ⟨kv1, kv2, u1, u2, g, hlo, hlink, hkvs, hused, hdisj,
            h1, h2⟩ := hch
          subst hkvs
          by_cases hke : k < e.key
          · refine ⟨e.before, lo, some e.key, kv1, u1, f, some g, ?_, h1,
              hklo, hke, ?_, ?_⟩
            · cases hbl : (e2 :: rest2).getLast? with
              | none => simp at hbl
              | some b =>
                  simp [findNextNodePage, List.getLast?_cons_cons, hbl, hke]
            · apply kvFind_append_left
              intro kv hkv
              have := ((ChildrenF_kvs_facts (SubH pages h)
                (fun p2 lo2 hi2 kvs2 un2 f2 x2 hs2 =>
                  SubH_kvs_facts pages h p2 lo2 hi2 kvs2 un2 f2 x2 hs2)
                _ _ _ _ _ _ _ h2).1 kv hkv).1
              exact fun hc => absurd (hc ▸ this) (not_le.mpr hke)
            · rw [hused]
              exact Finset.subset_union_left
          · obtain ⟨cp, clo, chi, ckvs, cu, cf, cx, hfind, hsub, hclo, hchi,
              hkv, hcu⟩ := ih _ _ _ _ _ _ h2 (not_lt.mp hke) hkhi
            refine ⟨cp, clo, chi, ckvs, cu, cf, cx, ?_, hsub, hclo, hchi,
              ?_, ?_⟩
            · rw [findNext_cons_ge e e2 rest2 k (not_lt.mp hke) hlink
                (ChildrenF_sortedRefs (SubH pages h) _ _ _ _ _ _ _ h2)]
              exact hfind
            · rw [← hkv]
              apply kvFind_append_right
              intro kv hkv2
              have := ((SubH_kvs_facts pages h _ _ _ _ _ _ _ h1).1 kv hkv2).2
              exact fun hc => absurd (hc ▸ this)
                (not_lt.mpr (not_lt.mp hke))
            · rw [hused]
              exact le_trans hcu Finset.subset_union_right

theorem searchGo_sub (s : TState) (k : Int) :
    ∀ (h fuel page : Nat) (lo hi : Option Int) (kvs : List KV)
      (used : Finset Nat) (first : Nat) (x : Option Nat)
      (acc : List (Nat × List RefE)),
      SubH s.pages h page lo hi kvs used first x →
      withinLo lo k → withinHi k hi → h < fuel →
      ∃ path2 lp lkvs np,
        searchPathGo s k fuel page acc =
          some (path2, lp, lkvs.map kvRec, np, false) ∧
        SortedKVs lkvs ∧
        kvFind k kvs = kvFind k lkvs := by
  intro h
  induction h with
  | zero =>
      intro fuel page lo hi kvs used first x acc hsub hklo hkhi hfuel
      obtain ⟨hp, hsort, hb, hu, hf⟩ := hsub
      cases fuel with
      | zero => omega
      | succ m =>
          exact ⟨acc, page, kvs, x, by simp [searchPathGo, hp], hsort, rfl⟩
  | succ h ih =>
      intro fuel page lo hi kvs used first x acc hsub hklo hkhi hfuel
      obtain ⟨es, used2, hp, hnotin, hu, hch⟩ := hsub
      cases fuel with
      | zero => omega
      | succ m =>
          obtain ⟨cp, clo, chi, ckvs, cu, cf, cx, hfind, hcsub, hclo, hchi,
            hkv, hcu⟩ := searchChildren s.pages h k es lo hi kvs used2
              first x hch hklo hkhi
          obtain ⟨path2, lp, lkvs, np, hgo, hsort, hkv2⟩ :=
            ih m cp clo chi ckvs cu cf cx ((page, es) :: acc) hcsub hclo
              hchi (by omega)
          refine ⟨path2, lp, lkvs, np, ?_, hsort, by rw [hkv, hkv2]⟩
          simp only [searchPathGo, hp, hfind]
          exact hgo

theorem used_card_le (used : Finset Nat) (n : Nat)
    (hb : ∀ p ∈ used, 1 ≤ p ∧ p ≤ n) : used.card ≤ n := by
  have hsub : used ⊆ Finset.Icc 1 n := by
    intro p hp
    exact Finset.mem_Icc.mpr (hb p hp)
  calc used.card ≤ (Finset.Icc 1 n).card := Finset.card_le_card hsub
    _ = n := by rw [Nat.card_Icc]; omega

/-- Under the tree invariant, `get` returns the stored value of `k`, or
the caller default when `k` is absent. -/
theorem getM_inv (s : TState) (kvs : List KV) (hinv : TreeInv s kvs)
    (k : Int) (d : Option (List Nat)) :
    getM s k d = .ok (match kvFind k kvs with
      | some v => some v
      | none => d) := by
  obtain ⟨used, hroot, hbound⟩ := hinv
  rcases hroot with ⟨hp, hs, hu⟩ | ⟨es, used2, h, first, hp, hnotin, hu, hch⟩
  · unfold getM
    simp only [searchPathGo, hp]
    rw [getEntryRec_kvs kvs hs k]
    cases kvFind k kvs <;> simp
  · obtain ⟨cp, clo, chi, ckvs, cu, cf, cx, hfind, hcsub, hclo, hchi,
      hkv, hcu⟩ := searchChildren s.pages h k es none none kvs used2
        first none hch trivial trivial
    have hcard : h < cu.card := SubH_card s.pages h cp clo chi ckvs cu
      cf cx hcsub
    have hcu2 : cu.card ≤ used2.card := Finset.card_le_card hcu
    have hused2 : used2.card < used.card := by
      rw [hu]
      exact Finset.card_lt_card (Finset.ssubset_insert hnotin)
    have hle : used.card ≤ s.lastPage := used_card_le used s.lastPage hbound
    obtain ⟨path2, lp, lkvs, np, hgo, hsort, hkv2⟩ :=
      searchGo_sub s k h s.lastPage cp clo chi ckvs cu cf cx
        [(s.rootPage, es)] hcsub hclo hchi (by omega)
    unfold getM
    simp only [searchPathGo, hp, hfind]
    rw [hgo]
    simp only [getEntryRec_kvs lkvs hsort k, hkv, hkv2]
    cases kvFind k lkvs <;> simp

theorem insertAt_length (n : Nat) (e : α) (l : List α) :
    (insertAt n e l).length = l.length + 1 := by
  induction l generalizing n with
  | nil => cases n <;> rfl
  | cons x xs ih =>
      cases n with
      | zero => rfl
      | succ m => simp [insertAt, ih m]

theorem modifyAt_length (f : α → α) (n : Nat) (l : List α) :
    (modifyAt f n l).length = l.length := by
  induction l generalizing n with
  | nil => cases n <;> rfl
  | cons x xs ih =>
      cases n with
      | zero => rfl
      | succ m => simp [modifyAt, ih m]

theorem refInsertEntry_length (e : RefE) (l : List RefE) :
    (refInsertEntry e l).length = l.length + 1 := by
  simp only [refInsertEntry]
  split
  · rw [modifyAt_length, insertAt_length]
  · rw [modifyAt_length, modifyAt_length, insertAt_length]

theorem mem_insertAt (n : Nat) (e x : α) (l : List α)
    (h : x ∈ insertAt n e l) : x = e ∨ x ∈ l := by
  induction l generalizing n with
  | nil =>
      cases n <;> simp [insertAt] at h <;> exact Or.inl h
  | cons y ys ih =>
      cases n with
      | zero =>
          rcases List.mem_cons.mp h with rfl | h2
          · exact Or.inl rfl
          · exact Or.inr h2
      | succ m =>
          rcases List.mem_cons.mp h with rfl | h2
          · exact Or.inr (by simp)
          · rcases ih m h2 with h3 | h3
            · exact Or.inl h3
            · exact Or.inr (by simp [h3])

theorem mem_modifyAt (f : α → α) (n : Nat) (x : α) (l : List α)
    (h : x ∈ modifyAt f n l) : x ∈ l ∨ ∃ y ∈ l, x = f y := by
  induction l generalizing n with
  | nil => cases n <;> simp [modifyAt] at h
  | cons y ys ih =>
      cases n with
      | zero =>
          rcases List.mem_cons.mp h with rfl | h2
          · exact Or.inr ⟨y, by simp, rfl⟩
          · exact Or.inl (by simp [h2])
      | succ m =>
          rcases List.mem_cons.mp h with rfl | h2
          · exact Or.inl (by simp)
          · rcases ih m h2 with h3 | h3
            · exact Or.inl (by simp [h3])
            · obtain ⟨z, hz, hxz⟩ := h3
              exact Or.inr ⟨z, by simp [hz], hxz⟩

theorem key_mem_refInsertEntry (e x : RefE) (l : List RefE)
    (h : x ∈ refInsertEntry e l) : x.key = e.key ∨ x.key ∈ refKeys l := by
  simp only [refInsertEntry] at h
  have step : ∀ (g : RefE → RefE), (∀ y : RefE, (g y).key = y.key) →
      ∀ (n : Nat) (l2 : List RefE) (z : RefE), z ∈ modifyAt g n l2 →
      ∃ w ∈ l2, z.key = w.key := by
    intro g hg n l2 z hz
    rcases mem_modifyAt g n z l2 hz with h2 | ⟨w, hw, rfl⟩
    · exact ⟨z, h2, rfl⟩
    · exact ⟨w, hw, hg w⟩
  have hkey : ∀ y : RefE,
      ((fun n : RefE => { n with before := e.after }) y).key = y.key :=
    fun _ => rfl
  obtain ⟨w, hw, hxw⟩ := step _ hkey _ _ x h
  have hw2 : ∃ u ∈ insertAt (bisectRightRef e l) e l, w.key = u.key := by
    split at hw
    · exact ⟨w, hw, rfl⟩
    · rcases mem_modifyAt _ _ w _ hw with h3 | ⟨u, hu, rfl⟩
      · exact ⟨w, h3, rfl⟩
      · exact ⟨u, hu, rfl⟩
  obtain ⟨u, hu, hwu⟩ := hw2
  rcases mem_insertAt _ e u l hu with rfl | h4
  · exact Or.inl (by rw [hxw, hwu])
  · refine Or.inr ?_
    rw [hxw, hwu]
    exact List.mem_map_of_mem RefE.key h4

theorem refInsertEntry_head_cases (e : RefE) (L R : List RefE)
    (hL : ∀ x ∈ L, x.key < e.key) (hR : ∀ x ∈ R, e.key < x.key) :
    ∃ z zs, refInsertEntry e (L ++ R) = z :: zs ∧
      ((L = [] ∧ z.before = e.before) ∨
       (∃ l ls, L = l :: ls ∧ z.before = l.before)) := by
  rw [refInsertEntry_sorted e L R hL hR]
  cases L with
  | nil =>
      exact ⟨e, modifyAt (fun n => { n with before := e.after }) 0 R,
        by simp [mapLast], Or.inl ⟨rfl, rfl⟩⟩
  | cons l ls =>
      cases ls with
      | nil =>
          exact ⟨{ l with after := e.before },
            e :: modifyAt (fun n => { n with before := e.after }) 0 R,
            by simp [mapLast], Or.inr ⟨l, [], rfl, rfl⟩⟩
      | cons m ms =>
          exact ⟨l, mapLast (fun p => { p with after := e.before }) (m :: ms) ++
            e :: modifyAt (fun n => { n with before := e.after }) 0 R,
            by simp [mapLast], Or.inr ⟨l, m :: ms, rfl, rfl⟩⟩

theorem refInsertEntry_cons2 (e x y : RefE) (ys : List RefE)
    (hx : x.key < e.key) (L R : List RefE) (hLR : y :: ys = L ++ R)
    (hL : ∀ a ∈ L, a.key < e.key) (hR : ∀ a ∈ R, e.key < a.key)
    (hlink : e.key < y.key → x.after = e.before) :
    refInsertEntry e (x :: y :: ys) = x :: refInsertEntry e (y :: ys) := by
  have hxL : ∀ a ∈ x :: L, a.key < e.key := by
    intro a ha
    rcases List.mem_cons.mp ha with rfl | ha
    · exact hx
    · exact hL a ha
  have h1 : refInsertEntry e (x :: y :: ys) =
      mapLast (fun p => { p with after := e.before }) (x :: L) ++
        e :: modifyAt (fun n => { n with before := e.after }) 0 R := by
    rw [show x :: y :: ys = (x :: L) ++ R by simp [hLR]]
    exact refInsertEntry_sorted e (x :: L) R hxL hR
  have h2 : refInsertEntry e (y :: ys) =
      mapLast (fun p => { p with after := e.before }) L ++
        e :: modifyAt (fun n => { n with before := e.after }) 0 R := by
    rw [hLR]
    exact refInsertEntry_sorted e L R hL hR
  rw [h1, h2]
  cases L with
  | nil =>
      have hy : e.key < y.key := by
        apply hR
        have : y ∈ y :: ys := by simp
        rw [hLR] at this
        simpa using this
      have hxa : x.after = e.before := hlink hy
      have hxeq : { x with after := e.before } = x := by rw [← hxa]
      simp [mapLast, hxeq]
  | cons l ls =>
      rfl

/-- Sorted insertion of a pair, the key-value image of `insortRec`. -/
def kvInsort (k : Int) (v : List Nat) : List KV → List KV
  | [] => [(k, v)]
  | kv :: rest =>
      if kv.1 ≤ k then kv :: kvInsort k v rest else (k, v) :: kv :: rest

/-- Overwriting the value stored under `k`, the key-value image of the
`replace=True` branch. -/
def kvSet (k : Int) (v : List Nat) (l : List KV) : List KV :=
  l.map (fun kv => if kv.1 = k then (k, v) else kv)

theorem insortRec_map (k : Int) (v : List Nat) (kvs : List KV) :
    insortRec ⟨k, some v, none⟩ (kvs.map kvRec) =
      (kvInsort k v kvs).map kvRec := by
  induction kvs with
  | nil => rfl
  | cons kv rest ih =>
      simp only [List.map_cons, insortRec, kvInsort, kvRec]
      by_cases h : kv.1 ≤ k
      · simp only [if_pos h, ih]
        rfl
      · simp only [if_neg h]
        rfl

theorem mem_kvInsort (k : Int) (v : List Nat) (l : List KV) (a : KV)
    (ha : a ∈ kvInsort k v l) : a = (k, v) ∨ a ∈ l := by
  induction l with
  | nil => simpa [kvInsort] using ha
  | cons kv rest ih =>
      simp only [kvInsort] at ha
      split at ha
      · rcases List.mem_cons.mp ha with rfl | h2
        · exact Or.inr (by simp)
        · rcases ih h2 with h3 | h3
          · exact Or.inl h3
          · exact Or.inr (by simp [h3])
      · rcases List.mem_cons.mp ha with rfl | h2
        · exact Or.inl rfl
        · exact Or.inr h2

theorem kvInsort_sorted (k : Int) (v : List Nat) (l : List KV)
    (hs : SortedKVs l) (hf : ∀ kv ∈ l, kv.1 ≠ k) :
    SortedKVs (kvInsort k v l) := by
  induction l with
  | nil => simp [kvInsort, SortedKVs]
  | cons kv rest ih =>
      obtain ⟨hgt, hs2⟩ := List.pairwise_cons.mp hs
      simp only [kvInsort]
      by_cases h : kv.1 ≤ k
      · rw [if_pos h]
        have hlt : kv.1 < k := lt_of_le_of_ne h (hf kv (by simp))
        refine List.pairwise_cons.mpr
          ⟨?_, ih hs2 (fun a ha => hf a (by simp [ha]))⟩
        intro a ha
        rcases mem_kvInsort k v rest a ha with rfl | h3
        · exact hlt
        · exact hgt a h3
      · rw [if_neg h]
        push_neg at h
        refine List.pairwise_cons.mpr ⟨?_, hs⟩
        intro a ha
        rcases List.mem_cons.mp ha with rfl | h3
        · exact h
        · exact lt_trans h (hgt a h3)

theorem kvInsort_append_left (k : Int) (v : List Nat) (A B : List KV)
    (hA : ∀ a ∈ A, a.1 ≤ k) :
    kvInsort k v (A ++ B) = A ++ kvInsort k v B := by
  induction A with
  | nil => rfl
  | cons a as ih =>
      rw [List.cons_append]
      show (if a.1 ≤ k then a :: kvInsort k v (as ++ B)
        else (k, v) :: a :: (as ++ B)) = a :: (as ++ kvInsort k v B)
      rw [if_pos (hA a (by simp)), ih (fun x hx => hA x (by simp [hx]))]

theorem kvInsort_append_right (k : Int) (v : List Nat) (A B : List KV)
    (hB : ∀ b ∈ B, k < b.1) :
    kvInsort k v (A ++ B) = kvInsort k v A ++ B := by
  induction A with
  | nil =>
      cases B with
      | nil => rfl
      | cons b bs =>
          show (if b.1 ≤ k then b :: kvInsort k v bs
            else (k, v) :: b :: bs) = [(k, v)] ++ b :: bs
          rw [if_neg (not_le.mpr (hB b (by simp)))]
          rfl
  | cons a as ih =>
      rw [List.cons_append]
      show (if a.1 ≤ k then a :: kvInsort k v (as ++ B)
        else (k, v) :: a :: (as ++ B)) = kvInsort k v (a :: as) ++ B
      by_cases h : a.1 ≤ k
      · rw [if_pos h, ih]
        show a :: (kvInsort k v as ++ B) =
          (if a.1 ≤ k then a :: kvInsort k v as
            else (k, v) :: a :: as) ++ B
        rw [if_pos h, List.cons_append]
      · rw [if_neg h]
        show (k, v) :: a :: (as ++ B) =
          (if a.1 ≤ k then a :: kvInsort k v as
            else (k, v) :: a :: as) ++ B
        rw [if_neg h]
        rfl

theorem kvFind_kvInsort_self (k : Int) (v : List Nat) (l : List KV)
    (hf : ∀ kv ∈ l, kv.1 ≠ k) :
    kvFind k (kvInsort k v l) = some v := by
  induction l with
  | nil => simp [kvInsort, kvFind]
  | cons kv rest ih =>
      simp only [kvInsort]
      by_cases h : kv.1 ≤ k
      · rw [if_pos h]
        show (if kv.1 = k then some kv.2 else kvFind k (kvInsort k v rest)) =
          some v
        rw [if_neg (hf kv (by simp))]
        exact ih (fun a ha => hf a (by simp [ha]))
      · rw [if_neg h]
        show (if k = k then some v else kvFind k (kv :: rest)) = some v
        rw [if_pos rfl]

theorem kvFind_kvInsort_ne (k k2 : Int) (v : List Nat) (l : List KV)
    (hne : k2 ≠ k) :
    kvFind k2 (kvInsort k v l) = kvFind k2 l := by
  induction l with
  | nil =>
      show (if k = k2 then some v else kvFind k2 []) = kvFind k2 []
      rw [if_neg (fun h => hne h.symm)]
  | cons kv rest ih =>
      simp only [kvInsort]
      by_cases h : kv.1 ≤ k
      · rw [if_pos h]
        show (if kv.1 = k2 then some kv.2 else kvFind k2 (kvInsort k v rest)) =
          kvFind k2 (kv :: rest)
        by_cases h2 : kv.1 = k2
        · rw [if_pos h2]
          show some kv.2 = if kv.1 = k2 then some kv.2 else kvFind k2 rest
          rw [if_pos h2]
        · rw [if_neg h2, ih]
          show kvFind k2 rest = if kv.1 = k2 then some kv.2 else kvFind k2 rest
          rw [if_neg h2]
      · rw [if_neg h]
        show (if k = k2 then some v else kvFind k2 (kv :: rest)) =
          kvFind k2 (kv :: rest)
        rw [if_neg (fun h3 => hne h3.symm)]

theorem kvSet_id (k : Int) (v : List Nat) (l : List KV)
    (hf : ∀ kv ∈ l, kv.1 ≠ k) : kvSet k v l = l := by
  induction l with
  | nil => rfl
  | cons kv rest ih =>
      simp only [kvSet, List.map_cons]
      rw [if_neg (hf kv (by simp))]
      have := ih (fun a ha => hf a (by simp [ha]))
      simp only [kvSet] at this
      rw [this]

theorem kvSet_append (k : Int) (v : List Nat) (A B : List KV) :
    kvSet k v (A ++ B) = kvSet k v A ++ kvSet k v B := by
  simp [kvSet]

theorem kvFind_kvSet_self (k : Int) (v : List Nat) (l : List KV)
    (hmem : ∃ kv ∈ l, kv.1 = k) :
    kvFind k (kvSet k v l) = some v := by
  induction l with
  | nil => simp at hmem
  | cons kv rest ih =>
      simp only [kvSet, List.map_cons]
      by_cases h : kv.1 = k
      · rw [if_pos h]
        show (if k = k then some v else _) = some v
        rw [if_pos rfl]
      · rw [if_neg h]
        show (if kv.1 = k then some kv.2 else kvFind k (kvSet k v rest)) =
          some v
        rw [if_neg h]
        apply ih
        obtain ⟨a, ha, hak⟩ := hmem
        rcases List.mem_cons.mp ha with rfl | ha2
        · exact absurd hak h
        · exact ⟨a, ha2, hak⟩

theorem kvFind_kvSet_ne (k k2 : Int) (v : List Nat) (l : List KV)
    (hne : k2 ≠ k) :
    kvFind k2 (kvSet k v l) = kvFind k2 l := by
  induction l with
  | nil => rfl
  | cons kv rest ih =>
      simp only [kvSet, List.map_cons]
      by_cases h : kv.1 = k
      · rw [if_pos h]
        show (if k = k2 then some v else kvFind k2 (kvSet k v rest)) =
          if kv.1 = k2 then some kv.2 else kvFind k2 rest
        have hkv2 : ¬ kv.1 = k2 := by
          rw [h]
          exact fun h3 => hne h3.symm
        rw [if_neg (fun h3 => hne h3.symm), if_neg hkv2, ih]
      · rw [if_neg h]
        show (if kv.1 = k2 then some kv.2 else kvFind k2 (kvSet k v rest)) =
          if kv.1 = k2 then some kv.2 else kvFind k2 rest
        by_cases h2 : kv.1 = k2
        · rw [if_pos h2, if_pos h2]
        · rw [if_neg h2, if_neg h2, ih]

theorem kvSet_sorted (k : Int) (v : List Nat) (l : List KV)
    (hs : SortedKVs l) : SortedKVs (kvSet k v l) := by
  unfold kvSet SortedKVs
  rw [List.pairwise_map]
  refine List.Pairwise.imp_of_mem ?_ hs
  intro a b ha hb hab
  by_cases h1 : a.1 = k <;> by_cases h2 : b.1 = k
  · rw [if_pos h1, if_pos h2]
    show k < k
    omega
  · rw [if_pos h1, if_neg h2]
    show k < b.1
    omega
  · rw [if_neg h1, if_pos h2]
    show a.1 < k
    omega
  · rw [if_neg h1, if_neg h2]
    exact hab

theorem mem_kvSet (k : Int) (v : List Nat) (l : List KV) (a : KV)
    (ha : a ∈ kvSet k v l) : ∃ b ∈ l, a.1 = b.1 := by
  obtain ⟨b, hb, hab⟩ := List.mem_map.mp ha
  refine ⟨b, hb, ?_⟩
  by_cases h : b.1 = k
  · rw [if_pos h] at hab
    rw [← hab]
    exact h.symm
  · rw [if_neg h] at hab
    rw [← hab]

theorem setEntryValueRec_map (k : Int) (v : List Nat) (l : List KV)
    (hs : SortedKVs l) (hmem : ∃ kv ∈ l, kv.1 = k) :
    setEntryValueRec (l.map kvRec) k v = (kvSet k v l).map kvRec := by
  induction l with
  | nil => simp at hmem
  | cons kv rest ih =>
      obtain ⟨hgt, hs2⟩ := List.pairwise_cons.mp hs
      rcases lt_trichotomy kv.1 k with h | h | h
      · have hbi : bisectLeftRec k ((kv :: rest).map kvRec) =
            bisectLeftRec k (rest.map kvRec) + 1 := by
          simp only [List.map_cons, bisectLeftRec, List.countP_cons, kvRec]
          simp [h]
        have hmem2 : ∃ a ∈ rest, a.1 = k := by
          obtain ⟨a, ha, hak⟩ := hmem
          rcases List.mem_cons.mp ha with rfl | ha2
          · omega
          · exact ⟨a, ha2, hak⟩
        simp only [setEntryValueRec] at ih ⊢
        rw [hbi, List.map_cons]
        show kvRec kv :: modifyAt (fun e => { e with value := some v })
            (bisectLeftRec k (rest.map kvRec)) (rest.map kvRec) =
          (kvSet k v (kv :: rest)).map kvRec
        rw [ih hs2 hmem2]
        simp only [kvSet, List.map_cons]
        rw [if_neg (by omega : ¬ kv.1 = k)]
      · have hbi : bisectLeftRec k ((kv :: rest).map kvRec) = 0 := by
          simp only [List.map_cons, bisectLeftRec, List.countP_cons, kvRec]
          rw [List.countP_eq_zero.mpr, if_neg (by simp [h])]
          intro e he
          obtain ⟨a, ha, rfl⟩ := List.mem_map.mp he
          simp only [kvRec, decide_eq_true_eq]
          have := hgt a ha
          omega
        have hrest : kvSet k v rest = rest :=
          kvSet_id k v rest (fun a ha => by have := hgt a ha; omega)
        have hrest2 : List.map (fun kv => if kv.1 = k then (k, v) else kv)
            rest = rest := hrest
        have hset : setEntryValueRec ((kv :: rest).map kvRec) k v =
            { kvRec kv with value := some v } :: rest.map kvRec := by
          simp only [setEntryValueRec]
          rw [hbi]
          simp only [List.map_cons, modifyAt]
        rw [hset]
        simp only [kvSet, List.map_cons, if_pos h, hrest2]
        show (⟨kv.1, some v, none⟩ : RecordE) :: rest.map kvRec =
          (⟨k, some v, none⟩ : RecordE) :: rest.map kvRec
        rw [h]
      · exfalso
        obtain ⟨a, ha, hak⟩ := hmem
        rcases List.mem_cons.mp ha with rfl | ha2
        · omega
        · have := hgt a ha2
          omega

/-- The predicate shape of a subtree representation at one height. -/
def SubPred : Type :=
  Nat → Option Int → Option Int → List KV → Finset Nat → Nat →
    Option Nat → Prop

/-- A child slot of a reference node, described by the two ways it can
be refilled: with a single replacement subtree (an in-place update), or
with two subtrees around a freshly promoted separator (a split, which
runs the node through `insert_entry`). -/
def ZipNode (sub : SubPred) (lo hi : Option Int) (pes : List RefE)
    (KL KR : List KV) (uRest : Finset Nat) (first : Nat) (exitP : Option Nat)
    (hp : Nat) (clo chi : Option Int) (cf : Nat) (cx : Option Nat) : Prop :=
  (∀ (sub2 : SubPred) (M2 : List KV) (cu2 : Finset Nat),
    (∀ p2 l2 h2 kv2 u2 f2 x2, sub p2 l2 h2 kv2 u2 f2 x2 → u2 ⊆ uRest →
      sub2 p2 l2 h2 kv2 u2 f2 x2) →
    sub2 hp clo chi M2 cu2 cf cx →
    Disjoint uRest cu2 →
    ChildrenF sub2 lo hi pes (KL ++ M2 ++ KR) (uRest ∪ cu2) first exitP) ∧
  (∀ (sub2 : SubPred) (rk : Int) (np : Nat) (Ma Mb : List KV)
      (ua ub : Finset Nat) (g2 : Nat),
    (∀ p2 l2 h2 kv2 u2 f2 x2, sub p2 l2 h2 kv2 u2 f2 x2 → u2 ⊆ uRest →
      sub2 p2 l2 h2 kv2 u2 f2 x2) →
    ltLo clo rk → withinHi rk chi →
    sub2 hp clo (some rk) Ma ua cf (some g2) →
    sub2 np (some rk) chi Mb ub g2 cx →
    Disjoint uRest ua → Disjoint uRest ub → Disjoint ua ub →
    ChildrenF sub2 lo hi (refInsertEntry ⟨rk, hp, np⟩ pes)
      (KL ++ (Ma ++ Mb) ++ KR) (uRest ∪ (ua ∪ ub)) first exitP)

theorem childrenF_unzip (sub : SubPred) (k : Int)
    (hfact : ∀ p2 l2 h2 kv2 u2 f2 x2, sub p2 l2 h2 kv2 u2 f2 x2 →
      (∀ kv ∈ kv2, withinLo l2 kv.1 ∧ withinHi kv.1 h2) ∧ SortedKVs kv2) :
    ∀ (es : List RefE) (lo hi : Option Int) (kvs : List KV)
      (used : Finset Nat) (first : Nat) (exitP : Option Nat),
      ChildrenF sub lo hi es kvs used first exitP →
      withinLo lo k → withinHi k hi →
      ∃ (EL ER : List RefE) (cp : Nat) (clo chi : Option Int)
        (KL M KR : List KV) (uRest cu : Finset Nat) (cf : Nat)
        (cx : Option Nat),
        es = EL ++ ER ∧
        findNextNodePage es k = some cp ∧
        sub cp clo chi M cu cf cx ∧
        withinLo clo k ∧ withinHi k chi ∧
        (∀ j : Int, ltLo clo j → ltLo lo j) ∧
        (∀ j : Int, withinHi j chi → withinHi j hi) ∧
        kvs = KL ++ M ++ KR ∧
        (∀ kv ∈ KL, kv.1 < k) ∧ (∀ kv ∈ KR, k < kv.1) ∧
        used = uRest ∪ cu ∧ Disjoint uRest cu ∧
        (∀ rk : Int, ltLo clo rk → withinHi rk chi →
          (∀ x ∈ EL, x.key < rk) ∧ (∀ x ∈ ER, rk < x.key)) ∧
        (EL = [] → ∃ hd tl, es = hd :: tl ∧ cp = hd.before) ∧
        ZipNode sub lo hi es KL KR uRest first exitP cp clo chi cf cx := by
  intro es
  induction es with
  | nil =>
      intro lo hi kvs used first exitP hch
      simp [ChildrenF] at hch
  | cons e rest ih =>
      cases rest with
      | nil =>
          intro lo hi kvs used first exitP hch hklo hkhi
          obtain ⟨kv1, kv2, u1, u2, g, h1, h2, hkvs, hused, hdisj, h6, h7⟩ :=
            hch
          by_cases hk : k < e.key
          · refine ⟨[], [e], e.before, lo, some e.key, [], kv1, kv2, u2, u1,
              first, some g, by simp, ?_, h6, hklo, hk,
              fun j hj => hj, fun j hj => withinHi_of_lt j e.key hi hj h2,
              by simpa using hkvs, by simp, ?_,
              by rw [hused, Finset.union_comm], hdisj.symm, ?_,
              fun _ => ⟨e, [], rfl, rfl⟩, ?_, ?_⟩
            · simp [findNextNodePage, hk]
            · intro kv hkv
              have := ((hfact _ _ _ _ _ _ _ h7).1 kv hkv).1
              exact lt_of_lt_of_le hk this
            · intro rk hrk1 hrk2
              exact ⟨by simp, by
                intro x hx
                rcases List.mem_singleton.mp hx with rfl
                exact hrk2⟩
            · intro sub2 M2 cu2 himp hplug hdisj2
              exact ⟨M2, kv2, cu2, u2, g, h1, h2, by simp,
                Finset.union_comm u2 cu2, hdisj2.symm, hplug,
                himp _ _ _ _ _ _ _ h7 (by simp)⟩
            · intro sub2 rk np Ma Mb ua ub g2 himp hrk1 hrk2 hpa hpb hda
                hdb hdab
              have hR : ∀ x ∈ [e], rk < x.key := by
                intro x hx
                rcases List.mem_singleton.mp hx with rfl
                exact hrk2
              have heq := refInsertEntry_sorted ⟨rk, e.before, np⟩ [] [e]
                (by simp) hR
              simp only [List.nil_append] at heq
              rw [heq]
              refine ⟨Ma, Mb ++ kv2, ua, ub ∪ u2, g2, hrk1, rfl, by simp, ?_,
                ?_, hpa, ?_⟩
              · rw [Finset.union_comm u2 (ua ∪ ub), Finset.union_assoc]
              · exact Finset.disjoint_union_right.mpr ⟨hdab, hda.symm⟩
              · exact ⟨Mb, kv2, ub, u2, g, hrk2, h2, rfl, rfl, hdb.symm,
                  hpb, himp _ _ _ _ _ _ _ h7 (by simp)⟩
          · have he : e.key ≤ k := not_lt.mp hk
            refine ⟨[e], [], e.after, some e.key, hi, kv1, kv2, [], u1, u2,
              g, exitP, by simp, ?_, h7, he, hkhi,
              fun j hj => ltLo_of_le lo e.key j h1 (le_of_lt hj),
              fun j hj => hj,
              by simpa using hkvs, ?_, by simp, hused, hdisj, ?_,
              by simp, ?_, ?_⟩
            · simp [findNextNodePage, hk, he]
            · intro kv hkv
              have := ((hfact _ _ _ _ _ _ _ h6).1 kv hkv).2
              exact lt_of_lt_of_le this he
            · intro rk hrk1 hrk2
              refine ⟨?_, by simp⟩
              intro x hx
              rcases List.mem_singleton.mp hx with rfl
              exact hrk1
            · intro sub2 M2 cu2 himp hplug hdisj2
              exact ⟨kv1, M2, u1, cu2, g, h1, h2, by simp, rfl, hdisj2,
                himp _ _ _ _ _ _ _ h6 (by simp), hplug⟩
            · intro sub2 rk np Ma Mb ua ub g2 himp hrk1 hrk2 hpa hpb hda
                hdb hdab
              have hL : ∀ x ∈ [e], x.key < rk := by
                intro x hx
                rcases List.mem_singleton.mp hx with rfl
                exact hrk1
              have heq := refInsertEntry_sorted ⟨rk, e.after, np⟩ [e] []
                hL (by simp)
              rw [List.append_nil] at heq
              rw [heq]
              show ChildrenF sub2 lo hi
                ({ e with after := e.after } :: ⟨rk, e.after, np⟩ :: [])
                (kv1 ++ (Ma ++ Mb) ++ []) (u1 ∪ (ua ∪ ub)) first exitP
              refine ⟨kv1, Ma ++ Mb, u1, ua ∪ ub, g, h1, rfl, by simp, rfl,
                ?_, himp _ _ _ _ _ _ _ h6 (by simp), ?_⟩
              · exact Finset.disjoint_union_right.mpr ⟨hda, hdb⟩
              · exact ⟨Ma, Mb, ua, ub, g2, hrk1, hrk2, rfl, rfl, hdab,
                  hpa, hpb⟩
      | cons e2 rest2 =>
          intro lo hi kvs used first exitP hch hklo hkhi
          obtain ⟨kv1, kv2, u1, u2, g, h1, hlink, hkvs, hused, hdisj, h6,
            h7⟩ := hch
          by_cases hk : k < e.key
          · have hentb := ChildrenF_entry_bounds sub (e2 :: rest2)
              (some e.key) hi kv2 u2 g exitP h7
            refine ⟨[], e :: e2 :: rest2, e.before, lo, some e.key, [], kv1,
              kv2, u2, u1, first, some g, by simp, ?_, h6, hklo, hk,
              fun j hj => hj, fun j hj => withinHi_of_lt j e.key hi hj
                (ChildrenF_entry_bounds sub (e :: e2 :: rest2) lo hi
                  (kv1 ++ kv2) (u1 ∪ u2) first exitP
                  ⟨kv1, kv2, u1, u2, g, h1, hlink, rfl, rfl, hdisj, h6, h7⟩
                  e (by simp)).2,
              by simpa using hkvs, by simp, ?_,
              by rw [hused, Finset.union_comm], hdisj.symm, ?_,
              fun _ => ⟨e, e2 :: rest2, rfl, rfl⟩, ?_, ?_⟩
            · cases hbl : (e2 :: rest2).getLast? with
              | none => simp at hbl
              | some b =>
                  simp only [findNextNodePage, List.head?_cons,
                    List.getLast?_cons_cons, hbl]
                  rw [if_pos hk]
            · intro kv hkv
              have := ChildrenF_kvs_facts sub hfact
                (e2 :: rest2) (some e.key) hi kv2 u2 g exitP h7
              exact lt_of_lt_of_le hk ((this.1 kv hkv).1)
            · intro rk hrk1 hrk2
              refine ⟨by simp, ?_⟩
              intro x hx
              rcases List.mem_cons.mp hx with rfl | hx2
              · exact hrk2
              · exact lt_trans hrk2 (hentb x hx2).1
            · intro sub2 M2 cu2 himp hplug hdisj2
              refine ⟨M2, kv2, cu2, u2, g, h1, hlink, by simp,
                Finset.union_comm u2 cu2, hdisj2.symm, hplug, ?_⟩
              exact ChildrenF_frame_aux sub sub2 u2
                (fun p2 l2 h2 kv0 u0 f0 x0 hs0 hu0 =>
                  himp p2 l2 h2 kv0 u0 f0 x0 hs0 hu0)
                (e2 :: rest2) (some e.key) hi kv2 u2 g exitP h7
                (fun q hq => hq)
            · intro sub2 rk np Ma Mb ua ub g2 himp hrk1 hrk2 hpa hpb hda
                hdb hdab
              have hR : ∀ x ∈ e :: e2 :: rest2, rk < x.key := by
                intro x hx
                rcases List.mem_cons.mp hx with rfl | hx2
                · exact hrk2
                · exact lt_trans hrk2 (hentb x hx2).1
              have heq := refInsertEntry_sorted ⟨rk, e.before, np⟩ []
                (e :: e2 :: rest2) (by simp) hR
              simp only [List.nil_append] at heq
              rw [heq]
              refine ⟨Ma, Mb ++ kv2, ua, ub ∪ u2, g2, hrk1, rfl, by simp,
                ?_, ?_, hpa, ?_⟩
              · rw [Finset.union_comm u2 (ua ∪ ub), Finset.union_assoc]
              · exact Finset.disjoint_union_right.mpr ⟨hdab, hda.symm⟩
              · refine ⟨Mb, kv2, ub, u2, g, hrk2, hlink, rfl, rfl, hdb.symm,
                  hpb, ?_⟩
                exact ChildrenF_frame_aux sub sub2 u2
                  (fun p2 l2 h2 kv0 u0 f0 x0 hs0 hu0 =>
                    himp p2 l2 h2 kv0 u0 f0 x0 hs0 hu0)
                  (e2 :: rest2) (some e.key) hi kv2 u2 g exitP h7
                  (fun q hq => hq)
          · have he : e.key ≤ k := not_lt.mp hk
            obtain ⟨EL2, ER2, cp, clo, chi, KL2, M, KR2, uRest2, cu, cf, cx,
              hesq, hfind, hsub, hclo, hchi, hwlo, hwhi, hkvs2, hKL2, hKR2,
              hused2, hdisj2, hrkf, hheadb, hzip⟩ :=
              ih (some e.key) hi kv2 u2 g exitP h7 he hkhi
            have hcusub : cu ⊆ u2 := by
              rw [hused2]
              exact Finset.subset_union_right
            have hrest2sub : uRest2 ⊆ u2 := by
              rw [hused2]
              exact Finset.subset_union_left
            refine ⟨e :: EL2, ER2, cp, clo, chi, kv1 ++ KL2, M, KR2,
              u1 ∪ uRest2, cu, cf, cx, by simp [hesq], ?_, hsub, hclo, hchi,
              fun j hj => ltLo_of_le lo e.key j h1 (le_of_lt (hwlo j hj)),
              hwhi, ?_, ?_, hKR2, ?_, ?_, ?_, ?_, ?_, ?_⟩
            · rw [findNext_cons_ge e e2 rest2 k he hlink
                (ChildrenF_sortedRefs sub (e2 :: rest2) (some e.key) hi kv2
                  u2 g exitP h7)]
              exact hfind
            · rw [hkvs, hkvs2]
              simp
            · intro kv hkv
              rcases List.mem_append.mp hkv with hkv1 | hkv2
              · have := ((hfact _ _ _ _ _ _ _ h6).1 kv hkv1).2
                exact lt_of_lt_of_le this he
              · exact hKL2 kv hkv2
            · rw [hused, hused2, Finset.union_assoc]
            · refine Finset.disjoint_union_left.mpr ⟨?_, hdisj2⟩
              exact Finset.disjoint_of_subset_right hcusub hdisj
            · intro rk hrk1 hrk2
              obtain ⟨hL2, hR2⟩ := hrkf rk hrk1 hrk2
              refine ⟨?_, hR2⟩
              intro x hx
              rcases List.mem_cons.mp hx with rfl | hx2
              · exact hwlo rk hrk1
              · exact hL2 x hx2
            · intro habs
              simp at habs
            · intro sub2 M2 cu2 himp hplug hdisjp
              refine ⟨kv1, KL2 ++ M2 ++ KR2, u1, uRest2 ∪ cu2, g, h1,
                hlink, by simp, by rw [Finset.union_assoc], ?_,
                himp _ _ _ _ _ _ _ h6 Finset.subset_union_left, ?_⟩
              · refine Finset.disjoint_union_right.mpr ⟨?_, ?_⟩
                · exact Finset.disjoint_of_subset_right hrest2sub hdisj
                · exact Finset.disjoint_of_subset_left
                    Finset.subset_union_left hdisjp
              · exact hzip.1 sub2 M2 cu2
                  (fun p2 l2 h2 kv0 u0 f0 x0 hs0 hu0 =>
                    himp p2 l2 h2 kv0 u0 f0 x0 hs0
                      (le_trans hu0 Finset.subset_union_right))
                  hplug
                  (Finset.disjoint_of_subset_left
                    Finset.subset_union_right hdisjp)
            · intro sub2 rk np Ma Mb ua ub g2 himp hrk1 hrk2 hpa hpb hda
                hdb hdab
              have hekrk : e.key < rk := hwlo rk hrk1
              obtain ⟨hL2, hR2⟩ := hrkf rk hrk1 hrk2
              have hconseq : refInsertEntry ⟨rk, cp, np⟩
                  (e :: e2 :: rest2) =
                  e :: refInsertEntry ⟨rk, cp, np⟩ (e2 :: rest2) := by
                refine refInsertEntry_cons2 ⟨rk, cp, np⟩ e e2 rest2 hekrk
                  EL2 ER2 hesq hL2 hR2 ?_
                intro hy
                have hEL2nil : EL2 = [] := by
                  cases hEL2 : EL2 with
                  | nil => rfl
                  | cons z zs =>
                      exfalso
                      have hesq2 := hesq
                      rw [hEL2, List.cons_append] at hesq2
                      injection hesq2 with hz ht
                      have hzlt := hL2 z (by rw [hEL2]; simp)
                      rw [← hz] at hzlt
                      exact absurd hy (not_lt.mpr (le_of_lt hzlt))
                obtain ⟨hd, tl, hhd, hcp⟩ := hheadb hEL2nil
                have hhd2 : e2 = hd := by
                  injection hhd with hz ht
                show e.after = cp
                rw [hcp, ← hhd2, hlink]
              have hhead := refInsertEntry_head_cases ⟨rk, cp, np⟩ EL2 ER2
                hL2 hR2
              rw [← hesq] at hhead
              obtain ⟨z, zs, hzeq, hzb⟩ := hhead
              have hezb : e.after = z.before := by
                rcases hzb with ⟨hEL2nil, hzb2⟩ | ⟨l, ls, hEL2l, hzb2⟩
                · obtain ⟨hd, tl, hhd, hcp⟩ := hheadb hEL2nil
                  have hhd2 : e2 = hd := by
                    injection hhd with hz ht
                  rw [hzb2]
                  show e.after = cp
                  rw [hcp, ← hhd2, hlink]
                · have hesq2 := hesq
                  rw [hEL2l, List.cons_append] at hesq2
                  injection hesq2 with hz ht
                  rw [hzb2, ← hz, hlink]
              have htail := hzip.2 sub2 rk np Ma Mb ua ub g2
                (fun p2 l2 h2 kv0 u0 f0 x0 hs0 hu0 =>
                  himp p2 l2 h2 kv0 u0 f0 x0 hs0
                    (le_trans hu0 Finset.subset_union_right))
                hrk1 hrk2 hpa hpb
                (Finset.disjoint_of_subset_left
                  Finset.subset_union_right hda)
                (Finset.disjoint_of_subset_left
                  Finset.subset_union_right hdb)
                hdab
              rw [hconseq]
              rw [hzeq] at htail ⊢
              refine ⟨kv1, KL2 ++ (Ma ++ Mb) ++ KR2, u1, uRest2 ∪
                (ua ∪ ub), g, h1, hezb, by simp,
                by rw [Finset.union_assoc], ?_,
                himp _ _ _ _ _ _ _ h6 Finset.subset_union_left, htail⟩
              refine Finset.disjoint_union_right.mpr ⟨?_, ?_⟩
              · exact Finset.disjoint_of_subset_right hrest2sub hdisj
              · refine Finset.disjoint_union_right.mpr ⟨?_, ?_⟩
                · exact Finset.disjoint_of_subset_left
                    Finset.subset_union_left hda
                · exact Finset.disjoint_of_subset_left
                    Finset.subset_union_left hdb

theorem ChildrenF_split (sub : SubPred) (r : RefE) (B : List RefE) :
    ∀ (A : List RefE) (lo hi : Option Int) (kvs : List KV)
      (used : Finset Nat) (f : Nat) (x : Option Nat),
      ChildrenF sub lo hi (A ++ r :: B) kvs used f x →
      A ≠ [] → B ≠ [] →
      ∃ kvA kvB uA uB g,
        kvs = kvA ++ kvB ∧ used = uA ∪ uB ∧ Disjoint uA uB ∧
        ChildrenF sub lo (some r.key) A kvA uA f (some g) ∧
        ChildrenF sub (some r.key) hi B kvB uB g x ∧
        ltLo lo r.key ∧ withinHi r.key hi := by
  intro A
  induction A with
  | nil =>
      intro lo hi kvs used f x hch hA hB
      exact absurd rfl hA
  | cons a A2 ih =>
      cases A2 with
      | nil =>
          intro lo hi kvs used f x hch hA hB
          cases B with
          | nil => exact absurd rfl hB
          | cons b B2 =>
              obtain ⟨kv1, kv2, u1, u2, g, hlo, hlink, hkvs, hused, hdisj,
                h6, h7⟩ := hch
              have hrb := ChildrenF_entry_bounds sub (r :: b :: B2)
                (some a.key) hi kv2 u2 g x h7 r (by simp)
              obtain ⟨kv21, kv22, u21, u22, g2, hlo2, hlink2, hkvs2,
                hused2, hdisj2, h62, h72⟩ := h7
              have hu21 : u21 ⊆ u2 := by
                rw [hused2]
                exact Finset.subset_union_left
              have hu22 : u22 ⊆ u2 := by
                rw [hused2]
                exact Finset.subset_union_right
              refine ⟨kv1 ++ kv21, kv22, u1 ∪ u21, u22, g2, ?_, ?_, ?_,
                ?_, h72, ltLo_of_le lo a.key r.key hlo (le_of_lt hlo2),
                hrb.2⟩
              · rw [hkvs, hkvs2, List.append_assoc]
              · rw [hused, hused2, Finset.union_assoc]
              · refine Finset.disjoint_union_left.mpr ⟨?_, hdisj2⟩
                exact Finset.disjoint_of_subset_right hu22 hdisj
              · refine ⟨kv1, kv21, u1, u21, g, hlo, hlo2, rfl, rfl, ?_,
                  h6, ?_⟩
                · exact Finset.disjoint_of_subset_right hu21 hdisj
                · rw [hlink]
                  exact h62
      | cons a2 A3 =>
          intro lo hi kvs used f x hch hA hB
          rw [List.cons_append, List.cons_append] at hch
          obtain ⟨kv1, kv2, u1, u2, g, hlo, hlink, hkvs, hused, hdisj,
            h6, h7⟩ := hch
          rw [← List.cons_append] at h7
          obtain ⟨kvA2, kvB, uA2, uB, g2, hkvs2, hused2, hdisj2, hchA,
            hchB, hrlo, hrhi⟩ := ih (some a.key) hi kv2 u2 g x h7
            (by simp) hB
          have huA2 : uA2 ⊆ u2 := by
            rw [hused2]
            exact Finset.subset_union_left
          have huB : uB ⊆ u2 := by
            rw [hused2]
            exact Finset.subset_union_right
          refine ⟨kv1 ++ kvA2, kvB, u1 ∪ uA2, uB, g2, ?_, ?_, ?_, ?_,
            hchB, ltLo_of_le lo a.key r.key hlo (le_of_lt hrlo), hrhi⟩
          · rw [hkvs, hkvs2, List.append_assoc]
          · rw [hused, hused2, Finset.union_assoc]
          · refine Finset.disjoint_union_left.mpr ⟨?_, hdisj2⟩
            exact Finset.disjoint_of_subset_right huB hdisj
          · refine ⟨kv1, kvA2, u1, uA2, g, hlo, hlink, rfl, rfl, ?_, h6,
              hchA⟩
            exact Finset.disjoint_of_subset_right huA2 hdisj

/-- The context of a descent: the traversed reference nodes
(innermost-first, as accumulated by the search), seen as a tree with a
hole.  The hole is a child slot at page `hp`, height `hh`, bounds
`(lo, hi)`, leaf-chain endpoints `(hf, hx)`; `KL`/`KR` are the pairs
stored strictly left/right of the hole and `uc` the pages of the
context. -/
def PathZip (pages : Nat → BNode) (rootPage : Nat) :
    List (Nat × List RefE) → Nat → Nat → Option Int → Option Int →
      List KV → List KV → Finset Nat → Nat → Option Nat → Prop
  | [], hp, _, lo, hi, KL, KR, uc, _, hx =>
      rootPage = hp ∧ lo = none ∧ hi = none ∧ KL = [] ∧ KR = [] ∧
      uc = ∅ ∧ hx = none
  | (pp, pes) :: rest, hp, hh, lo, hi, KL, KR, uc, hf, hx =>
      ∃ (plo phi : Option Int) (pKL pKR lKL lKR : List KV)
        (uc2 uRest : Finset Nat) (pf : Nat) (px : Option Nat),
        PathZip pages rootPage rest pp (hh + 1) plo phi pKL pKR uc2 pf px ∧
        pages pp = mkRefNode rest.isEmpty pes ∧
        ZipNode (SubH pages hh) plo phi pes lKL lKR uRest pf px hp lo hi
          hf hx ∧
        (∀ e ∈ pes, ltLo plo e.key ∧ withinHi e.key phi) ∧
        (∀ j : Int, ltLo lo j → ltLo plo j) ∧
        (∀ j : Int, withinHi j hi → withinHi j phi) ∧
        KL = pKL ++ lKL ∧ KR = lKR ++ pKR ∧
        uc = uc2 ∪ insert pp uRest ∧
        pp ∉ uc2 ∧ pp ∉ uRest ∧ Disjoint uc2 (insert pp uRest)

theorem pathZip_path_mem (pages : Nat → BNode) (rootPage : Nat) :
    ∀ (path : List (Nat × List RefE)) (hp hh : Nat) (lo hi : Option Int)
      (KL KR : List KV) (uc : Finset Nat) (hf : Nat) (hx : Option Nat),
      PathZip pages rootPage path hp hh lo hi KL KR uc hf hx →
      ∀ pq ∈ path, pq.1 ∈ uc := by
  intro path
  induction path with
  | nil =>
      intro hp hh lo hi KL KR uc hf hx hpz pq hpq
      simp at hpq
  | cons pq0 rest ih =>
      obtain ⟨pp, pes⟩ := pq0
      intro hp hh lo hi KL KR uc hf hx hpz pq hpq
      obtain ⟨plo, phi, pKL, pKR, lKL, lKR, uc2, uRest, pf, px, hrest,
        hnode, hzip, hb, hwl, hwh, hKL, hKR, huc, hppc, hppr, hdis⟩ := hpz
      rcases List.mem_cons.mp hpq with rfl | hpq2
      · rw [huc]
        exact Finset.mem_union_right _ (Finset.mem_insert_self pp _)
      · have := ih pp (hh + 1) plo phi pKL pKR uc2 pf px hrest pq hpq2
        rw [huc]
        exact Finset.mem_union_left _ this

theorem pathZip_plug (pages : Nat → BNode) (rootPage : Nat) :
    ∀ (path : List (Nat × List RefE)) (hp hh : Nat) (lo hi : Option Int)
      (KL KR : List KV) (uc : Finset Nat) (hf : Nat) (hx : Option Nat),
      PathZip pages rootPage path hp hh lo hi KL KR uc hf hx →
      ∀ (pagesF : Nat → BNode) (M2 : List KV) (cu2 : Finset Nat),
        (∀ q ∈ uc, pagesF q = pages q) →
        (∀ p ∈ cu2, p ∉ uc) →
        (match path with
         | [] => RootRep pagesF hp M2 cu2
         | _ :: _ => SubH pagesF hh hp lo hi M2 cu2 hf hx) →
        ∃ usedAll, RootRep pagesF rootPage (KL ++ M2 ++ KR) usedAll ∧
          usedAll ⊆ uc ∪ cu2 := by
  intro path
  induction path with
  | nil =>
      intro hp hh lo hi KL KR uc hf hx hpz pagesF M2 cu2 hagree hdisj hplug
      obtain ⟨hrp, hlo, hhi, hKL, hKR, huc, hhx⟩ := hpz
      subst hrp hKL hKR huc
      refine ⟨cu2, by simpa using hplug, ?_⟩
      exact Finset.subset_union_right
  | cons pq0 rest ih =>
      obtain ⟨pp, pes⟩ := pq0
      intro hp hh lo hi KL KR uc hf hx hpz pagesF M2 cu2 hagree hdisj hplug
      obtain ⟨plo, phi, pKL, pKR, lKL, lKR, uc2, uRest, pf, px, hrest,
        hnode, hzip, hb, hwl, hwh, hKL, hKR, huc, hppc, hppr, hdis⟩ := hpz
      have hrsub : uRest ⊆ uc := by
        rw [huc]
        intro q hq
        exact Finset.mem_union_right _ (Finset.mem_insert_of_mem hq)
      have hc2sub : uc2 ⊆ uc := by
        rw [huc]
        exact Finset.subset_union_left
      have hppuc : pp ∈ uc := by
        rw [huc]
        exact Finset.mem_union_right _ (Finset.mem_insert_self pp _)
      have hch2 : ChildrenF (SubH pagesF hh) plo phi pes
          (lKL ++ M2 ++ lKR) (uRest ∪ cu2) pf px := by
        refine hzip.1 (SubH pagesF hh) M2 cu2 ?_ hplug ?_
        · intro p2 l2 h2 kv2 u2 f2 x2 hs2 hu2
          refine SubH_frame pages pagesF hh p2 l2 h2 kv2 u2 f2 x2 hs2 ?_
          intro q hq
          exact hagree q (hrsub (hu2 hq))
        · refine Finset.disjoint_left.mpr ?_
          intro a ha hac
          exact hdisj a hac (hrsub ha)
      have hppn : pp ∉ uRest ∪ cu2 := by
        intro hmem
        rcases Finset.mem_union.mp hmem with h | h
        · exact hppr h
        · exact hdisj pp h hppuc
      cases rest with
      | nil =>
          obtain ⟨hrp, hplo, hphi, hpKL, hpKR, huc2, hpx⟩ := hrest
          subst hplo hphi hpKL hpKR hpx
          rw [hrp]
          refine ⟨insert pp (uRest ∪ cu2), ?_, ?_⟩
          · refine Or.inr ⟨pes, uRest ∪ cu2, hh, pf, ?_, hppn, rfl, ?_⟩
            · rw [hagree pp hppuc, hnode]
              rfl
            · rw [hKL, hKR]
              simpa using hch2
          · intro q hq
            rcases Finset.mem_insert.mp hq with rfl | hq2
            · exact Finset.mem_union_left _ hppuc
            · rcases Finset.mem_union.mp hq2 with h | h
              · exact Finset.mem_union_left _ (hrsub h)
              · exact Finset.mem_union_right _ h
      | cons r1 rest2 =>
          have hsub2 : SubH pagesF (hh + 1) pp plo phi (lKL ++ M2 ++ lKR)
              (insert pp (uRest ∪ cu2)) pf px := by
            refine ⟨pes, uRest ∪ cu2, ?_, hppn, rfl, hch2⟩
            rw [hagree pp hppuc, hnode]
            rfl
          have hdisj3 : ∀ p ∈ insert pp (uRest ∪ cu2), p ∉ uc2 := by
            intro p hp2
            rcases Finset.mem_insert.mp hp2 with rfl | h2
            · exact hppc
            · rcases Finset.mem_union.mp h2 with h3 | h3
              · intro hcon
                exact Finset.disjoint_left.mp hdis hcon
                  (Finset.mem_insert_of_mem h3)
              · intro hcon
                exact hdisj p h3 (hc2sub hcon)
          obtain ⟨usedAll, hroot, hsubAll⟩ := ih pp (hh + 1) plo phi pKL
            pKR uc2 pf px hrest pagesF (lKL ++ M2 ++ lKR)
            (insert pp (uRest ∪ cu2))
            (fun q hq => hagree q (hc2sub hq))
            hdisj3 hsub2
          refine ⟨usedAll, ?_, ?_⟩
          · rw [hKL, hKR]
            simpa [List.append_assoc] using hroot
          · intro q hq
            rcases Finset.mem_union.mp (hsubAll hq) with h | h
            · exact Finset.mem_union_left _ (hc2sub h)
            · rcases Finset.mem_insert.mp h with rfl | h2
              · exact Finset.mem_union_left _ hppuc
              · rcases Finset.mem_union.mp h2 with h3 | h3
                · exact Finset.mem_union_left _ (hrsub h3)
                · exact Finset.mem_union_right _ h3

theorem drop_cons_of_lt (l : List α) (n : Nat) (h : n < l.length) :
    ∃ r upper, l.drop n = r :: upper := by
  cases hd : l.drop n with
  | nil =>
      exfalso
      have := congrArg List.length hd
      rw [List.length_drop] at this
      simp at this
      omega
  | cons r upper => exact ⟨r, upper, rfl⟩

theorem take_ne_nil_of_pos (l : List α) (n : Nat) (hn : 1 ≤ n)
    (hl : 1 ≤ l.length) : l.take n ≠ [] := by
  intro hcon
  have := congrArg List.length hcon
  rw [List.length_take] at this
  simp only [List.length_nil] at this
  rcases Nat.min_eq_zero_iff.mp this with h | h <;> omega

theorem promoteRef_zip (order : Nat) (hord : 3 ≤ order) :
    ∀ (path : List (Nat × List RefE)) (s : TState) (hh hp np : Nat)
      (lo hi : Option Int) (KL KR : List KV) (uc : Finset Nat)
      (hf : Nat) (hx : Option Nat) (rk : Int),
      PathZip s.pages s.rootPage path hp hh lo hi KL KR uc hf hx →
      (∀ p ∈ uc, 1 ≤ p ∧ p < np) →
      np ≤ s.lastPage → 1 ≤ hp → hp < np → hp ∉ uc →
      ltLo lo rk → withinHi rk hi →
      ∃ s2 : TState,
        promoteRef order s path ⟨rk, hp, np⟩ = s2 ∧
        s.lastPage ≤ s2.lastPage ∧
        (∀ q, q ∉ path.map Prod.fst → q ≤ s.lastPage →
          s2.pages q = s.pages q) ∧
        ∀ (pagesF : Nat → BNode) (Ma Mb : List KV) (ua ub : Finset Nat)
          (g2 : Nat),
          (∀ q ∈ uc, pagesF q = s2.pages q) →
          (∀ q, s.lastPage < q → q ≤ s2.lastPage → pagesF q = s2.pages q) →
          SubH pagesF hh hp lo (some rk) Ma ua hf (some g2) →
          SubH pagesF hh np (some rk) hi Mb ub g2 hx →
          Disjoint ua ub →
          (∀ p ∈ ua ∪ ub, 1 ≤ p ∧ p ≤ np ∧ p ∉ uc) →
          ∃ usedAll,
            RootRep pagesF s2.rootPage (KL ++ (Ma ++ Mb) ++ KR) usedAll ∧
            ∀ p ∈ usedAll, 1 ≤ p ∧ p ≤ s2.lastPage := by
  intro path
  induction path with
  | nil =>
      intro s hh hp np lo hi KL KR uc hf hx rk hpz hucb hnps hhp1 hhpnp
        hhpuc hlork hrkhi
      obtain ⟨hrp, hlo, hhi, hKL, hKR, huc, hhx⟩ := hpz
      subst hlo hhi hKL hKR huc hhx
      refine ⟨createNewRoot s ⟨rk, hp, np⟩, rfl,
        (by show s.lastPage ≤ s.lastPage + 1; omega), ?_, ?_⟩
      · intro q hq hqle
        show (if q = s.lastPage + 1 then _ else s.pages q) = s.pages q
        rw [if_neg (by omega)]
      · intro pagesF Ma Mb ua ub g2 hagc hagf hsA hsB hdab hbnd
        have hnr : pagesF (s.lastPage + 1) = .root [⟨rk, hp, np⟩] := by
          rw [hagf (s.lastPage + 1) (by omega) (le_refl _)]
          show (if s.lastPage + 1 = s.lastPage + 1 then _ else _) = _
          rw [if_pos rfl]
        refine ⟨insert (s.lastPage + 1) (ua ∪ ub), ?_, ?_⟩
        · refine Or.inr ⟨[⟨rk, hp, np⟩], ua ∪ ub, hh, hf, hnr, ?_, rfl, ?_⟩
          · intro hcon
            have hcon2 : s.lastPage + 1 ∈ ua ∪ ub := hcon
            have := (hbnd _ hcon2).2.1
            omega
          · exact ⟨Ma, Mb, ua, ub, g2, trivial, trivial, by simp, rfl,
              hdab, hsA, hsB⟩
        · intro p hpall
          rcases Finset.mem_insert.mp hpall with rfl | h2
          · show 1 ≤ s.lastPage + 1 ∧ s.lastPage + 1 ≤ s.lastPage + 1
            omega
          · have := hbnd p h2
            show 1 ≤ p ∧ p ≤ s.lastPage + 1
            omega
  | cons pq0 rest ih =>
      obtain ⟨pp, pes⟩ := pq0
      intro s hh hp np lo hi KL KR uc hf hx rk hpz hucb hnps hhp1 hhpnp
        hhpuc hlork hrkhi
      obtain ⟨plo, phi, pKL, pKR, lKL, lKR, uc2, uRest, pf, px, hrest,
        hnode, hzip, hbents, hwl, hwh, hKL, hKR, huc, hppc, hppr, hdis⟩ :=
        hpz
      have hppuc : pp ∈ uc := by
        rw [huc]
        exact Finset.mem_union_right _ (Finset.mem_insert_self _ _)
      have hrsub : uRest ⊆ uc := by
        rw [huc]
        intro q hq
        exact Finset.mem_union_right _ (Finset.mem_insert_of_mem hq)
      have hc2sub : uc2 ⊆ uc := by
        rw [huc]
        exact Finset.subset_union_left
      have hpp1 : 1 ≤ pp := (hucb pp hppuc).1
      have hppnp : pp < np := (hucb pp hppuc).2
      have hrestmem : ∀ pq ∈ rest, pq.1 ∈ uc2 :=
        pathZip_path_mem s.pages s.rootPage rest pp (hh + 1) plo phi pKL
          pKR uc2 pf px hrest
      by_cases hroom : refNumChildren pes < order
      · refine ⟨setNodeT s pp (mkRefNode rest.isEmpty
            (refInsertEntry ⟨rk, hp, np⟩ pes)), ?_, le_refl _, ?_, ?_⟩
        · show promoteRef order s ((pp, pes) :: rest) ⟨rk, hp, np⟩ = _
          simp only [promoteRef]
          rw [if_pos hroom]
        · intro q hq hqle
          have hqpp : q ≠ pp := by
            intro hcon
            exact hq (by simp [hcon])
          show (if q = pp then _ else s.pages q) = s.pages q
          rw [if_neg hqpp]
        · intro pagesF Ma Mb ua ub g2 hagc hagf hsA hsB hdab hbnd
          have hagq : ∀ q ∈ uc, q ≠ pp → pagesF q = s.pages q := by
            intro q hq hqpp
            rw [hagc q hq]
            show (if q = pp then _ else s.pages q) = s.pages q
            rw [if_neg hqpp]
          have hch2 : ChildrenF (SubH pagesF hh) plo phi
              (refInsertEntry ⟨rk, hp, np⟩ pes)
              (lKL ++ (Ma ++ Mb) ++ lKR) (uRest ∪ (ua ∪ ub)) pf px := by
            refine hzip.2 (SubH pagesF hh) rk np Ma Mb ua ub g2 ?_
              hlork hrkhi hsA hsB ?_ ?_ hdab
            · intro p2 l2 h2 kv2 u2 f2 x2 hs2 hu2
              refine SubH_frame s.pages pagesF hh p2 l2 h2 kv2 u2 f2 x2
                hs2 ?_
              intro q hq
              refine hagq q (hrsub (hu2 hq)) ?_
              intro hcon
              exact hppr (hcon ▸ hu2 hq)
            · refine Finset.disjoint_left.mpr ?_
              intro a ha hcon
              exact (hbnd a (Finset.mem_union_left _ hcon)).2.2 (hrsub ha)
            · refine Finset.disjoint_left.mpr ?_
              intro a ha hcon
              exact (hbnd a (Finset.mem_union_right _ hcon)).2.2 (hrsub ha)
          have hppnew : pp ∉ uRest ∪ (ua ∪ ub) := by
            intro hcon
            rcases Finset.mem_union.mp hcon with h | h
            · exact hppr h
            · exact (hbnd pp h).2.2 hppuc
          cases rest with
          | nil =>
              obtain ⟨hrp, hplo, hphi, hpKL, hpKR, huc2, hpx⟩ := hrest
              subst hplo hphi hpKL hpKR hpx
              show ∃ usedAll, RootRep pagesF s.rootPage
                (KL ++ (Ma ++ Mb) ++ KR) usedAll ∧
                ∀ p ∈ usedAll, 1 ≤ p ∧ p ≤ s.lastPage
              rw [hrp, hKL, hKR]
              refine ⟨insert pp (uRest ∪ (ua ∪ ub)), ?_, ?_⟩
              · refine Or.inr ⟨refInsertEntry ⟨rk, hp, np⟩ pes,
                  uRest ∪ (ua ∪ ub), hh, pf, ?_, hppnew, rfl, ?_⟩
                · rw [hagc pp hppuc]
                  show (if pp = pp then _ else _) = _
                  rw [if_pos rfl]
                  rfl
                · simpa using hch2
              · intro p hpall
                rcases Finset.mem_insert.mp hpall with rfl | h2
                · exact ⟨hpp1, by omega⟩
                · rcases Finset.mem_union.mp h2 with h3 | h3
                  · have := hucb p (hrsub h3)
                    exact ⟨this.1, by omega⟩
                  · have := hbnd p h3
                    exact ⟨this.1, by omega⟩
          | cons r1 rest2 =>
              have hsub2 : SubH pagesF (hh + 1) pp plo phi
                  (lKL ++ (Ma ++ Mb) ++ lKR)
                  (insert pp (uRest ∪ (ua ∪ ub))) pf px := by
                refine ⟨refInsertEntry ⟨rk, hp, np⟩ pes,
                  uRest ∪ (ua ∪ ub), ?_, hppnew, rfl, hch2⟩
                rw [hagc pp hppuc]
                show (if pp = pp then _ else _) = _
                rw [if_pos rfl]
                rfl
              have hdisj3 : ∀ p ∈ insert pp (uRest ∪ (ua ∪ ub)),
                  p ∉ uc2 := by
                intro p hp2
                rcases Finset.mem_insert.mp hp2 with rfl | h2
                · exact hppc
                · rcases Finset.mem_union.mp h2 with h3 | h3
                  · intro hcon
                    exact Finset.disjoint_left.mp hdis hcon
                      (Finset.mem_insert_of_mem h3)
                  · intro hcon
                    exact (hbnd p h3).2.2 (hc2sub hcon)
              obtain ⟨usedAll, hroot, hsubAll⟩ := pathZip_plug s.pages
                s.rootPage (r1 :: rest2) pp (hh + 1) plo phi pKL pKR uc2
                pf px hrest pagesF (lKL ++ (Ma ++ Mb) ++ lKR)
                (insert pp (uRest ∪ (ua ∪ ub)))
                (fun q hq => hagq q (hc2sub hq) (fun hcon => hppc
                  (hcon ▸ hq)))
                hdisj3 hsub2
              refine ⟨usedAll, ?_, ?_⟩
              · show RootRep pagesF s.rootPage _ _
                rw [hKL, hKR]
                simpa [List.append_assoc] using hroot
              · intro p hpall
                show 1 ≤ p ∧ p ≤ s.lastPage
                rcases Finset.mem_union.mp (hsubAll hpall) with h | h
                · have := hucb p (hc2sub h)
                  exact ⟨this.1, by omega⟩
                · rcases Finset.mem_insert.mp h with rfl | h2
                  · exact ⟨hpp1, by omega⟩
                  · rcases Finset.mem_union.mp h2 with h3 | h3
                    · have := hucb p (hrsub h3)
                      exact ⟨this.1, by omega⟩
                    · have := hbnd p h3
                      exact ⟨this.1, by omega⟩
      · -- the parent is full and splits
        have hlen : 2 ≤ pes.length := by
          by_cases hemp : pes.isEmpty
          · exfalso
            rw [refNumChildren, if_pos hemp] at hroom
            omega
          · rw [refNumChildren, if_neg hemp] at hroom
            omega
        have hlen2 : 3 ≤ (refInsertEntry ⟨rk, hp, np⟩ pes).length := by
          rw [refInsertEntry_length]
          omega
        obtain ⟨r, upper, hdrop⟩ := drop_cons_of_lt
          (refInsertEntry ⟨rk, hp, np⟩ pes)
          ((refInsertEntry ⟨rk, hp, np⟩ pes).length / 2)
          (Nat.div_lt_self (by omega) (by omega))
        have hupne : upper ≠ [] := by
          have hlendrop := congrArg List.length hdrop
          rw [List.length_drop] at hlendrop
          simp only [List.length_cons] at hlendrop
          intro hcon
          rw [hcon] at hlendrop
          simp at hlendrop
          omega
        have hlowne : (refInsertEntry ⟨rk, hp, np⟩ pes).take
            ((refInsertEntry ⟨rk, hp, np⟩ pes).length / 2) ≠ [] :=
          take_ne_nil_of_pos _ _ (by omega) (by omega)
        have hrmem : r ∈ refInsertEntry ⟨rk, hp, np⟩ pes := by
          have hmem2 : r ∈ (refInsertEntry ⟨rk, hp, np⟩ pes).drop
              ((refInsertEntry ⟨rk, hp, np⟩ pes).length / 2) := by
            rw [hdrop]
            simp
          exact List.mem_of_mem_drop hmem2
        have hrb : ltLo plo r.key ∧ withinHi r.key phi := by
          rcases key_mem_refInsertEntry ⟨rk, hp, np⟩ r pes hrmem with hk |
            hk
          · rw [hk]
            exact ⟨hwl rk hlork, hwh rk hrkhi⟩
          · obtain ⟨e0, he0, hke⟩ := List.mem_map.mp hk
            rw [← hke]
            exact hbents e0 he0
        obtain ⟨s3, hs3eq, hs3last, hs3agree, hs3plug⟩ := ih
          { s with lastPage := s.lastPage + 1 } (hh + 1) pp
          (s.lastPage + 1) plo phi pKL pKR uc2 pf px r.key hrest
          (fun p hpm => by
            have := hucb p (hc2sub hpm)
            omega)
          (le_refl _) hpp1 (by omega) hppc hrb.1 hrb.2
        have hs3last2 : s.lastPage + 1 ≤ s3.lastPage := hs3last
        refine ⟨setNodeT (setNodeT s3 pp
            (.internal ((refInsertEntry ⟨rk, hp, np⟩ pes).take
              ((refInsertEntry ⟨rk, hp, np⟩ pes).length / 2))))
            (s.lastPage + 1) (.internal upper), ?_, by
              show s.lastPage ≤ s3.lastPage
              omega, ?_, ?_⟩
        · show promoteRef order s ((pp, pes) :: rest) ⟨rk, hp, np⟩ = _
          simp only [promoteRef]
          rw [if_neg hroom, hdrop]
          show setNodeT (setNodeT (promoteRef order
              { s with lastPage := s.lastPage + 1 } rest
              ⟨r.key, pp, s.lastPage + 1⟩) pp _) _ _ = _
          rw [hs3eq]
        · intro q hq hqle
          have hqpp : q ≠ pp := by
            intro hcon
            exact hq (by simp [hcon])
          have hqrest : q ∉ rest.map Prod.fst := by
            intro hcon
            exact hq (by simp [hcon])
          show (if q = s.lastPage + 1 then _
            else if q = pp then _ else s3.pages q) = s.pages q
          rw [if_neg (by omega), if_neg hqpp]
          exact hs3agree q hqrest (by show q ≤ s.lastPage + 1; omega)
        · intro pagesF Ma Mb ua ub g2 hagc hagf hsA hsB hdab hbnd
          have hagF_pp : pagesF pp = .internal
              ((refInsertEntry ⟨rk, hp, np⟩ pes).take
                ((refInsertEntry ⟨rk, hp, np⟩ pes).length / 2)) := by
            rw [hagc pp hppuc]
            show (if pp = s.lastPage + 1 then _
              else if pp = pp then _ else _) = _
            rw [if_neg (by omega), if_pos rfl]
          have hagF_np2 : pagesF (s.lastPage + 1) = .internal upper := by
            rw [hagf (s.lastPage + 1) (by omega) (by
              show s.lastPage + 1 ≤ s3.lastPage
              omega)]
            show (if s.lastPage + 1 = s.lastPage + 1 then _ else _) = _
            rw [if_pos rfl]
          have hagRest : ∀ q ∈ uRest, pagesF q = s.pages q := by
            intro q hq
            have hqb := hucb q (hrsub hq)
            rw [hagc q (hrsub hq)]
            show (if q = s.lastPage + 1 then _
              else if q = pp then _ else s3.pages q) = s.pages q
            rw [if_neg (by omega), if_neg (show ¬ q = pp by
              intro hcon
              subst hcon
              exact hppr hq)]
            refine hs3agree q ?_ (by show q ≤ s.lastPage + 1; omega)
            intro hcon
            obtain ⟨pq, hpq, hpqe⟩ := List.mem_map.mp hcon
            have : q ∈ uc2 := by
              rw [← hpqe]
              exact hrestmem pq hpq
            exact Finset.disjoint_left.mp hdis this
              (Finset.mem_insert_of_mem hq)
          have hch2 : ChildrenF (SubH pagesF hh) plo phi
              (refInsertEntry ⟨rk, hp, np⟩ pes)
              (lKL ++ (Ma ++ Mb) ++ lKR) (uRest ∪ (ua ∪ ub)) pf px := by
            refine hzip.2 (SubH pagesF hh) rk np Ma Mb ua ub g2 ?_
              hlork hrkhi hsA hsB ?_ ?_ hdab
            · intro p2 l2 h2 kv2 u2 f2 x2 hs2 hu2
              refine SubH_frame s.pages pagesF hh p2 l2 h2 kv2 u2 f2 x2
                hs2 ?_
              intro q hq
              exact hagRest q (hu2 hq)
            · refine Finset.disjoint_left.mpr ?_
              intro a ha hcon
              exact (hbnd a (Finset.mem_union_left _ hcon)).2.2 (hrsub ha)
            · refine Finset.disjoint_left.mpr ?_
              intro a ha hcon
              exact (hbnd a (Finset.mem_union_right _ hcon)).2.2 (hrsub ha)
          have htdeq : (refInsertEntry ⟨rk, hp, np⟩ pes).take
              ((refInsertEntry ⟨rk, hp, np⟩ pes).length / 2) ++
              (r :: upper) = refInsertEntry ⟨rk, hp, np⟩ pes := by
            rw [← hdrop]
            exact List.take_append_drop _ _
          rw [← htdeq] at hch2
          obtain ⟨kvA, kvB, uA, uB, g3, hkvAB, huAB, hdAB, hchA, hchB,
            hrlo3, hrhi3⟩ := ChildrenF_split (SubH pagesF hh) r upper _
            plo phi _ _ pf px hch2 hlowne hupne
          have huABsub : ∀ p, p ∈ uA ∪ uB → p ∈ uRest ∪ (ua ∪ ub) := by
            intro p hpm
            rw [huAB]
            exact hpm
          have hbndAB : ∀ p ∈ uA ∪ uB, 1 ≤ p ∧ p ≤ np ∧ p ∉ uc2 := by
            intro p hpm
            rcases Finset.mem_union.mp (huABsub p hpm) with h | h
            · have hb := hucb p (hrsub h)
              refine ⟨hb.1, by omega, ?_⟩
              intro hcon
              exact Finset.disjoint_left.mp hdis hcon
                (Finset.mem_insert_of_mem h)
            · have hb := hbnd p h
              exact ⟨hb.1, hb.2.1, fun hcon => hb.2.2 (hc2sub hcon)⟩
          have hsubA : SubH pagesF (hh + 1) pp plo (some r.key) kvA
              (insert pp uA) pf (some g3) := by
            refine ⟨_, uA, hagF_pp, ?_, rfl, hchA⟩
            intro hcon
            rcases Finset.mem_union.mp (huABsub pp
              (Finset.mem_union_left _ hcon)) with h | h
            · exact hppr h
            · exact (hbnd pp h).2.2 hppuc
          have hsubB : SubH pagesF (hh + 1) (s.lastPage + 1)
              (some r.key) phi kvB (insert (s.lastPage + 1) uB) g3 px := by
            refine ⟨upper, uB, hagF_np2, ?_, rfl, hchB⟩
            intro hcon
            have := (hbndAB _ (Finset.mem_union_right _ hcon)).2.1
            omega
          have hagc3 : ∀ q ∈ uc2, pagesF q = s3.pages q := by
            intro q hq
            have hqb := hucb q (hc2sub hq)
            rw [hagc q (hc2sub hq)]
            show (if q = s.lastPage + 1 then _
              else if q = pp then _ else s3.pages q) = s3.pages q
            rw [if_neg (by omega), if_neg (show ¬ q = pp by
              intro hcon
              subst hcon
              exact hppc hq)]
          have hagf3 : ∀ q, s.lastPage + 1 < q → q ≤ s3.lastPage →
              pagesF q = s3.pages q := by
            intro q hq1 hq2
            rw [hagf q (by omega) (by
              show q ≤ s3.lastPage
              omega)]
            show (if q = s.lastPage + 1 then _
              else if q = pp then _ else s3.pages q) = s3.pages q
            rw [if_neg (by omega), if_neg (by omega)]
          have hdisjPN : Disjoint (insert pp uA)
              (insert (s.lastPage + 1) uB) := by
            refine Finset.disjoint_left.mpr ?_
            intro a ha hb
            rcases Finset.mem_insert.mp ha with h | ha2
            · rcases Finset.mem_insert.mp hb with h2 | h2
              · omega
              · rcases Finset.mem_union.mp (huABsub a
                  (Finset.mem_union_right _ h2)) with h3 | h3
                · rw [h] at h3
                  exact hppr h3
                · rw [h] at h3
                  exact (hbnd pp h3).2.2 hppuc
            · rcases Finset.mem_insert.mp hb with h2 | hb2
              · have := (hbndAB a (Finset.mem_union_left _ ha2)).2.1
                omega
              · exact Finset.disjoint_left.mp hdAB ha2 hb2
          have hbnd3 : ∀ p ∈ insert pp uA ∪ insert (s.lastPage + 1) uB,
              1 ≤ p ∧ p ≤ s.lastPage + 1 ∧ p ∉ uc2 := by
            intro p hpm
            rcases Finset.mem_union.mp hpm with h | h
            · rcases Finset.mem_insert.mp h with rfl | h2
              · exact ⟨hpp1, by omega, hppc⟩
              · have := hbndAB p (Finset.mem_union_left _ h2)
                exact ⟨this.1, by omega, this.2.2⟩
            · rcases Finset.mem_insert.mp h with rfl | h2
              · refine ⟨by omega, le_refl _, ?_⟩
                intro hcon
                have := hucb _ (hc2sub hcon)
                omega
              · have := hbndAB p (Finset.mem_union_right _ h2)
                exact ⟨this.1, by omega, this.2.2⟩
          obtain ⟨usedAll, hroot, hbnds⟩ := hs3plug pagesF kvA kvB
            (insert pp uA) (insert (s.lastPage + 1) uB) g3 hagc3 hagf3
            hsubA hsubB hdisjPN hbnd3
          refine ⟨usedAll, ?_, ?_⟩
          · show RootRep pagesF s3.rootPage (KL ++ (Ma ++ Mb) ++ KR)
              usedAll
            rw [← hkvAB] at hroot
            rw [hKL, hKR]
            simpa [List.append_assoc] using hroot
          · intro p hpall
            show 1 ≤ p ∧ p ≤ s3.lastPage
            exact hbnds p hpall

theorem searchGo_zip (s : TState) (k : Int) :
    ∀ (h : Nat), ∀ (fuel page : Nat) (lo hi : Option Int) (kvs : List KV)
      (used : Finset Nat) (first : Nat) (x : Option Nat)
      (acc : List (Nat × List RefE)) (KL0 KR0 : List KV)
      (uc0 : Finset Nat),
      SubH s.pages h page lo hi kvs used first x →
      withinLo lo k → withinHi k hi → h < fuel →
      acc ≠ [] →
      PathZip s.pages s.rootPage acc page h lo hi KL0 KR0 uc0 first x →
      Disjoint uc0 used →
      (∀ kv ∈ KL0, kv.1 < k) → (∀ kv ∈ KR0, k < kv.1) →
      ∃ (path2 : List (Nat × List RefE)) (lp : Nat) (M : List KV)
        (lnext : Option Nat) (llo lhi : Option Int) (KL KR : List KV)
        (uc : Finset Nat),
        searchPathGo s k fuel page acc =
          some (path2, lp, M.map kvRec, lnext, false) ∧
        path2 ≠ [] ∧
        PathZip s.pages s.rootPage path2 lp 0 llo lhi KL KR uc lp lnext ∧
        SortedKVs M ∧
        (∀ kv ∈ M, withinLo llo kv.1 ∧ withinHi kv.1 lhi) ∧
        withinLo llo k ∧ withinHi k lhi ∧
        KL ++ M ++ KR = KL0 ++ kvs ++ KR0 ∧
        (∀ kv ∈ KL, kv.1 < k) ∧ (∀ kv ∈ KR, k < kv.1) ∧
        (uc ∪ {lp} : Finset Nat) ⊆ uc0 ∪ used ∧
        lp ∈ used ∧ lp ∉ uc := by
  intro h
  induction h with
  | zero =>
      intro fuel page lo hi kvs used first x acc KL0 KR0 uc0 hsub hklo
        hkhi hfuel haccne hpz hdisj hKL0 hKR0
      obtain ⟨hp, hsort, hb, hu, hf⟩ := hsub
      cases fuel with
      | zero => omega
      | succ m =>
          rw [hf] at hpz
          refine ⟨acc, page, kvs, x, lo, hi, KL0, KR0, uc0,
            by simp [searchPathGo, hp], haccne, hpz, hsort, hb, hklo,
            hkhi, rfl, hKL0, hKR0, ?_, by rw [hu]; simp, ?_⟩
          · rw [hu]
          · intro hcon
            have : page ∈ used := by rw [hu]; simp
            exact Finset.disjoint_left.mp hdisj hcon this
  | succ h ih =>
      intro fuel page lo hi kvs used first x acc KL0 KR0 uc0 hsub hklo
        hkhi hfuel haccne hpz hdisj hKL0 hKR0
      obtain ⟨es, used2, hp, hnotin, hu, hch⟩ := hsub
      cases fuel with
      | zero => omega
      | succ m =>
          obtain ⟨EL, ER, cp, clo, chi, lKL, M1, lKR, uRest, cu, cf, cx,
            hesq, hfind, hcsub, hclo, hchi, hwlo, hwhi, hkvs1, hlKL, hlKR,
            hused2, hdisj2, hrkf, hheadb, hzip⟩ :=
            childrenF_unzip (SubH s.pages h) k
              (fun p2 l2 h2 kv2 u2 f2 x2 hs2 =>
                SubH_kvs_facts s.pages h p2 l2 h2 kv2 u2 f2 x2 hs2)
              es lo hi kvs used2 first x hch hklo hkhi
          have hmk : s.pages page = mkRefNode acc.isEmpty es := by
            cases acc with
            | nil => exact absurd rfl haccne
            | cons a t => exact hp
          have hpgu : page ∈ used := by
            rw [hu]
            simp
          have hpgnuc0 : page ∉ uc0 :=
            fun hcon => Finset.disjoint_left.mp hdisj hcon hpgu
          have hurestu2 : uRest ⊆ used2 := by
            rw [hused2]
            exact Finset.subset_union_left
          have hcuu2 : cu ⊆ used2 := by
            rw [hused2]
            exact Finset.subset_union_right
          have hpz2 : PathZip s.pages s.rootPage ((page, es) :: acc) cp h
              clo chi (KL0 ++ lKL) (lKR ++ KR0)
              (uc0 ∪ insert page uRest) cf cx := by
            refine ⟨lo, hi, KL0, KR0, lKL, lKR, uc0, uRest, first, x,
              hpz, hmk, hzip,
              ChildrenF_entry_bounds (SubH s.pages h) es lo hi kvs used2
                first x hch,
              hwlo, hwhi, rfl, rfl, rfl, hpgnuc0,
              fun hcon => hnotin (hurestu2 hcon), ?_⟩
            refine Finset.disjoint_left.mpr ?_
            intro a ha hcon
            rcases Finset.mem_insert.mp hcon with rfl | h2
            · exact hpgnuc0 ha
            · refine Finset.disjoint_left.mp hdisj ha ?_
              rw [hu]
              exact Finset.mem_insert_of_mem (hurestu2 h2)
          have hdisj3 : Disjoint (uc0 ∪ insert page uRest) cu := by
            refine Finset.disjoint_left.mpr ?_
            intro a ha hcon
            rcases Finset.mem_union.mp ha with h2 | h2
            · exact Finset.disjoint_left.mp hdisj h2
                (by rw [hu]; exact Finset.mem_insert_of_mem (hcuu2 hcon))
            · rcases Finset.mem_insert.mp h2 with rfl | h3
              · exact hnotin (hcuu2 hcon)
              · exact Finset.disjoint_left.mp hdisj2 h3 hcon
          obtain ⟨path2, lp, M, lnext, llo, lhi, KL, KR, uc, hgo, hp2ne,
            hpzf, hsortM, hbM, hlloK, hlhiK, htotal, hKLf, hKRf, hsubf,
            hlpu, hlpnuc⟩ := ih m cp clo chi M1 cu cf cx
            ((page, es) :: acc) (KL0 ++ lKL) (lKR ++ KR0)
            (uc0 ∪ insert page uRest) hcsub hclo hchi (by omega)
            (by simp) hpz2 hdisj3
            (by
              intro kv hkv
              rcases List.mem_append.mp hkv with h2 | h2
              · exact hKL0 kv h2
              · exact hlKL kv h2)
            (by
              intro kv hkv
              rcases List.mem_append.mp hkv with h2 | h2
              · exact hlKR kv h2
              · exact hKR0 kv h2)
          refine ⟨path2, lp, M, lnext, llo, lhi, KL, KR, uc, ?_, hp2ne,
            hpzf, hsortM, hbM, hlloK, hlhiK, ?_, hKLf, hKRf, ?_, ?_, ?_⟩
          · simp only [searchPathGo, hp, hfind]
            exact hgo
          · rw [htotal, hkvs1]
            simp
          · intro q hq
            rcases Finset.mem_union.mp (hsubf hq) with h2 | h2
            · rcases Finset.mem_union.mp h2 with h3 | h3
              · exact Finset.mem_union_left _ h3
              · refine Finset.mem_union_right _ ?_
                rw [hu]
                rcases Finset.mem_insert.mp h3 with rfl | h4
                · exact Finset.mem_insert_self _ _
                · exact Finset.mem_insert_of_mem (hurestu2 h4)
            · refine Finset.mem_union_right _ ?_
              rw [hu]
              exact Finset.mem_insert_of_mem (hcuu2 h2)
          · rw [hu]
            exact Finset.mem_insert_of_mem (hcuu2 hlpu)
          · exact hlpnuc

theorem kvFind_isSome_of_mem (k : Int) (l : List KV)
    (hmem : ∃ kv ∈ l, kv.1 = k) : ∃ w, kvFind k l = some w := by
  induction l with
  | nil => simp at hmem
  | cons kv rest ih =>
      by_cases h : kv.1 = k
      · exact ⟨kv.2, by simp [kvFind, h]⟩
      · simp only [kvFind, if_neg h]
        apply ih
        obtain ⟨a, ha, hak⟩ := hmem
        rcases List.mem_cons.mp ha with rfl | ha2
        · exact absurd hak h
        · exact ⟨a, ha2, hak⟩

theorem sorted_split_bounds (l : List KV) (n : Nat) (rm : KV)
    (upp : List KV) (hs : SortedKVs l) (hd : l.drop n = rm :: upp) :
    (∀ a ∈ l.take n, a.1 < rm.1) ∧ (∀ b ∈ upp, rm.1 < b.1) ∧
    SortedKVs (l.take n) ∧ SortedKVs (rm :: upp) := by
  have hta : l.take n ++ (rm :: upp) = l := by
    rw [← hd]
    exact List.take_append_drop n l
  rw [← hta] at hs
  have h2 := List.pairwise_append.mp hs
  refine ⟨fun a ha => h2.2.2 a ha rm (by simp), ?_, h2.1, h2.2.1⟩
  intro b hb
  exact (List.pairwise_cons.mp h2.2.1).1 b hb

theorem treeInv_init : TreeInv initTState [] := by
  refine ⟨{1}, Or.inl ⟨rfl, by simp [SortedKVs], rfl⟩, ?_⟩
  intro p hp
  simp only [Finset.mem_singleton] at hp
  subst hp
  exact ⟨le_refl 1, le_refl 1⟩

theorem descend_zip (s : TState) (kvs : List KV) (k : Int)
    (used : Finset Nat) (es : List RefE) (used2 : Finset Nat)
    (h first : Nat)
    (hp : s.pages s.rootPage = .root es)
    (hnotin : s.rootPage ∉ used2)
    (hu : used = insert s.rootPage used2)
    (hch : ChildrenH s.pages h none none es kvs used2 first none)
    (hbound : ∀ p ∈ used, 1 ≤ p ∧ p ≤ s.lastPage) :
    ∃ (path2 : List (Nat × List RefE)) (lp : Nat) (M : List KV)
      (lnext : Option Nat) (llo lhi : Option Int) (KL KR : List KV)
      (uc : Finset Nat),
      searchPathGo s k (s.lastPage + 1) s.rootPage [] =
        some (path2, lp, M.map kvRec, lnext, false) ∧
      path2 ≠ [] ∧
      PathZip s.pages s.rootPage path2 lp 0 llo lhi KL KR uc lp lnext ∧
      SortedKVs M ∧
      (∀ kv ∈ M, withinLo llo kv.1 ∧ withinHi kv.1 lhi) ∧
      withinLo llo k ∧ withinHi k lhi ∧
      KL ++ M ++ KR = kvs ∧
      (∀ kv ∈ KL, kv.1 < k) ∧ (∀ kv ∈ KR, k < kv.1) ∧
      (∀ p ∈ uc, 1 ≤ p ∧ p ≤ s.lastPage) ∧
      1 ≤ lp ∧ lp ≤ s.lastPage ∧ lp ∉ uc := by
  obtain ⟨EL, ER, cp, clo, chi, lKL, M1, lKR, uRest, cu, cf, cx,
    hesq, hfind, hcsub, hclo, hchi, hwlo, hwhi, hkvs1, hlKL, hlKR,
    hused2, hdisj2, hrkf, hheadb, hzip⟩ :=
    childrenF_unzip (SubH s.pages h) k
      (fun p2 l2 h2 kv2 u2 f2 x2 hs2 =>
        SubH_kvs_facts s.pages h p2 l2 h2 kv2 u2 f2 x2 hs2)
      es none none kvs used2 first none hch trivial trivial
  have hrpu : s.rootPage ∈ used := by
    rw [hu]
    simp
  have hurestu2 : uRest ⊆ used2 := by
    rw [hused2]
    exact Finset.subset_union_left
  have hcuu2 : cu ⊆ used2 := by
    rw [hused2]
    exact Finset.subset_union_right
  have hpz2 : PathZip s.pages s.rootPage [(s.rootPage, es)] cp h
      clo chi lKL lKR (insert s.rootPage uRest) cf cx := by
    refine ⟨none, none, [], [], lKL, lKR, ∅, uRest, first, none,
      ⟨rfl, rfl, rfl, rfl, rfl, rfl, rfl⟩, hp, hzip,
      ChildrenF_entry_bounds (SubH s.pages h) es none none kvs used2
        first none hch,
      hwlo, hwhi, by simp, by simp, by simp, by simp,
      fun hcon => hnotin (hurestu2 hcon), by simp⟩
  have hdisj3 : Disjoint (insert s.rootPage uRest) cu := by
    refine Finset.disjoint_left.mpr ?_
    intro a ha hcon
    rcases Finset.mem_insert.mp ha with rfl | h2
    · exact hnotin (hcuu2 hcon)
    · exact Finset.disjoint_left.mp hdisj2 h2 hcon
  have hcard : h < cu.card := SubH_card s.pages h cp clo chi M1 cu cf cx
    hcsub
  have hcu2 : cu.card ≤ used2.card := Finset.card_le_card hcuu2
  have hused2c : used2.card < used.card := by
    rw [hu]
    exact Finset.card_lt_card (Finset.ssubset_insert hnotin)
  have hle : used.card ≤ s.lastPage := used_card_le used s.lastPage hbound
  obtain ⟨path2, lp, M, lnext, llo, lhi, KL, KR, uc, hgo, hp2ne, hpzf,
    hsortM, hbM, hlloK, hlhiK, htotal, hKLf, hKRf, hsubf, hlpu,
    hlpnuc⟩ := searchGo_zip s k h s.lastPage cp clo chi M1 cu cf cx
    [(s.rootPage, es)] lKL lKR (insert s.rootPage uRest) hcsub hclo hchi
    (by omega) (by simp) hpz2 hdisj3 hlKL hlKR
  have hucused : ∀ p ∈ uc, p ∈ used := by
    intro p hpm
    have : p ∈ insert s.rootPage uRest ∪ cu :=
      hsubf (Finset.mem_union_left _ hpm)
    rw [hu]
    rcases Finset.mem_union.mp this with h2 | h2
    · rcases Finset.mem_insert.mp h2 with rfl | h3
      · exact Finset.mem_insert_self _ _
      · exact Finset.mem_insert_of_mem (hurestu2 h3)
    · exact Finset.mem_insert_of_mem (hcuu2 h2)
  have hlpused : lp ∈ used := by
    rw [hu]
    exact Finset.mem_insert_of_mem (hcuu2 hlpu)
  refine ⟨path2, lp, M, lnext, llo, lhi, KL, KR, uc, ?_, hp2ne, hpzf,
    hsortM, hbM, hlloK, hlhiK, by rw [htotal, hkvs1], hKLf, hKRf,
    fun p hpm => hbound p (hucused p hpm), (hbound lp hlpused).1,
    (hbound lp hlpused).2, hlpnuc⟩
  show searchPathGo s k (s.lastPage + 1) s.rootPage [] = _
  simp only [searchPathGo, hp, hfind]
  exact hgo

theorem insertM_dup (order : Nat) (s : TState) (kvs : List KV)
    (hinv : TreeInv s kvs) (k : Int) (v w : List Nat) (b : Bool)
    (hk : kvFind k kvs = some w) :
    insertM order s k v b false = .error .dupKey := by
  obtain ⟨used, hroot, hbound⟩ := hinv
  rcases hroot with ⟨hp, hs, hu⟩ | ⟨es, used2, h, first, hp, hnotin, hu,
    hch⟩
  · unfold insertM
    simp only [searchPathGo, hp]
    rw [getEntryRec_kvs kvs hs k, hk]
    simp
  · obtain ⟨cp, clo, chi, ckvs, cu, cf, cx, hfind, hcsub, hclo, hchi,
      hkv, hcu⟩ := searchChildren s.pages h k es none none kvs used2
        first none hch trivial trivial
    have hcard : h < cu.card := SubH_card s.pages h cp clo chi ckvs cu
      cf cx hcsub
    have hcu2 : cu.card ≤ used2.card := Finset.card_le_card hcu
    have hused2 : used2.card < used.card := by
      rw [hu]
      exact Finset.card_lt_card (Finset.ssubset_insert hnotin)
    have hle : used.card ≤ s.lastPage := used_card_le used s.lastPage
      hbound
    obtain ⟨path2, lp, lkvs, np2, hgo, hsort, hkv2⟩ :=
      searchGo_sub s k h s.lastPage cp clo chi ckvs cu cf cx
        [(s.rootPage, es)] hcsub hclo hchi (by omega)
    unfold insertM
    simp only [searchPathGo, hp, hfind]
    rw [hgo]
    have hfind2 : kvFind k lkvs = some w := by
      rw [← hkv2, ← hkv]
      exact hk
    simp only [getEntryRec_kvs lkvs hsort k, hfind2]
    simp

theorem insertM_replace (order : Nat) (s : TState) (kvs : List KV)
    (hinv : TreeInv s kvs) (k : Int) (v : List Nat) (b : Bool)
    (hmem : ∃ kv ∈ kvs, kv.1 = k) :
    ∃ s2, insertM order s k v b true = .ok s2 ∧
      TreeInv s2 (kvSet k v kvs) ∧ s2.lastPage = s.lastPage := by
  obtain ⟨used, hroot, hbound⟩ := hinv
  rcases hroot with ⟨hp, hs, hu⟩ | ⟨es, used2, h, first, hp, hnotin, hu,
    hch⟩
  · obtain ⟨w, hw⟩ := kvFind_isSome_of_mem k kvs hmem
    refine ⟨setNodeT s s.rootPage (mkRecNode true
      (setEntryValueRec (kvs.map kvRec) k v) none), ?_, ?_, rfl⟩
    · unfold insertM
      simp only [searchPathGo, hp]
      rw [getEntryRec_kvs kvs hs k, hw]
      simp
    · refine ⟨{s.rootPage}, Or.inl ⟨?_, kvSet_sorted k v kvs hs, rfl⟩,
        ?_⟩
      · show (if s.rootPage = s.rootPage then _ else _) = _
        rw [if_pos rfl]
        show mkRecNode true (setEntryValueRec (kvs.map kvRec) k v) none
          = _
        rw [setEntryValueRec_map k v kvs hs hmem]
        rfl
      · intro p hpm
        show 1 ≤ p ∧ p ≤ s.lastPage
        refine hbound p ?_
        rw [hu]
        exact hpm
  · obtain ⟨path2, lp, M, lnext, llo, lhi, KL, KR, uc, hgo, hp2ne, hpzf,
      hsortM, hbM, hlloK, hlhiK, htotal, hKLf, hKRf, hucb, hlp1, hlple,
      hlpnuc⟩ := descend_zip s kvs k used es used2 h first hp hnotin hu
        hch hbound
    have hmemM : ∃ kv ∈ M, kv.1 = k := by
      obtain ⟨a, ha, hak⟩ := hmem
      rw [← htotal] at ha
      rcases List.mem_append.mp ha with h2 | h2
      · rcases List.mem_append.mp h2 with h3 | h3
        · exact absurd hak (by have := hKLf a h3; omega)
        · exact ⟨a, h3, hak⟩
      · exact absurd hak (by have := hKRf a h2; omega)
    obtain ⟨w, hw⟩ := kvFind_isSome_of_mem k M hmemM
    refine ⟨setNodeT s lp (mkRecNode false
      (setEntryValueRec (M.map kvRec) k v) lnext), ?_, ?_, rfl⟩
    · unfold insertM
      rw [hgo]
      simp only [getEntryRec_kvs M hsortM k, hw]
      simp
    · have hnode : (setNodeT s lp (mkRecNode false
          (setEntryValueRec (M.map kvRec) k v) lnext)).pages lp =
          .leaf ((kvSet k v M).map kvRec) lnext := by
        show (if lp = lp then _ else _) = _
        rw [if_pos rfl]
        show mkRecNode false (setEntryValueRec (M.map kvRec) k v) lnext
          = _
        rw [setEntryValueRec_map k v M hsortM hmemM]
        rfl
      have hsubL : SubH (setNodeT s lp (mkRecNode false
          (setEntryValueRec (M.map kvRec) k v) lnext)).pages 0 lp llo
          lhi (kvSet k v M) {lp} lp lnext := by
        refine ⟨hnode, kvSet_sorted k v M hsortM, ?_, rfl, rfl⟩
        intro kv hkv
        obtain ⟨b2, hb2, hkb⟩ := mem_kvSet k v M kv hkv
        rw [hkb]
        exact hbM b2 hb2
      cases path2 with
      | nil => exact absurd rfl hp2ne
      | cons q0 qrest =>
          obtain ⟨usedAll, hroot2, hsubAll⟩ := pathZip_plug s.pages
            s.rootPage (q0 :: qrest) lp 0 llo lhi KL KR uc lp lnext hpzf
            (setNodeT s lp (mkRecNode false
              (setEntryValueRec (M.map kvRec) k v) lnext)).pages
            (kvSet k v M) {lp}
            (by
              intro q hq
              show (if q = lp then _ else s.pages q) = s.pages q
              rw [if_neg (show ¬ q = lp by
                intro hcon
                subst hcon
                exact hlpnuc hq)])
            (by
              intro p hpm
              rcases Finset.mem_singleton.mp hpm with rfl
              exact hlpnuc)
            hsubL
          refine ⟨usedAll, ?_, ?_⟩
          · have hKLid : kvSet k v KL = KL :=
              kvSet_id k v KL (fun a ha => by
                have := hKLf a ha
                omega)
            have hKRid : kvSet k v KR = KR :=
              kvSet_id k v KR (fun a ha => by
                have := hKRf a ha
                omega)
            have hkveq : KL ++ kvSet k v M ++ KR = kvSet k v kvs := by
              rw [← htotal, kvSet_append, kvSet_append, hKLid, hKRid]
            rw [← hkveq]
            exact hroot2
          · intro p hpm
            show 1 ≤ p ∧ p ≤ s.lastPage
            rcases Finset.mem_union.mp (hsubAll hpm) with h2 | h2
            · exact hucb p h2
            · rcases Finset.mem_singleton.mp h2 with rfl
              exact ⟨hlp1, hlple⟩

theorem kvInsort_length (k : Int) (v : List Nat) (l : List KV) :
    (kvInsort k v l).length = l.length + 1 := by
  induction l with
  | nil => rfl
  | cons kv rest ih =>
      simp only [kvInsort]
      by_cases h : kv.1 ≤ k
      · rw [if_pos h]
        simp [ih]
      · rw [if_neg h]
        rfl

theorem splitLeaf_plug (order : Nat) (hord : 3 ≤ order) (s : TState)
    (path2 : List (Nat × List RefE)) (lp : Nat) (M2 : List KV)
    (lnext : Option Nat) (llo lhi : Option Int) (KL KR : List KV)
    (uc : Finset Nat)
    (hpz : PathZip s.pages s.rootPage path2 lp 0 llo lhi KL KR uc lp
      lnext)
    (hsort : SortedKVs M2)
    (hbM : ∀ kv ∈ M2, withinLo llo kv.1 ∧ withinHi kv.1 lhi)
    (hlen3 : 3 ≤ M2.length)
    (hucb : ∀ p ∈ uc, 1 ≤ p ∧ p ≤ s.lastPage)
    (hlp1 : 1 ≤ lp) (hlple : lp ≤ s.lastPage) (hlpnuc : lp ∉ uc) :
    ∃ s2, splitLeafM order s path2 lp (M2.map kvRec) lnext = s2 ∧
      TreeInv s2 (KL ++ M2 ++ KR) ∧ s.lastPage + 1 ≤ s2.lastPage := by
  obtain ⟨rm, upp, hdrop⟩ := drop_cons_of_lt M2 (M2.length / 2)
    (Nat.div_lt_self (by omega) (by omega))
  have hta : M2.take (M2.length / 2) ++ (rm :: upp) = M2 := by
    rw [← hdrop]
    exact List.take_append_drop _ _
  have hsb := sorted_split_bounds M2 (M2.length / 2) rm upp hsort hdrop
  have htakene : M2.take (M2.length / 2) ≠ [] :=
    take_ne_nil_of_pos _ _ (by omega) (by omega)
  have hrmM : rm ∈ M2 := by
    rw [← hta]
    exact List.mem_append_right _ (by simp)
  have hltlo : ltLo llo rm.1 := by
    obtain ⟨a0, ha0⟩ := List.exists_mem_of_ne_nil _ htakene
    have ha0M : a0 ∈ M2 := by
      rw [← hta]
      exact List.mem_append_left _ ha0
    have h1 := (hbM a0 ha0M).1
    have h2 := hsb.1 a0 ha0
    cases llo with
    | none => trivial
    | some a => exact lt_of_le_of_lt h1 h2
  have hhilt : withinHi rm.1 lhi := (hbM rm hrmM).2
  obtain ⟨s3, hs3eq, hs3last, hs3agree, hs3plug⟩ := promoteRef_zip order
    hord path2 { s with lastPage := s.lastPage + 1 } 0 lp
    (s.lastPage + 1) llo lhi KL KR uc lp lnext rm.1 hpz
    (fun p hpm => by
      have := hucb p hpm
      omega)
    (le_refl _) hlp1 (by omega) hlpnuc hltlo hhilt
  have hs3last2 : s.lastPage + 1 ≤ s3.lastPage := hs3last
  refine ⟨setNodeT (setNodeT s3 lp
      (.leaf ((M2.take (M2.length / 2)).map kvRec) (some (s.lastPage + 1))))
      (s.lastPage + 1) (.leaf ((rm :: upp).map kvRec) lnext), ?_, ?_,
      by show s.lastPage + 1 ≤ s3.lastPage; omega⟩
  · simp only [splitLeafM, List.length_map]
    rw [← List.map_take, ← List.map_drop, hdrop]
    simp only [List.map_cons]
    show setNodeT (setNodeT (promoteRef order
        { s with lastPage := s.lastPage + 1 } path2
        ⟨rm.1, lp, s.lastPage + 1⟩) lp
        (.leaf ((M2.take (M2.length / 2)).map kvRec)
          (some (s.lastPage + 1))))
      (s.lastPage + 1) (.leaf (kvRec rm :: upp.map kvRec) lnext) = _
    rw [hs3eq]
  · have hlpa : (setNodeT (setNodeT s3 lp
        (.leaf ((M2.take (M2.length / 2)).map kvRec)
          (some (s.lastPage + 1))))
        (s.lastPage + 1) (.leaf ((rm :: upp).map kvRec) lnext)).pages lp =
        .leaf ((M2.take (M2.length / 2)).map kvRec)
          (some (s.lastPage + 1)) := by
      show (if lp = s.lastPage + 1 then _
        else if lp = lp then _ else _) = _
      rw [if_neg (by omega), if_pos rfl]
    have hnpa : (setNodeT (setNodeT s3 lp
        (.leaf ((M2.take (M2.length / 2)).map kvRec)
          (some (s.lastPage + 1))))
        (s.lastPage + 1) (.leaf ((rm :: upp).map kvRec) lnext)).pages
        (s.lastPage + 1) = .leaf ((rm :: upp).map kvRec) lnext := by
      show (if s.lastPage + 1 = s.lastPage + 1 then _ else _) = _
      rw [if_pos rfl]
    have hsA : SubH (setNodeT (setNodeT s3 lp
        (.leaf ((M2.take (M2.length / 2)).map kvRec)
          (some (s.lastPage + 1))))
        (s.lastPage + 1) (.leaf ((rm :: upp).map kvRec) lnext)).pages 0
        lp llo (some rm.1) (M2.take (M2.length / 2)) {lp} lp
        (some (s.lastPage + 1)) := by
      refine ⟨hlpa, hsb.2.2.1, ?_, rfl, rfl⟩
      intro kv hkv
      have hkvM : kv ∈ M2 := by
        rw [← hta]
        exact List.mem_append_left _ hkv
      exact ⟨(hbM kv hkvM).1, hsb.1 kv hkv⟩
    have hsB : SubH (setNodeT (setNodeT s3 lp
        (.leaf ((M2.take (M2.length / 2)).map kvRec)
          (some (s.lastPage + 1))))
        (s.lastPage + 1) (.leaf ((rm :: upp).map kvRec) lnext)).pages 0
        (s.lastPage + 1) (some rm.1) lhi (rm :: upp)
        {s.lastPage + 1} (s.lastPage + 1) lnext := by
      refine ⟨hnpa, hsb.2.2.2, ?_, rfl, rfl⟩
      intro kv hkv
      have hkvM : kv ∈ M2 := by
        rw [← hta]
        exact List.mem_append_right _ hkv
      refine ⟨?_, (hbM kv hkvM).2⟩
      rcases List.mem_cons.mp hkv with rfl | hkv2
      · exact le_refl _
      · exact le_of_lt (hsb.2.1 kv hkv2)
    obtain ⟨usedAll, hroot2, hballs⟩ := hs3plug
      (setNodeT (setNodeT s3 lp
        (.leaf ((M2.take (M2.length / 2)).map kvRec)
          (some (s.lastPage + 1))))
        (s.lastPage + 1) (.leaf ((rm :: upp).map kvRec) lnext)).pages
      (M2.take (M2.length / 2)) (rm :: upp) {lp} {s.lastPage + 1}
      (s.lastPage + 1)
      (by
        intro q hq
        have hqb := hucb q hq
        show (if q = s.lastPage + 1 then _
          else if q = lp then _ else s3.pages q) = s3.pages q
        rw [if_neg (by omega), if_neg (show ¬ q = lp by
          intro hcon
          subst hcon
          exact hlpnuc hq)])
      (by
        intro q hq1 hq2
        have hq1b : s.lastPage + 1 < q := hq1
        show (if q = s.lastPage + 1 then _
          else if q = lp then _ else s3.pages q) = s3.pages q
        rw [if_neg (by omega), if_neg (by omega)])
      hsA hsB
      (by
        refine Finset.disjoint_left.mpr ?_
        intro a ha hb
        rcases Finset.mem_singleton.mp ha with rfl
        rcases Finset.mem_singleton.mp hb with hcon
        omega)
      (by
        intro p hpm
        rcases Finset.mem_union.mp hpm with h2 | h2
        · rcases Finset.mem_singleton.mp h2 with rfl
          exact ⟨hlp1, by omega, hlpnuc⟩
        · rcases Finset.mem_singleton.mp h2 with rfl
          refine ⟨by omega, le_refl _, ?_⟩
          intro hcon
          have := hucb _ hcon
          omega)
    rw [hta] at hroot2
    refine ⟨usedAll, ?_, ?_⟩
    · show RootRep _ s3.rootPage (KL ++ M2 ++ KR) usedAll
      exact hroot2
    · intro p hpm
      show 1 ≤ p ∧ p ≤ s3.lastPage
      exact hballs p hpm

theorem insertM_inv (order : Nat) (hord : 3 ≤ order) (s : TState)
    (kvs : List KV) (hinv : TreeInv s kvs) (k : Int) (v : List Nat)
    (b : Bool) (hfresh : ∀ kv ∈ kvs, kv.1 ≠ k) :
    ∃ s2, insertM order s k v b false = .ok s2 ∧
      TreeInv s2 (kvInsort k v kvs) ∧ s.lastPage ≤ s2.lastPage := by
  obtain ⟨used, hroot, hbound⟩ := hinv
  rcases hroot with ⟨hp, hs, hu⟩ | ⟨es, used2, h, first, hp, hnotin, hu,
    hch⟩
  · have hgn : getEntryRec (kvs.map kvRec) k = none := by
      rw [getEntryRec_kvs kvs hs k, kvFind_eq_none k kvs hfresh]
      rfl
    have hrp1 : 1 ≤ s.rootPage :=
      (hbound s.rootPage (by rw [hu]; simp)).1
    have hrple : s.rootPage ≤ s.lastPage :=
      (hbound s.rootPage (by rw [hu]; simp)).2
    by_cases hfit : (kvs.map kvRec).length < order - 1
    · refine ⟨setNodeT s s.rootPage (mkRecNode true
        (insortRec ⟨k, some v, none⟩ (kvs.map kvRec)) none), ?_, ?_,
        le_refl _⟩
      · unfold insertM
        simp only [searchPathGo, hp]
        simp only [hgn]
        rw [if_pos hfit]
      · refine ⟨{s.rootPage}, Or.inl ⟨?_,
          kvInsort_sorted k v kvs hs hfresh, rfl⟩, ?_⟩
        · show (if s.rootPage = s.rootPage then _ else _) = _
          rw [if_pos rfl]
          show mkRecNode true
            (insortRec ⟨k, some v, none⟩ (kvs.map kvRec)) none = _
          rw [insortRec_map]
          rfl
        · intro p hpm
          show 1 ≤ p ∧ p ≤ s.lastPage
          rcases Finset.mem_singleton.mp hpm with rfl
          exact ⟨hrp1, hrple⟩
    · have hpztriv : PathZip s.pages s.rootPage [] s.rootPage 0 none
          none [] [] ∅ s.rootPage none :=
        ⟨rfl, rfl, rfl, rfl, rfl, rfl, rfl⟩
      have hlen3 : 3 ≤ (kvInsort k v kvs).length := by
        rw [kvInsort_length]
        rw [List.length_map] at hfit
        omega
      obtain ⟨s2, hs2eq, hs2inv, hs2last⟩ := splitLeaf_plug order hord s
        [] s.rootPage (kvInsort k v kvs) none none none [] [] ∅ hpztriv
        (kvInsort_sorted k v kvs hs hfresh)
        (fun kv _ => ⟨trivial, trivial⟩) hlen3
        (fun p hpm => by simp at hpm) hrp1 hrple (by simp)
      refine ⟨s2, ?_, by simpa using hs2inv, by omega⟩
      unfold insertM
      simp only [searchPathGo, hp]
      simp only [hgn]
      rw [if_neg hfit, insortRec_map]
      rw [hs2eq]
  · obtain ⟨path2, lp, M, lnext, llo, lhi, KL, KR, uc, hgo, hp2ne, hpzf,
      hsortM, hbM, hlloK, hlhiK, htotal, hKLf, hKRf, hucb, hlp1, hlple,
      hlpnuc⟩ := descend_zip s kvs k used es used2 h first hp hnotin hu
        hch hbound
    have hMsub : ∀ kv ∈ M, kv ∈ kvs := by
      intro kv hkv
      rw [← htotal]
      exact List.mem_append_left _ (List.mem_append_right _ hkv)
    have hfreshM : ∀ kv ∈ M, kv.1 ≠ k :=
      fun kv hkv => hfresh kv (hMsub kv hkv)
    have hgn : getEntryRec (M.map kvRec) k = none := by
      rw [getEntryRec_kvs M hsortM k, kvFind_eq_none k M hfreshM]
      rfl
    have hkveq : KL ++ kvInsort k v M ++ KR = kvInsort k v kvs := by
      rw [← htotal]
      rw [kvInsort_append_right k v (KL ++ M) KR hKRf]
      rw [kvInsort_append_left k v KL M
        (fun a ha => le_of_lt (hKLf a ha))]
    by_cases hfit : (M.map kvRec).length < order - 1
    · refine ⟨setNodeT s lp (mkRecNode false
        (insortRec ⟨k, some v, none⟩ (M.map kvRec)) lnext), ?_, ?_,
        le_refl _⟩
      · unfold insertM
        rw [hgo]
        simp only [hgn]
        rw [if_pos hfit]
      · have hnode : (setNodeT s lp (mkRecNode false
            (insortRec ⟨k, some v, none⟩ (M.map kvRec)) lnext)).pages
            lp = .leaf ((kvInsort k v M).map kvRec) lnext := by
          show (if lp = lp then _ else _) = _
          rw [if_pos rfl]
          show mkRecNode false
            (insortRec ⟨k, some v, none⟩ (M.map kvRec)) lnext = _
          rw [insortRec_map]
          rfl
        have hsubL : SubH (setNodeT s lp (mkRecNode false
            (insortRec ⟨k, some v, none⟩ (M.map kvRec)) lnext)).pages 0
            lp llo lhi (kvInsort k v M) {lp} lp lnext := by
          refine ⟨hnode, kvInsort_sorted k v M hsortM hfreshM, ?_, rfl,
            rfl⟩
          intro kv hkv
          rcases mem_kvInsort k v M kv hkv with rfl | h2
          · exact ⟨hlloK, hlhiK⟩
          · exact hbM kv h2
        cases path2 with
        | nil => exact absurd rfl hp2ne
        | cons q0 qrest =>
            obtain ⟨usedAll, hroot2, hsubAll⟩ := pathZip_plug s.pages
              s.rootPage (q0 :: qrest) lp 0 llo lhi KL KR uc lp lnext
              hpzf
              (setNodeT s lp (mkRecNode false
                (insortRec ⟨k, some v, none⟩ (M.map kvRec))
                lnext)).pages
              (kvInsort k v M) {lp}
              (by
                intro q hq
                show (if q = lp then _ else s.pages q) = s.pages q
                rw [if_neg (show ¬ q = lp by
                  intro hcon
                  subst hcon
                  exact hlpnuc hq)])
              (by
                intro p hpm
                rcases Finset.mem_singleton.mp hpm with rfl
                exact hlpnuc)
              hsubL
            refine ⟨usedAll, ?_, ?_⟩
            · rw [← hkveq]
              exact hroot2
            · intro p hpm
              show 1 ≤ p ∧ p ≤ s.lastPage
              rcases Finset.mem_union.mp (hsubAll hpm) with h2 | h2
              · exact hucb p h2
              · rcases Finset.mem_singleton.mp h2 with rfl
                exact ⟨hlp1, hlple⟩
    · have hlen3 : 3 ≤ (kvInsort k v M).length := by
        rw [kvInsort_length]
        rw [List.length_map] at hfit
        omega
      obtain ⟨s2, hs2eq, hs2inv, hs2last⟩ := splitLeaf_plug order hord s
        path2 lp (kvInsort k v M) lnext llo lhi KL KR uc hpzf
        (kvInsort_sorted k v M hsortM hfreshM)
        (by
          intro kv hkv
          rcases mem_kvInsort k v M kv hkv with rfl | h2
          · exact ⟨hlloK, hlhiK⟩
          · exact hbM kv h2)
        hlen3 hucb hlp1 hlple hlpnuc
      rw [hkveq] at hs2inv
      refine ⟨s2, ?_, hs2inv, by omega⟩
      unfold insertM
      rw [hgo]
      simp only [hgn]
      rw [if_neg hfit, insortRec_map]
      rw [hs2eq]

/-- The key-value contents after inserting a list of pairs in order. -/
def kvsOfRun : List (Int × List Nat) → List KV → List KV
  | [], acc => acc
  | (k, v) :: ps, acc => kvsOfRun ps (kvInsort k v acc)

theorem runInserts_inv (order : Nat) (hord : 3 ≤ order) :
    ∀ (ps : List (Int × List Nat)) (s : TState) (kvs : List KV),
      TreeInv s kvs →
      (∀ p ∈ ps, ∀ kv ∈ kvs, kv.1 ≠ p.1) →
      (ps.map Prod.fst).Pairwise (· ≠ ·) →
      ∃ s2, runInserts order s ps = .ok s2 ∧
        TreeInv s2 (kvsOfRun ps kvs) := by
  intro ps
  induction ps with
  | nil =>
      intro s kvs hinv hfr hdist
      exact ⟨s, rfl, hinv⟩
  | cons p ps ih =>
      obtain ⟨k, v⟩ := p
      intro s kvs hinv hfr hdist
      obtain ⟨s1, hs1eq, hs1inv, hs1last⟩ := insertM_inv order hord s kvs
        hinv k v true (fun kv hkv => hfr (k, v) (by simp) kv hkv)
      rw [List.map_cons, List.pairwise_cons] at hdist
      obtain ⟨s2, hs2eq, hs2inv⟩ := ih s1 (kvInsort k v kvs) hs1inv
        (by
          intro p2 hp2 kv hkv
          rcases mem_kvInsort k v kvs kv hkv with rfl | h2
          · exact hdist.1 p2.1 (List.mem_map_of_mem Prod.fst hp2)
          · exact hfr p2 (by simp [hp2]) kv h2)
        hdist.2
      refine ⟨s2, ?_, hs2inv⟩
      show runInserts order s ((k, v) :: ps) = .ok s2
      simp only [runInserts, hs1eq]
      exact hs2eq

theorem kvFind_run_notmem :
    ∀ (ps : List (Int × List Nat)) (acc : List KV) (k : Int),
      (∀ p ∈ ps, p.1 ≠ k) →
      kvFind k (kvsOfRun ps acc) = kvFind k acc := by
  intro ps
  induction ps with
  | nil => intro acc k hk; rfl
  | cons p ps ih =>
      obtain ⟨k1, v1⟩ := p
      intro acc k hk
      show kvFind k (kvsOfRun ps (kvInsort k1 v1 acc)) = kvFind k acc
      rw [ih (kvInsort k1 v1 acc) k (fun p2 hp2 => hk p2 (by simp [hp2]))]
      exact kvFind_kvInsort_ne k1 k v1 acc
        (fun hcon => hk (k1, v1) (by simp) hcon.symm)

theorem kvFind_run_mem :
    ∀ (ps : List (Int × List Nat)) (acc : List KV),
      (ps.map Prod.fst).Pairwise (· ≠ ·) →
      (∀ p ∈ ps, ∀ kv ∈ acc, kv.1 ≠ p.1) →
      ∀ p ∈ ps, kvFind p.1 (kvsOfRun ps acc) = some p.2 := by
  intro ps
  induction ps with
  | nil => intro acc hdist hfr p hp; simp at hp
  | cons q ps ih =>
      obtain ⟨k1, v1⟩ := q
      intro acc hdist hfr p hp
      rw [List.map_cons, List.pairwise_cons] at hdist
      rcases List.mem_cons.mp hp with heq | hp2
      · subst heq
        show kvFind k1 (kvsOfRun ps (kvInsort k1 v1 acc)) = some v1
        rw [kvFind_run_notmem ps (kvInsort k1 v1 acc) k1
          (by
            intro p2 hp2
            have := hdist.1 p2.1 (List.mem_map_of_mem Prod.fst hp2)
            exact fun hcon => this hcon.symm)]
        exact kvFind_kvInsort_self k1 v1 acc
          (fun kv hkv => hfr (k1, v1) (by simp) kv hkv)
      · show kvFind p.1 (kvsOfRun ps (kvInsort k1 v1 acc)) = some p.2
        refine ih (kvInsort k1 v1 acc) hdist.2 ?_ p hp2
        intro p2 hp2b kv hkv
        rcases mem_kvInsort k1 v1 acc kv hkv with rfl | h2
        · exact hdist.1 p2.1 (List.mem_map_of_mem Prod.fst hp2b)
        · exact hfr p2 (by simp [hp2b]) kv h2

/-- The suffix of the leaf chain starting at an optional page: `n`
counts the leaves, and the listed pairs are the concatenated contents
until the chain ends. -/
inductive ChainCont (pages : Nat → BNode) :
    Nat → Option Nat → List KV → Prop where
  | nil : ChainCont pages 0 none []
  | cons : ∀ (n p : Nat) (seg : List KV) (x : Option Nat) (rest : List KV),
      pages p = .leaf (seg.map kvRec) x →
      ChainCont pages n x rest →
      ChainCont pages (n + 1) (some p) (seg ++ rest)

theorem childrenF_chain (pages : Nat → BNode) (sub : SubPred)
    (hrec : ∀ p2 l2 h2 kv2 u2 f2 x2, sub p2 l2 h2 kv2 u2 f2 x2 →
      ∀ n rest, ChainCont pages n x2 rest →
      ∃ m, ChainCont pages m (some f2) (kv2 ++ rest) ∧ m ≤ u2.card + n) :
    ∀ (es : List RefE) (lo hi : Option Int) (kvs : List KV)
      (used : Finset Nat) (f : Nat) (x : Option Nat),
      ChildrenF sub lo hi es kvs used f x →
      ∀ n rest, ChainCont pages n x rest →
      ∃ m, ChainCont pages m (some f) (kvs ++ rest) ∧
        m ≤ used.card + n := by
  intro es
  induction es with
  | nil =>
      intro lo hi kvs used f x hch
      simp [ChildrenF] at hch
  | cons e rest2 ih =>
      cases rest2 with
      | nil =>
          intro lo hi kvs used f x hch n rest hcc
          obtain ⟨kv1, kv2, u1, u2, g, h1, h2, hkvs, hused, hdisj, h6,
            h7⟩ := hch
          obtain ⟨m2, hcc2, hm2⟩ := hrec _ _ _ _ _ _ _ h7 n rest hcc
          obtain ⟨m1, hcc1, hm1⟩ := hrec _ _ _ _ _ _ _ h6 m2
            (kv2 ++ rest) hcc2
          refine ⟨m1, ?_, ?_⟩
          · rw [hkvs, List.append_assoc]
            exact hcc1
          · rw [hused, Finset.card_union_of_disjoint hdisj]
            omega
      | cons e2 rest3 =>
          intro lo hi kvs used f x hch n rest hcc
          obtain ⟨kv1, kv2, u1, u2, g, h1, hlink, hkvs, hused, hdisj, h6,
            h7⟩ := hch
          obtain ⟨m2, hcc2, hm2⟩ := ih _ _ _ _ _ _ h7 n rest hcc
          obtain ⟨m1, hcc1, hm1⟩ := hrec _ _ _ _ _ _ _ h6 m2
            (kv2 ++ rest) hcc2
          refine ⟨m1, ?_, ?_⟩
          · rw [hkvs, List.append_assoc]
            exact hcc1
          · rw [hused, Finset.card_union_of_disjoint hdisj]
            omega

theorem subH_chain (pages : Nat → BNode) :
    ∀ (h page : Nat) (lo hi : Option Int) (kvs : List KV)
      (used : Finset Nat) (first : Nat) (x : Option Nat),
      SubH pages h page lo hi kvs used first x →
      ∀ n rest, ChainCont pages n x rest →
      ∃ m, ChainCont pages m (some first) (kvs ++ rest) ∧
        m ≤ used.card + n := by
  intro h
  induction h with
  | zero =>
      intro page lo hi kvs used first x hsub n rest hcc
      obtain ⟨hp, hsort, hb, hu, hf⟩ := hsub
      refine ⟨n + 1, ?_, ?_⟩
      · rw [hf]
        exact ChainCont.cons n page kvs x rest hp hcc
      · rw [hu]
        simp
        omega
  | succ h ih =>
      intro page lo hi kvs used first x hsub n rest hcc
      obtain ⟨es, used2, hp, hnotin, hu, hch⟩ := hsub
      obtain ⟨m, hccm, hm⟩ := childrenF_chain pages (SubH pages h)
        (fun p2 l2 h2 kv2 u2 f2 x2 hs2 =>
          ih p2 l2 h2 kv2 u2 f2 x2 hs2)
        es lo hi kvs used2 first x hch n rest hcc
      refine ⟨m, hccm, ?_⟩
      have : used2.card ≤ used.card := by
        rw [hu]
        exact Finset.card_le_card (Finset.subset_insert _ _)
      omega


theorem childrenF_chain_split (pages : Nat → BNode) (sub : SubPred)
    (k : Int)
    (hrec : ∀ p2 l2 h2 kv2 u2 f2 x2, sub p2 l2 h2 kv2 u2 f2 x2 →
      ∀ n rest, ChainCont pages n x2 rest →
      ∃ m, ChainCont pages m (some f2) (kv2 ++ rest) ∧ m ≤ u2.card + n)
    (hfact : ∀ p2 l2 h2 kv2 u2 f2 x2, sub p2 l2 h2 kv2 u2 f2 x2 →
      (∀ kv ∈ kv2, withinLo l2 kv.1 ∧ withinHi kv.1 h2) ∧
        SortedKVs kv2) :
    ∀ (es : List RefE) (lo hi : Option Int) (kvs : List KV)
      (used : Finset Nat) (f : Nat) (x : Option Nat),
      ChildrenF sub lo hi es kvs used f x →
      withinLo lo k → withinHi k hi →
      ∃ cp clo chi K1 M2 K2 uR cu cf cx,
        findNextNodePage es k = some cp ∧
        sub cp clo chi M2 cu cf cx ∧
        withinLo clo k ∧ withinHi k chi ∧
        kvs = K1 ++ M2 ++ K2 ∧
        (∀ kv ∈ K1, kv.1 < k) ∧
        used = uR ∪ cu ∧ Disjoint uR cu ∧
        ∀ n rest, ChainCont pages n x rest →
          ∃ m, ChainCont pages m cx (K2 ++ rest) ∧ m ≤ uR.card + n := by
  intro es
  induction es with
  | nil =>
      intro lo hi kvs used f x hch
      simp [ChildrenF] at hch
  | cons e rest2 ih =>
      cases rest2 with
      | nil =>
          intro lo hi kvs used f x hch hklo hkhi
          obtain ⟨kv1, kv2, u1, u2, g, h1, h2, hkvs, hused, hdisj, h6,
            h7⟩ := hch
          by_cases hk : k < e.key
          · refine ⟨e.before, lo, some e.key, [], kv1, kv2, u2, u1, f,
              some g, by simp [findNextNodePage, hk], h6, hklo, hk,
              by simpa using hkvs, by simp,
              by rw [hused, Finset.union_comm], hdisj.symm, ?_⟩
            intro n rest hcc
            obtain ⟨m2, hcc2, hm2⟩ := hrec _ _ _ _ _ _ _ h7 n rest hcc
            exact ⟨m2, hcc2, hm2⟩
          · have he : e.key ≤ k := not_lt.mp hk
            refine ⟨e.after, some e.key, hi, kv1, kv2, [], u1, u2, g,
              x, by simp [findNextNodePage, hk, he], h7, he, hkhi,
              by simpa using hkvs, ?_, hused, hdisj, ?_⟩
            · intro kv hkv
              have hwh : kv.1 < e.key :=
                ((hfact _ _ _ _ _ _ _ h6).1 kv hkv).2
              exact lt_of_lt_of_le hwh he
            · intro n rest hcc
              exact ⟨n, by simpa using hcc, by omega⟩
      | cons e2 rest3 =>
          intro lo hi kvs used f x hch hklo hkhi
          obtain ⟨kv1, kv2, u1, u2, g, h1, hlink, hkvs, hused, hdisj, h6,
            h7⟩ := hch
          by_cases hk : k < e.key
          · refine ⟨e.before, lo, some e.key, [], kv1, kv2, u2, u1, f,
              some g, ?_, h6, hklo, hk, by simpa using hkvs, by simp,
              by rw [hused, Finset.union_comm], hdisj.symm, ?_⟩
            · cases hbl : (e2 :: rest3).getLast? with
              | none => simp at hbl
              | some bb =>
                  simp only [findNextNodePage, List.head?_cons,
                    List.getLast?_cons_cons, hbl]
                  rw [if_pos hk]
            · intro n rest hcc
              obtain ⟨m2, hcc2, hm2⟩ := childrenF_chain pages sub hrec
                (e2 :: rest3) (some e.key) hi kv2 u2 g x h7 n rest hcc
              exact ⟨m2, hcc2, hm2⟩
          · have he : e.key ≤ k := not_lt.mp hk
            obtain ⟨cp, clo, chi, K1, M2, K2, uR, cu, cf, cx, hfind,
              hsub, hclo, hchi, hkvs2, hK1, hused2, hdisj2, hcont⟩ :=
              ih (some e.key) hi kv2 u2 g x h7 he hkhi
            refine ⟨cp, clo, chi, kv1 ++ K1, M2, K2, u1 ∪ uR, cu, cf,
              cx, ?_, hsub, hclo, hchi, ?_, ?_, ?_, ?_, ?_⟩
            · rw [findNext_cons_ge e e2 rest3 k he hlink
                (ChildrenF_sortedRefs sub (e2 :: rest3) (some e.key) hi
                  kv2 u2 g x h7)]
              exact hfind
            · rw [hkvs, hkvs2]
              simp
            · intro kv hkv
              rcases List.mem_append.mp hkv with h2 | h2
              · have hwh : kv.1 < e.key :=
                  ((hfact _ _ _ _ _ _ _ h6).1 kv h2).2
                exact lt_of_lt_of_le hwh he
              · exact hK1 kv h2
            · rw [hused, hused2, Finset.union_assoc]
            · refine Finset.disjoint_union_left.mpr ⟨?_, hdisj2⟩
              refine Finset.disjoint_of_subset_right ?_ hdisj
              rw [hused2]
              exact Finset.subset_union_right
            · intro n rest hcc
              obtain ⟨m, hccm, hm⟩ := hcont n rest hcc
              refine ⟨m, hccm, ?_⟩
              have : uR.card ≤ (u1 ∪ uR).card :=
                Finset.card_le_card Finset.subset_union_right
              omega

theorem subH_search_chain (s : TState) (k : Int) :
    ∀ (h : Nat) (fuel page : Nat) (lo hi : Option Int) (kvs : List KV)
      (used : Finset Nat) (first : Nat) (x : Option Nat)
      (acc : List (Nat × List RefE)),
      SubH s.pages h page lo hi kvs used first x →
      withinLo lo k → withinHi k hi → h < fuel →
      ∃ path2 lp M lnext K1 K2,
        searchPathGo s k fuel page acc =
          some (path2, lp, M.map kvRec, lnext, false) ∧
        kvs = K1 ++ M ++ K2 ∧
        (∀ kv ∈ K1, kv.1 < k) ∧
        ∀ n rest, ChainCont s.pages n x rest →
          ∃ m, ChainCont s.pages m (some lp) (M ++ (K2 ++ rest)) ∧
            m ≤ used.card + n := by
  intro h
  induction h with
  | zero =>
      intro fuel page lo hi kvs used first x acc hsub hklo hkhi hfuel
      obtain ⟨hp, hsort, hb, hu, hf⟩ := hsub
      cases fuel with
      | zero => omega
      | succ m =>
          refine ⟨acc, page, kvs, x, [], [],
            by simp [searchPathGo, hp], by simp, by simp, ?_⟩
          intro n rest hcc
          refine ⟨n + 1, ?_, ?_⟩
          · simpa using ChainCont.cons n page kvs x rest hp hcc
          · rw [hu]
            simp
            omega
  | succ h ih =>
      intro fuel page lo hi kvs used first x acc hsub hklo hkhi hfuel
      obtain ⟨es, used2, hp, hnotin, hu, hch⟩ := hsub
      cases fuel with
      | zero => omega
      | succ m =>
          obtain ⟨cp, clo, chi, K1, M2, K2, uR, cu, cf, cx, hfind, hsub2,
            hclo, hchi, hkvs2, hK1, hused2, hdisj2, hcont⟩ :=
            childrenF_chain_split s.pages (SubH s.pages h) k
              (fun p2 l2 h2 kv2 u2 f2 x2 hs2 =>
                subH_chain s.pages h p2 l2 h2 kv2 u2 f2 x2 hs2)
              (fun p2 l2 h2 kv2 u2 f2 x2 hs2 =>
                SubH_kvs_facts s.pages h p2 l2 h2 kv2 u2 f2 x2 hs2)
              es lo hi kvs used2 first x hch hklo hkhi
          obtain ⟨path2, lp, M, lnext, K1b, K2b, hgo, hkvs3, hK1b,
            hcont2⟩ := ih m cp clo chi M2 cu cf cx ((page, es) :: acc)
            hsub2 hclo hchi (by omega)
          refine ⟨path2, lp, M, lnext, K1 ++ K1b, K2b ++ K2, ?_, ?_, ?_,
            ?_⟩
          · simp only [searchPathGo, hp, hfind]
            exact hgo
          · rw [hkvs2, hkvs3]
            simp
          · intro kv hkv
            rcases List.mem_append.mp hkv with h2 | h2
            · exact hK1 kv h2
            · exact hK1b kv h2
          · intro n rest hcc
            obtain ⟨m1, hcc1, hm1⟩ := hcont n rest hcc
            obtain ⟨m2, hcc2, hm2⟩ := hcont2 m1 (K2 ++ rest) hcc1
            refine ⟨m2, by simpa [List.append_assoc] using hcc2, ?_⟩
            have hcard : uR.card + cu.card = used2.card := by
              rw [hused2]
              rw [Finset.card_union_of_disjoint hdisj2]
            have : used2.card ≤ used.card := by
              rw [hu]
              exact Finset.card_le_card (Finset.subset_insert _ _)
            omega


/-- The keep-predicate of the slice loop: neither skipped as below
`start` nor cut off as at-or-past `stop`. -/
def sliceKeep (sq : SliceQ) (kv : KV) : Bool :=
  !(belowStart sq kv.1) && !(atOrPastStop sq kv.1)

theorem atOrPastStop_mono (sq : SliceQ) (a b : Int)
    (h : atOrPastStop sq a = true) (hab : a ≤ b) :
    atOrPastStop sq b = true := by
  obtain ⟨st, sp0, stp⟩ := sq
  cases sp0 with
  | none => exact h
  | some sp =>
      have h2 : sp ≤ a := of_decide_eq_true h
      exact decide_eq_true (by omega)

theorem iterEntriesSlice_cons_skip (sq : SliceQ) (e : RecordE)
    (es : List RecordE) (h : belowStart sq e.key = true) :
    iterEntriesSlice sq (e :: es) = iterEntriesSlice sq es := by
  simp only [iterEntriesSlice]
  rw [if_pos h]

theorem iterEntriesSlice_cons_stop (sq : SliceQ) (e : RecordE)
    (es : List RecordE) (h1 : belowStart sq e.key = false)
    (h2 : atOrPastStop sq e.key = true) :
    iterEntriesSlice sq (e :: es) = ([], true) := by
  simp only [iterEntriesSlice]
  rw [h1]
  simp only [Bool.false_eq_true, if_false]
  rw [if_pos h2]

theorem iterEntriesSlice_cons_keep (sq : SliceQ) (e : RecordE)
    (es : List RecordE) (h1 : belowStart sq e.key = false)
    (h2 : atOrPastStop sq e.key = false) :
    iterEntriesSlice sq (e :: es) =
      (e :: (iterEntriesSlice sq es).1, (iterEntriesSlice sq es).2) := by
  simp only [iterEntriesSlice]
  rw [h1, h2]
  simp only [Bool.false_eq_true, if_false]

theorem filter_keep_nil (sq : SliceQ) (l : List KV)
    (h : ∀ kv ∈ l, atOrPastStop sq kv.1 = true) :
    l.filter (sliceKeep sq) = [] := by
  induction l with
  | nil => rfl
  | cons kv l ih =>
      have hkv := h kv (by simp)
      have hfalse : sliceKeep sq kv = false := by
        unfold sliceKeep
        rw [hkv]
        simp
      rw [List.filter_cons_of_neg (by simp [hfalse])]
      exact ih (fun kv2 hkv2 => h kv2 (by simp [hkv2]))

theorem iterEntriesSlice_fst (sq : SliceQ) :
    ∀ l : List KV, SortedKVs l →
      (iterEntriesSlice sq (l.map kvRec)).1 =
        (l.filter (sliceKeep sq)).map kvRec := by
  intro l
  induction l with
  | nil =>
      intro hs
      rfl
  | cons kv l ih =>
      intro hs
      obtain ⟨hhead, htail⟩ := List.pairwise_cons.mp hs
      have hkey : (kvRec kv).key = kv.1 := rfl
      rw [List.map_cons]
      cases hbs : belowStart sq kv.1 with
      | true =>
          rw [iterEntriesSlice_cons_skip sq (kvRec kv) (l.map kvRec)
            (by rw [hkey]; exact hbs)]
          rw [List.filter_cons_of_neg (by simp [sliceKeep, hbs])]
          exact ih htail
      | false =>
          cases hps : atOrPastStop sq kv.1 with
          | true =>
              rw [iterEntriesSlice_cons_stop sq (kvRec kv) (l.map kvRec)
                (by rw [hkey]; exact hbs) (by rw [hkey]; exact hps)]
              rw [List.filter_cons_of_neg (by simp [sliceKeep, hps])]
              rw [filter_keep_nil sq l
                (fun kv2 hkv2 => atOrPastStop_mono sq kv.1 kv2.1 hps
                  (le_of_lt (hhead kv2 hkv2)))]
              rfl
          | false =>
              rw [iterEntriesSlice_cons_keep sq (kvRec kv) (l.map kvRec)
                (by rw [hkey]; exact hbs) (by rw [hkey]; exact hps)]
              rw [List.filter_cons_of_pos
                (by simp [sliceKeep, hbs, hps])]
              rw [List.map_cons]
              rw [ih htail]

theorem iterEntriesSlice_snd (sq : SliceQ) :
    ∀ l : List KV, (iterEntriesSlice sq (l.map kvRec)).2 = true →
      ∃ kv ∈ l, atOrPastStop sq kv.1 = true := by
  intro l
  induction l with
  | nil =>
      intro h
      simp [iterEntriesSlice] at h
  | cons kv l ih =>
      intro h
      have hkey : (kvRec kv).key = kv.1 := rfl
      rw [List.map_cons] at h
      cases hbs : belowStart sq kv.1 with
      | true =>
          rw [iterEntriesSlice_cons_skip sq (kvRec kv) (l.map kvRec)
            (by rw [hkey]; exact hbs)] at h
          obtain ⟨kv2, hkv2, hps⟩ := ih h
          exact ⟨kv2, by simp [hkv2], hps⟩
      | false =>
          cases hps : atOrPastStop sq kv.1 with
          | true => exact ⟨kv, by simp, hps⟩
          | false =>
              rw [iterEntriesSlice_cons_keep sq (kvRec kv) (l.map kvRec)
                (by rw [hkey]; exact hbs) (by rw [hkey]; exact hps)] at h
              obtain ⟨kv2, hkv2, hps2⟩ := ih h
              exact ⟨kv2, by simp [hkv2], hps2⟩

theorem iterSliceGo_chain (s : TState) (sq : SliceQ) :
    ∀ (fuel n p : Nat) (L : List KV),
      ChainCont s.pages n (some p) L → SortedKVs L → n ≤ fuel →
      iterSliceGo s sq fuel p =
        some ((L.filter (sliceKeep sq)).map kvRec) := by
  intro fuel
  induction fuel with
  | zero =>
      intro n p L hcc hs hn
      cases hcc
      omega
  | succ fuel ih =>
      intro n p L hcc hs hn
      cases hcc with
      | cons n2 p seg x rest hleaf hrest =>
          obtain ⟨hs1, hs2, hcross⟩ := List.pairwise_append.mp hs
          have hfst := iterEntriesSlice_fst sq seg hs1
          simp only [iterSliceGo, hleaf]
          cases hsnd : (iterEntriesSlice sq (seg.map kvRec)).2 with
          | true =>
              simp only [hsnd, if_true, hfst]
              have hnil : rest.filter (sliceKeep sq) = [] := by
                obtain ⟨kv, hkv, hps⟩ := iterEntriesSlice_snd sq seg hsnd
                exact filter_keep_nil sq rest
                  (fun kv2 hkv2 => atOrPastStop_mono sq kv.1 kv2.1 hps
                    (le_of_lt (hcross kv hkv kv2 hkv2)))
              rw [List.filter_append, hnil, List.append_nil]
          | false =>
              simp only [hsnd, Bool.false_eq_true, if_false]
              cases hrest with
              | nil =>
                  simp only [hfst]
                  rw [List.append_nil]
              | cons n3 p2 seg2 x2 rest2 hleaf2 hrest2 =>
                  have hko := ih (n3 + 1) p2 (seg2 ++ rest2)
                    (ChainCont.cons n3 p2 seg2 x2 rest2 hleaf2 hrest2)
                    hs2 (by omega)
                  simp only [hko, Option.map_some, hfst]
                  simp [List.filter_append]

theorem leftRecordNodeGo_first (s : TState) :
    ∀ (h fuel page : Nat) (lo hi : Option Int) (kvs : List KV)
      (used : Finset Nat) (first : Nat) (x : Option Nat),
      SubH s.pages h page lo hi kvs used first x → h < fuel →
      ∃ es2 np2, leftRecordNodeGo s fuel page = some (first, es2, np2) := by
  intro h
  induction h with
  | zero =>
      intro fuel page lo hi kvs used first x hsub hfuel
      obtain ⟨hp, hsort, hb, hu, hf⟩ := hsub
      cases fuel with
      | zero => omega
      | succ m =>
          refine ⟨kvs.map kvRec, x, ?_⟩
          rw [hf]
          simp [leftRecordNodeGo, hp]
  | succ h ih =>
      intro fuel page lo hi kvs used first x hsub hfuel
      obtain ⟨es, used2, hp, hnotin, hu, hch⟩ := hsub
      cases fuel with
      | zero => omega
      | succ m =>
          cases es with
          | nil => simp [ChildrenF] at hch
          | cons e rest =>
              have hbefore : ∃ kv1 u1 g,
                  SubH s.pages h e.before lo (some e.key) kv1 u1 first
                    (some g) := by
                cases rest with
                | nil =>
                    obtain ⟨kv1, kv2, u1, u2, g, h1, h2, hkvs, hused,
                      hdisj, h6, h7⟩ := hch
                    exact ⟨kv1, u1, g, h6⟩
                | cons e2 rest2 =>
                    obtain ⟨kv1, kv2, u1, u2, g, h1, hlink, hkvs, hused,
                      hdisj, h6, h7⟩ := hch
                    exact ⟨kv1, u1, g, h6⟩
              obtain ⟨kv1, u1, g, hsub2⟩ := hbefore
              obtain ⟨es2, np2, hgo⟩ := ih m e.before lo (some e.key)
                kv1 u1 first (some g) hsub2 (by omega)
              refine ⟨es2, np2, ?_⟩
              simp only [leftRecordNodeGo, hp, List.head?_cons]
              exact hgo

theorem sliceKeep_false_below (sq : SliceQ) (st : Int)
    (hstart : sq.start = some st) (kv : KV) (h : kv.1 < st) :
    sliceKeep sq kv = false := by
  unfold sliceKeep belowStart
  rw [hstart]
  simp [h]

theorem filter_keep_below (sq : SliceQ) (st : Int)
    (hstart : sq.start = some st) (l : List KV)
    (h : ∀ kv ∈ l, kv.1 < st) : l.filter (sliceKeep sq) = [] := by
  induction l with
  | nil => rfl
  | cons kv l ih =>
      rw [List.filter_cons_of_neg
        (by simp [sliceKeep_false_below sq st hstart kv (h kv (by simp))])]
      exact ih (fun kv2 hkv2 => h kv2 (by simp [hkv2]))

theorem iterSliceM_ok (s : TState) (kvs : List KV) (sq : SliceQ)
    (hinv : TreeInv s kvs) (hstep : sq.step = none)
    (hbw : backwardsSlice sq = false) :
    iterSliceM s sq = .ok ((kvs.filter (sliceKeep sq)).map kvRec) := by
  obtain ⟨used, hroot, hbound⟩ := hinv
  unfold iterSliceM
  rw [hstep, hbw]
  simp only [Option.isSome_none, Bool.false_eq_true, if_false]
  rcases hroot with ⟨hp, hsorted, hu⟩ | ⟨es, used2, h, first, hp, hnotin,
    hu, hch⟩
  · -- lonely root: both slices start at the root page and iterate it
    have hfst := iterEntriesSlice_fst sq kvs hsorted
    cases hstart : sq.start with
    | none =>
        simp only [leftRecordNodeGo, hp, Option.map_some']
        simp only [iterSliceGo, hp]
        rw [hfst]
    | some st =>
        simp only [searchPathGo, hp, Option.map_some']
        simp only [iterSliceGo, hp]
        rw [hfst]
  · -- root node: locate the starting leaf and follow the chain
    have hfacts := ChildrenF_kvs_facts (SubH s.pages h)
      (fun p2 l2 h2 kv2 u2 f2 x2 hs2 =>
        SubH_kvs_facts s.pages h p2 l2 h2 kv2 u2 f2 x2 hs2)
      es none none kvs used2 first none hch
    have hlastb : used.card ≤ s.lastPage :=
      used_card_le used s.lastPage hbound
    have hu2lt : used2.card < used.card := by
      rw [hu]
      exact Finset.card_lt_card (Finset.ssubset_insert hnotin)
    cases hstart : sq.start with
    | none =>
        cases hes : es with
        | nil =>
            rw [hes] at hch
            simp [ChildrenH, ChildrenF] at hch
        | cons e rest =>
            have hbefore : ∃ kv1 u1 g,
                SubH s.pages h e.before none (some e.key) kv1 u1 first
                  (some g) ∧ u1 ⊆ used2 := by
              rw [hes] at hch
              cases rest with
              | nil =>
                  obtain ⟨kv1, kv2, u1, u2, g, h1, h2, hkvsx, husedx,
                    hdisjx, h6, h7⟩ := hch
                  refine ⟨kv1, u1, g, h6, ?_⟩
                  rw [husedx]
                  exact Finset.subset_union_left
              | cons e2 rest2 =>
                  obtain ⟨kv1, kv2, u1, u2, g, h1, hlink, hkvsx, husedx,
                    hdisjx, h6, h7⟩ := hch
                  refine ⟨kv1, u1, g, h6, ?_⟩
                  rw [husedx]
                  exact Finset.subset_union_left
            obtain ⟨kv1, u1, g, hsub1, hu1sub⟩ := hbefore
            have hcard1 : h < u1.card :=
              SubH_card s.pages h e.before none (some e.key) kv1 u1
                first (some g) hsub1
            have hhlt : h < s.lastPage := by
              have h1 : u1.card ≤ used2.card := Finset.card_le_card hu1sub
              omega
            obtain ⟨es2, np2, hgo⟩ := leftRecordNodeGo_first s h
              s.lastPage e.before none (some e.key) kv1 u1 first
              (some g) hsub1 hhlt
            obtain ⟨m, hccm, hm⟩ := childrenF_chain s.pages
              (SubH s.pages h)
              (fun p2 l2 h2 kv2 u2 f2 x2 hs2 =>
                subH_chain s.pages h p2 l2 h2 kv2 u2 f2 x2 hs2)
              es none none kvs used2 first none hch 0 [] ChainCont.nil
            rw [List.append_nil] at hccm
            have hiter := iterSliceGo_chain s sq (s.lastPage + 1) m
              first kvs hccm hfacts.2 (by omega)
            simp only [leftRecordNodeGo, hp]
            rw [hes]
            simp only [List.head?_cons]
            rw [hgo]
            simp only [Option.map_some']
            rw [hiter]
    | some st =>
        obtain ⟨cp, clo, chi, K1, M2, K2, uR, cu, cf, cx, hfind, hsub2,
          hclo, hchi, hkvs2, hK1, hused2, hdisj2, hcont⟩ :=
          childrenF_chain_split s.pages (SubH s.pages h) st
            (fun p2 l2 h2 kv2 u2 f2 x2 hs2 =>
              subH_chain s.pages h p2 l2 h2 kv2 u2 f2 x2 hs2)
            (fun p2 l2 h2 kv2 u2 f2 x2 hs2 =>
              SubH_kvs_facts s.pages h p2 l2 h2 kv2 u2 f2 x2 hs2)
            es none none kvs used2 first none hch trivial trivial
        have hcusub : cu ⊆ used2 := by
          rw [hused2]
          exact Finset.subset_union_right
        have huRsub : uR ⊆ used2 := by
          rw [hused2]
          exact Finset.subset_union_left
        have hcard1 : h < cu.card :=
          SubH_card s.pages h cp clo chi M2 cu cf cx hsub2
        have hhlt : h < s.lastPage := by
          have h1 : cu.card ≤ used2.card := Finset.card_le_card hcusub
          omega
        obtain ⟨path2, lp, M, lnext, K1b, K2b, hgo, hkvs3, hK1b,
          hcont2⟩ := subH_search_chain s st h s.lastPage cp clo chi M2
          cu cf cx [(s.rootPage, es)] hsub2 hclo hchi hhlt
        obtain ⟨m1, hcc1, hm1⟩ := hcont 0 [] ChainCont.nil
        rw [List.append_nil] at hcc1
        obtain ⟨m2, hcc2, hm2⟩ := hcont2 m1 K2 hcc1
        have hcards : uR.card + cu.card = used2.card := by
          rw [hused2, Finset.card_union_of_disjoint hdisj2]
        have hsortS : SortedKVs (M ++ (K2b ++ K2)) := by
          have : SortedKVs ((K1 ++ K1b) ++ (M ++ (K2b ++ K2))) := by
            have heq : (K1 ++ K1b) ++ (M ++ (K2b ++ K2)) = kvs := by
              rw [hkvs2, hkvs3]
              simp
            rw [heq]
            exact hfacts.2
          exact (List.pairwise_append.mp this).2.1
        have hiter := iterSliceGo_chain s sq (s.lastPage + 1) m2 lp
          (M ++ (K2b ++ K2)) hcc2 hsortS (by omega)
        have hprefnil : (K1 ++ K1b).filter (sliceKeep sq) = [] := by
          refine filter_keep_below sq st hstart (K1 ++ K1b) ?_
          intro kv hkv
          rcases List.mem_append.mp hkv with h2 | h2
          · exact hK1 kv h2
          · exact hK1b kv h2
        have hfiltereq : kvs.filter (sliceKeep sq) =
            (M ++ (K2b ++ K2)).filter (sliceKeep sq) := by
          have heq : kvs = (K1 ++ K1b) ++ (M ++ (K2b ++ K2)) := by
            rw [hkvs2, hkvs3]
            simp
          rw [heq, List.filter_append, hprefnil, List.nil_append]
        simp only [searchPathGo, hp, hfind]
        rw [hgo]
        simp only [Option.map_some']
        rw [hiter, hfiltereq]

/-- C7: Range scan semantics, amended.  `_iter_slice` (tree.py lines
398-424) positions at the leaf containing `start` (or the leftmost
record node when `start` is absent), then follows `next_page` links,
skipping entries below `start` and stopping at the first entry with key
≥ `stop`; a custom step errors, and so do *non-ascending* bounds.  The
amendment: tree.py line 402 raises 'Cannot iterate backwards' whenever
`start >= stop`, so the empty range `start = stop` — admitted by the
claim's "start ≤ stop" — errors instead of yielding nothing; the scan
succeeds exactly when `start < stop` or a bound is absent.  Under the
tree invariant the successful scan returns precisely the key-ordered
stored records whose keys lie in the window. -/
theorem claim_C7 (s : TState) (kvs : List KV) (sq : SliceQ)
    (hinv : TreeInv s kvs) :
    (sq.step.isSome = true → iterSliceM s sq = .error .customStep) ∧
    (sq.step = none → backwardsSlice sq = true →
      iterSliceM s sq = .error .backwards) ∧
    (sq.step = none → backwardsSlice sq = false →
      iterSliceM s sq = .ok ((kvs.filter (sliceKeep sq)).map kvRec)) := by
  refine ⟨?_, ?_, ?_⟩
  · intro hstep
    unfold iterSliceM
    rw [if_pos hstep]
  · intro hstep hbw
    unfold iterSliceM
    rw [hstep, hbw]
    simp
  · intro hstep hbw
    exact iterSliceM_ok s kvs sq hinv hstep hbw

/-- C7 witness: on the freshly initialised tree, the slice `[1, 3)`
succeeds (and is empty), a slice with step `2` fails with the
custom-step error, and the reversed slice `[3, 1)` fails with the
backwards error. -/
theorem claim_C7_witness :
    iterSliceM initTState ⟨some 1, some 3, none⟩ = .ok [] ∧
    iterSliceM initTState ⟨some 1, some 3, some 2⟩ =
      .error .customStep ∧
    iterSliceM initTState ⟨some 3, some 1, none⟩ = .error .backwards :=
  ⟨(claim_C7 initTState [] ⟨some 1, some 3, none⟩ treeInv_init).2.2
      rfl rfl,
    (claim_C7 initTState [] ⟨some 1, some 3, some 2⟩ treeInv_init).1
      rfl,
    (claim_C7 initTState [] ⟨some 3, some 1, none⟩ treeInv_init).2.1
      rfl rfl⟩

/-- C7 counterexample to the claim as stated: the claim admits every
range with `start ≤ stop`, but the empty range `[5, 5)` — which should
yield no records — is rejected by tree.py line 402 (`start >= stop`
raises 'Cannot iterate backwards') instead of yielding an empty
iteration. -/
theorem claim_C7_counterexample :
    (5 : Int) ≤ 5 ∧ TreeInv initTState [] ∧
    iterSliceM initTState ⟨some 5, some 5, none⟩ = .error .backwards :=
  ⟨le_refl 5, treeInv_init, rfl⟩

theorem mem_of_kvFind (k : Int) (v : List Nat) :
    ∀ l : List KV, kvFind k l = some v → ∃ kv ∈ l, kv.1 = k := by
  intro l
  induction l with
  | nil => intro h; simp [kvFind] at h
  | cons kv rest ih =>
      intro h
      by_cases hk : kv.1 = k
      · exact ⟨kv, by simp, hk⟩
      · rw [show kvFind k (kv :: rest) = kvFind k rest by
          simp only [kvFind, hk, if_false]] at h
        obtain ⟨kv2, hkv2, hkk⟩ := ih h
        exact ⟨kv2, by simp [hkv2], hkk⟩

/-- C1 counterexample to the claim as stated: the claim quantifies over
every open tree, but `BPlusTree.__init__` accepts any `order` without
validation, and with `order = 2` the fourth insertion crashes during the
descent (the preceding splits leave a malformed reference node), so
`get(k) = v` does not hold for all inserted pairs of that tree. -/
theorem claim_C1_counterexample :
    runInserts 2 initTState [(1, []), (2, []), (3, []), (4, [])] =
      .error .crash := by
  rfl

/-- C1: Search correctness, amended with `order ≥ 3` (the claim's
"every open tree" admits trees whose unvalidated `order` is too small
for the split logic — see the counterexample).  Inserting any list of
distinct-keyed pairs, in any order, into a freshly initialised tree of
order at least 3 succeeds, and afterwards `get` returns the inserted
value for every inserted key and the caller-supplied default for every
other key (`get` is read-only in the model by construction). -/
theorem claim_C1 (order : Nat) (hord : 3 ≤ order)
    (ps : List (Int × List Nat))
    (hdist : (ps.map Prod.fst).Pairwise (· ≠ ·)) :
    ∃ s2, runInserts order initTState ps = .ok s2 ∧
      (∀ p ∈ ps, getM s2 p.1 none = .ok (some p.2)) ∧
      (∀ k d, (∀ p ∈ ps, p.1 ≠ k) → getM s2 k d = .ok d) := by
  obtain ⟨s2, hrun, hinv⟩ := runInserts_inv order hord ps initTState []
    treeInv_init (by simp) hdist
  refine ⟨s2, hrun, ?_, ?_⟩
  · intro p hp
    rw [getM_inv s2 (kvsOfRun ps []) hinv p.1 none]
    rw [kvFind_run_mem ps [] hdist (by simp) p hp]
  · intro k d hk
    rw [getM_inv s2 (kvsOfRun ps []) hinv k d,
      kvFind_run_notmem ps [] k hk]
    rfl

/-- C1 witness: two concrete inserts into a fresh tree of order 4; both
keys are found with their values and an absent key falls back to the
default. -/
theorem claim_C1_witness :
    ∃ s2, runInserts 4 initTState [(1, [2]), (2, [3])] = .ok s2 ∧
      (∀ p ∈ [((1 : Int), [2]), (2, [3])],
        getM s2 p.1 none = .ok (some p.2)) ∧
      (∀ k d, (∀ p ∈ [((1 : Int), [2]), (2, [3])], p.1 ≠ k) →
        getM s2 k d = .ok d) :=
  claim_C1 4 (by decide) [(1, [2]), (2, [3])] (by decide)

/-- C3: Rollback atomicity.  A write transaction that performs any
sequence of `set_node` calls and exits with an exception rolls the WAL
back and clears the page cache (`writeTxnFail`); afterwards every
`get_node` — plain or through the caching path, which is what `get`
uses — observes exactly the pre-transaction committed state, and the
caching reads keep that property. -/
theorem claim_C3 (m0 : FMem) (ops : List (Nat × List Nat)) :
    ObservesCommitted m0 (writeTxnFail m0 ops) ∧
    ∀ p, (getNodeCachingFM (writeTxnFail m0 ops) p).1 =
        committedViewFM m0 p ∧
      ObservesCommitted m0 (getNodeCachingFM (writeTxnFail m0 ops) p).2 :=
  ⟨writeTxnFail_observes m0 ops,
    fun p => getNodeCaching_preserves m0 (writeTxnFail m0 ops) p
      (writeTxnFail_observes m0 ops)⟩

/-- C4: WAL recovery equivalence.  Running any sequence of `set_page`,
`commit` and `rollback` operations on a live WAL from a fresh one and
then reopening the written frames rebuilds exactly the live committed
map (COMMIT folds pending PAGE frames in last-write-wins, ROLLBACK
drops them — both baked into `walIndexFrame`), discards the trailing
uncommitted pages (the reopened not-committed map is empty), and sets
`needs_recovery` exactly when the file is non-empty: `true` for the
replayed file, `false` for an absent/empty one. -/
theorem claim_C4 (pageSize : Nat) (ops : List WalOp) (s2 : WalState)
    (h : walRunOps pageSize walInit ops = some s2) :
    walOpen pageSize (some s2.frames) = (true, s2.committedPages, []) ∧
    walOpen pageSize none = (false, [], []) := by
  have hinv := walInv_runOps pageSize ops walInit s2
    (walInv_init pageSize) h
  obtain ⟨hlen, hmaps⟩ := hinv
  constructor
  · show (true, (walReplay pageSize s2.frames 4 ([], [])).1, []) =
      (true, s2.committedPages, [])
    rw [hmaps]
  · rfl

/-- C4 witness: a PAGE frame for page 1 followed by a COMMIT, with page
size 8; reopening the two written frames recovers the committed map
`[(1, 9)]` with nothing uncommitted, and an absent file needs no
recovery. -/
theorem claim_C4_witness :
    walRunOps 8 walInit [.setPage 1, .commit] =
      some ⟨22, [.page 1, .commit], [(1, 9)], []⟩ ∧
    walOpen 8 (some [WFrame.page 1, .commit]) = (true, [(1, 9)], []) ∧
    walOpen 8 none = (false, [], []) :=
  ⟨rfl,
    (claim_C4 8 [.setPage 1, .commit]
      ⟨22, [.page 1, .commit], [(1, 9)], []⟩ rfl).1,
    (claim_C4 8 [.setPage 1, .commit]
      ⟨22, [.page 1, .commit], [(1, 9)], []⟩ rfl).2⟩

/-- C6: the fence rule for the descent.  In a reference node with
strictly sorted entries (nonempty, with head `s` and last `b`), a key
below the first separator selects the head's `before`, a key at or
above the last separator selects the last's `after`, and a key between
two adjacent separators `e_i.key ≤ k < e_{i+1}.key` selects
`e_i.after`. -/
theorem claim_C6 (l : List RefE) (k : Int) (hs : SortedRefs l)
    (s b : RefE) (hhead : l.head? = some s) (hlast : l.getLast? = some b) :
    (k < s.key → findNextNodePage l k = some s.before) ∧
    (b.key ≤ k → findNextNodePage l k = some b.after) ∧
    (∀ (i : Nat) (hi : i + 1 < l.length) (hi0 : i < l.length),
      (l.get ⟨i, hi0⟩).key ≤ k → k < (l.get ⟨i + 1, hi⟩).key →
      findNextNodePage l k = some (l.get ⟨i, hi0⟩).after) :=
  findNextNodePage_fence_rule l k hs s b hhead hlast

/-- C6 witness: on the two-entry node `[⟨10,1,2⟩, ⟨20,2,3⟩]`, key 5
selects page 1, key 25 selects page 3 and key 15 selects page 2. -/
theorem claim_C6_witness :
    findNextNodePage [⟨10, 1, 2⟩, ⟨20, 2, 3⟩] 5 = some 1 ∧
    findNextNodePage [⟨10, 1, 2⟩, ⟨20, 2, 3⟩] 25 = some 3 ∧
    findNextNodePage [⟨10, 1, 2⟩, ⟨20, 2, 3⟩] 15 = some 2 :=
  ⟨(claim_C6 [⟨10, 1, 2⟩, ⟨20, 2, 3⟩] 5 (by unfold SortedRefs; decide) ⟨10, 1, 2⟩
      ⟨20, 2, 3⟩ rfl rfl).1 (by decide),
    (claim_C6 [⟨10, 1, 2⟩, ⟨20, 2, 3⟩] 25 (by unfold SortedRefs; decide) ⟨10, 1, 2⟩
      ⟨20, 2, 3⟩ rfl rfl).2.1 (by decide),
    (claim_C6 [⟨10, 1, 2⟩, ⟨20, 2, 3⟩] 15 (by unfold SortedRefs; decide) ⟨10, 1, 2⟩
      ⟨20, 2, 3⟩ rfl rfl).2.2 0 (by decide) (by decide) (by decide)
      (by decide)⟩

/-- C10: `insert` performs no effective validation of its value
argument.  Lines 72-73 of tree.py construct
`ValueError('Values must be bytes objects')` without raising it, so the
value-is-bytes flag has no effect on the result of `insert`, and the
constructed-but-unraised error is never surfaced. -/
theorem claim_C10 (order : Nat) (s : TState) (k : Int) (v : List Nat)
    (replace : Bool) :
    insertM order s k v false replace = insertM order s k v true replace ∧
    ∀ b, insertM order s k v b replace ≠ .error .valuesMustBeBytes := by
  constructor
  · rfl
  · intro b hcon
    unfold insertM at hcon
    cases hsp : searchPathGo s k (s.lastPage + 1) s.rootPage [] with
    | none =>
        rw [hsp] at hcon
        simp at hcon
    | some r =>
        obtain ⟨path, lp, les, lnext, isLonely⟩ := r
        rw [hsp] at hcon
        cases hge : getEntryRec les k with
        | some rec =>
            simp only [hge] at hcon
            by_cases hr : replace <;> simp [hr] at hcon
        | none =>
            simp only [hge] at hcon
            by_cases hfit : les.length < order - 1 <;>
              simp [hfit] at hcon

/-- C10 witness: at a concrete insertion, the result is identical for
the bytes and non-bytes flag, and is not the never-raised
values-must-be-bytes error. -/
theorem claim_C10_witness :
    insertM 4 initTState 1 [7] false false =
      insertM 4 initTState 1 [7] true false ∧
    insertM 4 initTState 1 [7] false false ≠
      .error .valuesMustBeBytes :=
  ⟨(claim_C10 4 initTState 1 [7] false).1,
    (claim_C10 4 initTState 1 [7] false).2 false⟩

theorem treeInv_single :
    TreeInv ⟨fun _ => .lonelyRoot [⟨1, some [5], none⟩], 1, 1⟩
      [(1, [5])] := by
  refine ⟨{1}, Or.inl ⟨rfl, ?_, rfl⟩, ?_⟩
  · unfold SortedKVs
    decide
  · decide

/-- C8: Duplicate-key handling.  With key `k` stored (value `v0`),
`insert(k, v1, replace=False)` fails with the duplicate-key error — and,
returning an error, changes nothing — while
`insert(k, v1, replace=True)` succeeds, after which `get(k)` returns
`v1` and `get` at every other key is unchanged. -/
theorem claim_C8 (order : Nat) (s : TState) (kvs : List KV) (k : Int)
    (v0 v1 : List Nat) (b : Bool) (hinv : TreeInv s kvs)
    (hk : kvFind k kvs = some v0) :
    insertM order s k v1 b false = .error .dupKey ∧
    ∃ s2, insertM order s k v1 b true = .ok s2 ∧
      getM s2 k none = .ok (some v1) ∧
      ∀ q d, q ≠ k → getM s2 q d = getM s q d := by
  refine ⟨insertM_dup order s kvs hinv k v1 v0 b hk, ?_⟩
  obtain ⟨s2, hok, hinv2, hlast⟩ := insertM_replace order s kvs hinv k
    v1 b (mem_of_kvFind k v0 kvs hk)
  refine ⟨s2, hok, ?_, ?_⟩
  · rw [getM_inv s2 (kvSet k v1 kvs) hinv2 k none,
      kvFind_kvSet_self k v1 kvs (mem_of_kvFind k v0 kvs hk)]
  · intro q d hq
    rw [getM_inv s2 (kvSet k v1 kvs) hinv2 q d,
      kvFind_kvSet_ne k q v1 kvs hq,
      getM_inv s kvs hinv q d]

/-- C8 witness: a one-record tree holding `(1, [5])`; re-inserting key 1
without replace fails with the duplicate-key error, with replace
succeeds and `get 1` then returns the new value. -/
theorem claim_C8_witness :
    insertM 4 ⟨fun _ => .lonelyRoot [⟨1, some [5], none⟩], 1, 1⟩ 1 [9]
        true false = .error .dupKey ∧
    ∃ s2, insertM 4 ⟨fun _ => .lonelyRoot [⟨1, some [5], none⟩], 1, 1⟩
        1 [9] true true = .ok s2 ∧
      getM s2 1 none = .ok (some [9]) ∧
      ∀ q d, q ≠ 1 →
        getM s2 q d =
          getM ⟨fun _ => .lonelyRoot [⟨1, some [5], none⟩], 1, 1⟩ q d :=
  claim_C8 4 ⟨fun _ => .lonelyRoot [⟨1, some [5], none⟩], 1, 1⟩
    [(1, [5])] 1 [5] [9] true treeInv_single rfl

/-- C5: Leaf split.  Splitting an overfull record node `les` at leaf
page `lp` under a parent `pp` that has room: the lower half
`les.take (les.length / 2)` stays on the old page, the upper half moves
to the freshly allocated page `last_page + 1`, the old page's
`next_page` now points at the new page while the new page keeps the old
node's prior `next_page`, and the parent receives exactly the promoted
`Reference` keyed by the new leaf's smallest key (`r.key`, smallest by
sortedness) with `before` the old page and `after` the new page. -/
theorem claim_C5 (order : Nat) (s : TState) (pp lp : Nat)
    (pes : List RefE) (les : List RecordE) (lnext : Option Nat)
    (hsorted : SortedRecs les) (hne : les ≠ [])
    (hroom : refNumChildren pes < order)
    (hlp : lp ≠ s.lastPage + 1) (hpp : pp ≠ s.lastPage + 1)
    (hpplp : pp ≠ lp) :
    ∃ r upper, splitUpper les = r :: upper ∧
      (∀ e ∈ upper, r.key < e.key) ∧
      (splitLeafM order s [(pp, pes)] lp les lnext).pages lp =
        .leaf (splitLower les) (some (s.lastPage + 1)) ∧
      (splitLeafM order s [(pp, pes)] lp les lnext).pages
          (s.lastPage + 1) = .leaf (r :: upper) lnext ∧
      (splitLeafM order s [(pp, pes)] lp les lnext).pages pp =
        .root (refInsertEntry ⟨r.key, lp, s.lastPage + 1⟩ pes) ∧
      (splitLeafM order s [(pp, pes)] lp les lnext).lastPage =
        s.lastPage + 1 := by
  have hlen : les.length / 2 < les.length :=
    Nat.div_lt_self (List.length_pos.mpr hne) one_lt_two
  have hdropne : les.drop (les.length / 2) ≠ [] := by
    intro hcon
    have hlc := congrArg List.length hcon
    rw [List.length_drop] at hlc
    simp at hlc
    omega
  cases hdrop : les.drop (les.length / 2) with
  | nil => exact absurd hdrop hdropne
  | cons r upper =>
      have hupperlt : ∀ e ∈ upper, r.key < e.key := by
        have hd : SortedRecs (les.drop (les.length / 2)) :=
          List.Pairwise.sublist (List.drop_sublist _ _) hsorted
        rw [hdrop] at hd
        exact (List.pairwise_cons.mp hd).1
      have hprom : promoteRef order { s with lastPage := s.lastPage + 1 }
          [(pp, pes)] ⟨r.key, lp, s.lastPage + 1⟩ =
          setNodeT { s with lastPage := s.lastPage + 1 } pp
            (.root (refInsertEntry ⟨r.key, lp, s.lastPage + 1⟩ pes)) := by
        unfold promoteRef
        rw [if_pos hroom]
        rfl
      have hsplit : splitLeafM order s [(pp, pes)] lp les lnext =
          setNodeT (setNodeT
            (setNodeT { s with lastPage := s.lastPage + 1 } pp
              (.root (refInsertEntry ⟨r.key, lp, s.lastPage + 1⟩ pes)))
            lp (.leaf (les.take (les.length / 2)) (some (s.lastPage + 1))))
            (s.lastPage + 1) (.leaf (r :: upper) lnext) := by
        unfold splitLeafM
        simp only [hdrop]
        rw [hprom]
      refine ⟨r, upper, hdrop, hupperlt, ?_, ?_, ?_, ?_⟩
      · rw [hsplit]
        show (if lp = s.lastPage + 1 then _ else
          if lp = lp then _ else _) = _
        rw [if_neg hlp, if_pos rfl]
        rfl
      · rw [hsplit]
        show (if s.lastPage + 1 = s.lastPage + 1 then _ else _) = _
        rw [if_pos rfl]
      · rw [hsplit]
        show (if pp = s.lastPage + 1 then _ else
          if pp = lp then _ else if pp = pp then _ else _) = _
        rw [if_neg hpp, if_neg hpplp, if_pos rfl]
      · rw [hsplit]
        rfl

/-- C5 witness: the two-record node `[1, 2]` on leaf page 3 under the
empty parent on page 4 of a fresh tree (so the new page is 2): record 1
stays, record 2 moves to page 2, the old leaf links to the new one, the
new leaf keeps the old next pointer `none`, and the parent gains the
reference `⟨2, 3, 2⟩`. -/
theorem claim_C5_witness :
    ∃ r upper,
      splitUpper [(⟨1, some [], none⟩ : RecordE), ⟨2, some [], none⟩] =
        r :: upper ∧
      (∀ e ∈ upper, r.key < e.key) ∧
      (splitLeafM 4 initTState [(4, [])] 3
          [⟨1, some [], none⟩, ⟨2, some [], none⟩] none).pages 3 =
        .leaf (splitLower [(⟨1, some [], none⟩ : RecordE),
          ⟨2, some [], none⟩]) (some 2) ∧
      (splitLeafM 4 initTState [(4, [])] 3
          [⟨1, some [], none⟩, ⟨2, some [], none⟩] none).pages 2 =
        .leaf (r :: upper) none ∧
      (splitLeafM 4 initTState [(4, [])] 3
          [⟨1, some [], none⟩, ⟨2, some [], none⟩] none).pages 4 =
        .root (refInsertEntry ⟨r.key, 3, 2⟩ []) ∧
      (splitLeafM 4 initTState [(4, [])] 3
          [⟨1, some [], none⟩, ⟨2, some [], none⟩] none).lastPage = 2 :=
  claim_C5 4 initTState 4 3 []
    [⟨1, some [], none⟩, ⟨2, some [], none⟩] none
    (by unfold SortedRecs; decide) (by decide) (by decide) (by decide)
    (by decide) (by decide)

/-- C2: Node serialization round-trip.  For every node of the four
variants whose fields fit their byte slots and whose entries fit within
the page, `dump` yields exactly `page_size` bytes, the recorded
`used_length` is at most `page_size`, and `from_page_data` on the
dumped bytes returns a node equal element-wise to the original: same
variant tag, same entries in the same order, same `next_page`. -/
theorem claim_C2 (c : TreeConf) (n : BNode) (hc : ConfWF c)
    (hn : NodeWF c n)
    (hfit : 8 + (nodeEntriesBytes c n).length ≤ c.pageSize) :
    (nodeDump c n).length = c.pageSize ∧
    nodeUsedLength c n ≤ c.pageSize ∧
    nodeFromPageData c (nodeDump c n) = some n :=
  node_dump_from_page_data_roundtrip c n hc hn hfit

/-- C2 witness: a one-record leaf with `next_page = 2` under the
configuration (page 64, order 4, key 8, value 8) round-trips through
dump and from_page_data. -/
theorem claim_C2_witness :
    (nodeDump ⟨64, 4, 8, 8⟩ (.leaf [⟨1, some [7], none⟩]
        (some 2))).length = (64 : Nat) ∧
    nodeUsedLength ⟨64, 4, 8, 8⟩ (.leaf [⟨1, some [7], none⟩]
        (some 2)) ≤ (64 : Nat) ∧
    nodeFromPageData ⟨64, 4, 8, 8⟩ (nodeDump ⟨64, 4, 8, 8⟩
        (.leaf [⟨1, some [7], none⟩] (some 2))) =
      some (.leaf [⟨1, some [7], none⟩] (some 2)) :=
  claim_C2 ⟨64, 4, 8, 8⟩ (.leaf [⟨1, some [7], none⟩] (some 2))
    (by unfold ConfWF; decide)
    ⟨by
        intro r hr
        rw [List.mem_singleton] at hr
        subst hr
        exact ⟨by decide, by decide, Or.inl ⟨[7], rfl, by decide, rfl⟩⟩,
      Or.inr ⟨2, rfl, by decide, by decide⟩⟩
    (by decide)

/-- C9: Fence maintenance on insertion.  Inserting a fresh-keyed
reference `e` into a strictly sorted reference node satisfying the
fence invariant (adjacent entries share a child page) splits the node
at `e.key` into `L ++ R`; the result is the sorted insertion with the
last entry of `L` re-pointed so its `after` equals `e.before` and the
first entry of `R` re-pointed so its `before` equals `e.after`, it is
strictly sorted, the entry immediately preceding `e` (when `L` is
nonempty) has `after = e.before`, and the entry immediately following
`e` (when `R` is nonempty) has `before = e.after`. -/
theorem claim_C9 (e : RefE) (l : List RefE)
    (hsorted : SortedRefs l) (hchain : ChainedRefs l)
    (hfresh : e.key ∉ refKeys l) :
    ∃ L R, l = L ++ R ∧ (∀ x ∈ L, x.key < e.key) ∧
      (∀ x ∈ R, e.key < x.key) ∧
      refInsertEntry e l =
        mapLast (fun a => { a with after := e.before }) L ++
          e :: modifyAt (fun a => { a with before := e.after }) 0 R ∧
      SortedRefs (refInsertEntry e l) ∧
      (∀ p, (mapLast (fun a => { a with after := e.before }) L).getLast?
          = some p → p.after = e.before) ∧
      (∀ q, (modifyAt (fun a => { a with before := e.after }) 0 R).head?
          = some q → q.before = e.after) :=
  referenceNode_insertEntry_fence e l hsorted hchain hfresh

/-- C9 witness: inserting `⟨20, 2, 9⟩` into the chained sorted node
`[⟨10, 1, 2⟩, ⟨30, 2, 3⟩]`. -/
theorem claim_C9_witness :
    ∃ L R, [(⟨10, 1, 2⟩ : RefE), ⟨30, 2, 3⟩] = L ++ R ∧
      (∀ x ∈ L, x.key < (20 : Int)) ∧
      (∀ x ∈ R, (20 : Int) < x.key) ∧
      refInsertEntry ⟨20, 2, 9⟩ [⟨10, 1, 2⟩, ⟨30, 2, 3⟩] =
        mapLast (fun a => { a with after := (2 : Nat) }) L ++
          ⟨20, 2, 9⟩ ::
            modifyAt (fun a => { a with before := (9 : Nat) }) 0 R ∧
      SortedRefs (refInsertEntry ⟨20, 2, 9⟩
        [⟨10, 1, 2⟩, ⟨30, 2, 3⟩]) ∧
      (∀ p, (mapLast (fun a => { a with after := (2 : Nat) }) L).getLast?
          = some p → p.after = 2) ∧
      (∀ q, (modifyAt (fun a => { a with before := (9 : Nat) }) 0
          R).head? = some q → q.before = 9) :=
  claim_C9 ⟨20, 2, 9⟩ [⟨10, 1, 2⟩, ⟨30, 2, 3⟩]
    (by unfold SortedRefs; decide)
    (by unfold ChainedRefs; exact List.chain'_pair.mpr rfl)
    (by unfold refKeys; decide)
